import Mathlib

/-!
Verification of the forml flow-graph view layer (`forml/flow/graph/view.py`)
and the actor abstraction (`forml/flow/task.py`).

Nodes are identified by natural numbers.  The node/port primitives
(`node.py` / `port.py` are not part of the sources; only `view.py`, the
tests and the spec describe them) are modelled from the spec, the rest is
translated from `view.py` / `task.py`.
-/

set_option maxRecDepth 4000

deriving instance DecidableEq for Except

namespace Forml

/-- Port kinds: `Apply(i)` data slots, `Train` and `Label` training inputs. -/
inductive Port where
  | apply (i : Nat)
  | train
  | label
deriving DecidableEq, Repr

/-- Is this an `Apply` port? -/
def Port.isApply : Port → Bool
  | .apply _ => true
  | _ => false

/-- Is this a `Train` or `Label` port? -/
def Port.isTrainish : Port → Bool
  | .train => true
  | .label => true
  | _ => false

/-- A subscription entry stored on a publisher output port: the subscriber
node and the subscriber-side port. -/
structure Subscription where
  node : Nat
  port : Port
deriving DecidableEq, Repr

/-- Modelled from the spec: the per-node payload of the graph (`node.py` is
not in the sources).  A node is a Worker (`worker = true`, carrying an
opaque actor `spec` and a fork-group id `fgroup`) or a Future
(`worker = false`).  `input` holds the occupied input ports, `output` is
indexed by output-port index and holds subscription lists. -/
structure NodeInfo where
  worker : Bool
  szin : Nat
  szout : Nat
  spec : Nat
  fgroup : Nat
  input : List Port
  output : List (List Subscription)
deriving DecidableEq, Repr

/-- The graph: an association list from node id to node payload. -/
structure Graph where
  nodes : List (Nat × NodeInfo)
deriving DecidableEq, Repr

/-- Payload of a node id, if present. -/
def Graph.info (g : Graph) (n : Nat) : Option NodeInfo :=
  (g.nodes.find? (fun p => p.1 == n)).map (·.2)

/-- All node ids. -/
def Graph.ids (g : Graph) : List Nat := g.nodes.map (·.1)

/-- A fresh node id: one beyond the maximum id in use. -/
def Graph.fresh (g : Graph) : Nat := (g.ids.foldr max 0) + 1

/-- Replace the payload of node `n`. -/
def Graph.setInfo (g : Graph) (n : Nat) (i : NodeInfo) : Graph :=
  ⟨g.nodes.map (fun p => if p.1 == n then (n, i) else p)⟩

/-- Error kinds surfaced by the core (spec section 7), plus bookkeeping
kinds for invalid node access and exhausted recursion fuel. -/
inductive Err where
  | selfLoop
  | alreadyBound
  | portCollision
  | trainedPublisher
  | forkTrained
  | forkNonExclusive
  | badHead
  | badTail
  | ambiguous
  | cyclic
  | closureExtension
  | closurePublishing
  | keyError
  | outOfFuel
  | assertStateless
deriving DecidableEq, Repr

/-- Modelled from the spec and `test_node.py`: a node is `trained` iff it is
a Worker holding a `Train` or `Label` input subscription (a training sink). -/
def trainedI (i : NodeInfo) : Bool :=
  i.worker && i.input.any Port.isTrainish

/-- `trained` lifted to node ids. -/
def trainedN (g : Graph) (n : Nat) : Bool :=
  match g.info n with
  | some i => trainedI i
  | none => false

/-- All output subscriptions of a node, across all output ports. -/
def outSubs (g : Graph) (n : Nat) : List Subscription :=
  match g.info n with
  | some i => i.output.flatten
  | none => []

/-- Modelled from the spec: `e.subscribed(publisher)` — `e` appears on
`publisher`'s subscription lists (`node.py` is not in the sources). -/
def subscribed (g : Graph) (e cur : Nat) : Bool :=
  (outSubs g cur).any (fun s => s.node == e)

/-- Update the element at an index of a list. -/
def updateAt {α : Type} : List α → Nat → (α → α) → List α
  | [], _, _ => []
  | a :: l, 0, f => f a :: l
  | a :: l, n + 1, f => a :: updateAt l n f

/-- Install the edge `(pubNode, pubIdx) → (subNode, subPort)` in the raw
store: append the subscription on the publisher's output port and record the
occupied port on the subscriber. -/
def recordEdge (g : Graph) (subNode : Nat) (subPort : Port) (pubNode pubIdx : Nat) : Graph :=
  let g1 :=
    match g.info pubNode with
    | some pi => g.setInfo pubNode { pi with output := updateAt pi.output pubIdx (fun l => l ++ [Subscription.mk subNode subPort]) }
    | none => g
  match g1.info subNode with
  | some si => g1.setInfo subNode { si with input := si.input ++ [subPort] }
  | none => g1

/-- Does an apply subscriber port index exceed the subscriber arity? -/
def applyIdxBad (sP : Port) (szin : Nat) : Bool :=
  match sP with
  | .apply i => decide (i ≥ szin)
  | _ => false

/-- Modelled from the spec (section 4.1; `node.py`/`port.py` are not in the
sources): the subscribe primitive.  Validity of the two port references is
checked first (Python resolves `node[index]` before subscribing), then
SelfLoop, AlreadyBound, PortCollision, TrainedPublisher and the fork-group
train-exclusivity, and only then is the edge recorded. -/
def subscribeOp (g : Graph) (subNode : Nat) (subPort : Port) (pubNode pubIdx : Nat) : Except Err Graph :=
  match g.info subNode, g.info pubNode with
  | none, _ => throw Err.keyError
  | some _, none => throw Err.keyError
  | some si, some pi =>
    if pubIdx ≥ pi.szout then throw Err.keyError
    else if applyIdxBad subPort si.szin = true then throw Err.keyError
    else if subNode == pubNode then throw Err.selfLoop
    else if subPort ∈ si.input then throw Err.alreadyBound
    else if (subPort.isApply && si.input.any Port.isTrainish)
        || (subPort.isTrainish && si.input.any Port.isApply) then throw Err.portCollision
    else if trainedI pi then throw Err.trainedPublisher
    else if subPort.isTrainish &&
        g.nodes.any (fun p => p.2.fgroup == si.fgroup && p.1 != subNode && trainedI p.2) then
      throw Err.forkNonExclusive
    else pure (recordEdge g subNode subPort pubNode pubIdx)

/-- The payload of a fork: same discriminant, arities, spec and fork group,
with empty input and output sets. -/
def forkInfo (i : NodeInfo) : NodeInfo :=
  { worker := i.worker, szin := i.szin, szout := i.szout, spec := i.spec,
    fgroup := i.fgroup, input := [], output := List.replicate i.szout [] }

/-- Modelled from the spec (section 4.2) and `test_node.py::test_fork`:
`fork()` allocates a fresh node identical in spec and arities, joined to the
same fork group, empty ports, failing with `ForkTrained` on a trained
source. -/
def forkOp (g : Graph) (n : Nat) : Except Err (Graph × Nat) :=
  match g.info n with
  | none => throw Err.keyError
  | some i =>
    if trainedI i then throw Err.forkTrained
    else pure (⟨g.nodes ++ [(g.fresh, forkInfo i)]⟩, g.fresh)

/-- `Traversal`: the current node plus the predecessor set (which always
contains the current node).  Predecessors are kept as a duplicate-free list;
set equality is membership equality. -/
structure Traversal where
  current : Nat
  preds : List Nat
deriving DecidableEq, Repr

/-- `Traversal.__new__`: the predecessor set is extended with the current
node. -/
def Traversal.make (c : Nat) (ps : List Nat) : Traversal :=
  ⟨c, if c ∈ ps then ps else c :: ps⟩

/-- Set-semantics equality of traversals (Python compares the frozensets). -/
def Traversal.same (t u : Traversal) : Bool :=
  t.current == u.current && t.preds.all (· ∈ u.preds) && u.preds.all (· ∈ t.preds)

/-- The candidate stream of `directs`: all subscriber nodes of the current
node's output ports (in insertion order) chained with those extras that are
subscribed to the current node. -/
def candidates (g : Graph) (cur : Nat) (extras : List Nat) : List Nat :=
  (outSubs g cur).map (·.node) ++ extras.filter (fun e => subscribed g e cur)

/-- Result of fully consuming the `directs` generator: the yielded
traversals and, if the iteration aborted, the error. -/
structure DirRes where
  yields : List Traversal
  err : Option Err
deriving DecidableEq, Repr

/-- The per-candidate logic of `Traversal.directs`: skip candidates already
seen or rejected by the mask, fail with `CyclicGraph` on a candidate in the
predecessor set, otherwise yield a new traversal. -/
def directsGo (preds : List Nat) (mask : Nat → Bool) : List Nat → List Nat → DirRes
  | _, [] => ⟨[], none⟩
  | seen, c :: cs =>
    if c ∈ seen ∨ mask c = false then directsGo preds mask seen cs
    else if c ∈ preds then ⟨[], some Err.cyclic⟩
    else
      let r := directsGo preds mask (c :: seen) cs
      ⟨Traversal.make c preds :: r.yields, r.err⟩

/-- `Traversal.directs`, fully consumed. -/
def Traversal.directs (g : Graph) (t : Traversal) (extras : List Nat) (mask : Nat → Bool) : DirRes :=
  directsGo t.preds mask [] (candidates g t.current extras)

/-- The mask used by `Traversal.mappers`: pass only nodes that are not
trained workers. -/
def mapperMask (g : Graph) : Nat → Bool := fun n => ! trainedN g n

/-- `Traversal.mappers`, fully consumed. -/
def Traversal.mappers (g : Graph) (t : Traversal) (extras : List Nat) : DirRes :=
  Traversal.directs g t extras (mapperMask g)

/-- Add an ending unless an equal traversal (set semantics) is present
(Python accumulates endings in a `set`). -/
def endingsInsert (es : List Traversal) (t : Traversal) : List Traversal :=
  if es.any (fun u => u.same t) then es else es ++ [t]

/-- Does the optional expected node match this node?  (`if expected and
self.current == expected`.) -/
def expMatches (exp : Option Nat) (c : Nat) : Bool :=
  match exp with
  | some e => e == c
  | none => false

/-- Loop state of `Traversal.tail`: either the loop already finished with a
result (early return or raised error), or it is still collecting the local
`seen` set and the `endings`. -/
abbrev TailSt := Except (Except Err Traversal) (List Nat × List Traversal)

/-- One candidate step of the `for node in self.mappers(expected)` loop of
`Traversal.tail`, interleaving the generator logic (seen-skip, mapper mask,
cycle check) with the recursive descent `rec`. -/
def tailStep (g : Graph) (rec : Traversal → Option Nat → Except Err Traversal)
    (t : Traversal) (exp : Option Nat) (st : TailSt) (c : Nat) : TailSt :=
  match st with
  | .error done => .error done
  | .ok (seen, endings) =>
    if c ∈ seen ∨ mapperMask g c = false then .ok (seen, endings)
    else if c ∈ t.preds then .error (throw Err.cyclic)
    else
      match rec (Traversal.make c t.preds) exp with
      | .error e => .error (throw e)
      | .ok tl =>
        if expMatches exp tl.current then .error (pure tl)
        else .ok (c :: seen, endingsInsert endings tl)

/-- The post-loop resolution of `Traversal.tail`: no endings means the
current node is the tail; at the root (predecessor set of size one), a
pending `expected` or multiple endings raise `AmbiguousTail`; otherwise an
ending is returned (`endings.pop()`, modelled as the first inserted). -/
def tailFinish (t : Traversal) (exp : Option Nat) (endings : List Traversal) : Except Err Traversal :=
  if endings.isEmpty then pure t
  else if t.preds.length == 1 && (exp.isSome || endings.length > 1) then throw Err.ambiguous
  else pure (endings.headD t)

/-- `Traversal.tail`, with recursion fuel. -/
def Traversal.tail (g : Graph) : Nat → Traversal → Option Nat → Except Err Traversal
  | 0, _, _ => throw Err.outOfFuel
  | fuel + 1, t, exp =>
    if expMatches exp t.current then pure t
    else
      match (candidates g t.current exp.toList).foldl
          (tailStep g (Traversal.tail g fuel) t exp) (.ok ([], [])) with
      | .error done => done
      | .ok (_, endings) => tailFinish t exp endings

/-- Error-absorbing fold step: thread an `Except` accumulator through a
plain `foldl` (the generator loops abort at the first raised error). -/
def exStep {α β : Type} (f : β → α → Except Err β) (acc : Except Err β) (x : α) : Except Err β :=
  match acc with
  | .error e => .error e
  | .ok b => f b x

/-- The per-candidate logic of the `each` loop: local seen-skip, the
`unseen` mask (narrowed to trained subscribers at the tail), cycle check,
recursive descent. -/
def eachStep (g : Graph) (tailN : Nat) (rec : Traversal → List Nat → Except Err (List Nat))
    (t : Traversal) (st : List Nat × List Nat) (c : Nat) : Except Err (List Nat × List Nat) :=
  if (c ∈ st.1) ∨ (c ∈ st.2) ∨ (t.current == tailN ∧ trainedN g c = false) then pure st
  else if c ∈ t.preds then throw Err.cyclic
  else
    match rec (Traversal.make c t.preds) st.2 with
    | .error e => .error e
    | .ok gs' => .ok (c :: st.1, gs')

/-- `Traversal.each`, with recursion fuel: returns the visit sequence.  The
global `seen` set doubles as the visit log; the generator logic is
interleaved with the recursive descent so that the `unseen` mask reads the
up-to-date seen set.  At the tail node the mask is narrowed to trained
subscribers. -/
def Traversal.each (g : Graph) (tailN : Nat) : Nat → Traversal → List Nat → Except Err (List Nat)
  | 0, _, _ => throw Err.outOfFuel
  | fuel + 1, t, seen0 =>
    ((candidates g t.current [tailN]).foldl
      (exStep (eachStep g tailN (Traversal.each g tailN fuel) t))
      (.ok ([], seen0 ++ [t.current]))).map (fun st => st.2)

/-- Look up or fork the copy of an original node (`copies.get(orig) or
copies.setdefault(orig, orig.fork())`). -/
def getOrFork (g : Graph) (copies : List (Nat × Nat)) (orig : Nat) :
    Except Err (Graph × List (Nat × Nat) × Nat) :=
  match copies.lookup orig with
  | some c => pure (g, copies, c)
  | none =>
    match forkOp g orig with
    | .error e => .error e
    | .ok (g', c) => pure (g', (orig, c) :: copies, c)

/-- The original subscriptions reproduced by `Traversal.copy` once the tail
traversal is reached: all `(index, subscription)` pairs of a route node
whose subscriber also lies on the route. -/
def routeSubs (g : Graph) (orig : Nat) (preds : List Nat) : List (Nat × Subscription) :=
  match g.info orig with
  | some i => i.output.enum.flatMap (fun p => (p.2.filter (fun s => s.node ∈ preds)).map (fun s => (p.1, s)))
  | none => []

/-- One reproduced subscription of the copy block: fork (or look up) the
subscriber's copy and subscribe it to the publisher's copy. -/
def copyEdgeStep (pub : Nat) (st : Graph × List (Nat × Nat)) (is : Nat × Subscription) :
    Except Err (Graph × List (Nat × Nat)) :=
  match getOrFork st.1 st.2 is.2.node with
  | .error e => .error e
  | .ok (g2, copies2, subC) =>
    match subscribeOp g2 subC is.2.port pub is.1 with
    | .error e => .error e
    | .ok g3 => .ok (g3, copies2)

/-- One route node of the copy block: fork (or look up) its copy, then
reproduce all its on-route subscriptions. -/
def copyAtTailStep (preds : List Nat) (st : Graph × List (Nat × Nat)) (orig : Nat) :
    Except Err (Graph × List (Nat × Nat)) :=
  match getOrFork st.1 st.2 orig with
  | .error e => .error e
  | .ok (g1, copies1, pub) =>
    (routeSubs g1 orig preds).foldl (exStep (copyEdgeStep pub)) (.ok (g1, copies1))

/-- The copy block of `Traversal.copy` executed at the tail: fork every
route node and re-install every apply subscription between route nodes
between the forks. -/
def copyAtTail (g : Graph) (preds : List Nat) (copies : List (Nat × Nat)) :
    Except Err (Graph × List (Nat × Nat)) :=
  preds.foldl (exStep (copyAtTailStep preds)) (.ok (g, copies))

/-- The per-candidate logic of the `copy` walk: local seen-skip, mapper
mask (read against the evolving graph), cycle check, recursive descent. -/
def copyWalkStep (rec : Traversal → Graph → List (Nat × Nat) → Except Err (Graph × List (Nat × Nat)))
    (t : Traversal) (st : List Nat × Graph × List (Nat × Nat)) (c : Nat) :
    Except Err (List Nat × Graph × List (Nat × Nat)) :=
  if (c ∈ st.1) ∨ trainedN st.2.1 c then pure st
  else if c ∈ t.preds then throw Err.cyclic
  else
    match rec (Traversal.make c t.preds) st.2.1 st.2.2 with
    | .error e => .error e
    | .ok (g', copies') => .ok (c :: st.1, g', copies')

/-- `Traversal.copy`, with recursion fuel: walk the mapper edges (generator
logic interleaved with the descent) until the tail node is reached, then
materialize the route. -/
def Traversal.copy (g₀ : Graph) (tailN : Nat) :
    Nat → Traversal → Graph → List (Nat × Nat) → Except Err (Graph × List (Nat × Nat))
  | 0, _, _, _ => throw Err.outOfFuel
  | fuel + 1, t, g, copies =>
    if t.current == tailN then copyAtTail g t.preds copies
    else
      ((candidates g₀ t.current [tailN]).foldl
        (exStep (copyWalkStep (Traversal.copy g₀ tailN fuel) t))
        (.ok ([], g, copies))).map (fun st => st.2)

/-- A constructed `Path`: the head, the resolved tail, and the
Channel/Closure discriminant (`closure = true` for Closure). -/
structure PathV where
  head : Nat
  tail : Nat
  closure : Bool
deriving DecidableEq, Repr

/-- `Path.__new__`: check the head arity, resolve the tail by traversal,
check the tail arity, and classify as Closure iff some subscriber of the
resolved tail is trained. -/
def pathNew (g : Graph) (fuel : Nat) (head : Nat) (tl : Option Nat) : Except Err PathV :=
  match g.info head with
  | none => throw Err.keyError
  | some hi =>
    if hi.szin > 1 then throw Err.badHead
    else
      match Traversal.tail g fuel (Traversal.make head []) tl with
      | .error e => .error e
      | .ok t =>
        match g.info t.current with
        | none => throw Err.keyError
        | some ti =>
          if ti.szout > 1 then throw Err.badTail
          else pure ⟨head, t.current, (outSubs g t.current).any (fun s => trainedN g s.node)⟩

/-- `Channel.extend`: subscribe the right head's apply input to our tail's
apply output (this mutation happens first and persists), then construct the
new path.  The final graph is returned alongside the outcome. -/
def channelExtend (g : Graph) (fuel : Nat) (p : PathV) (right : Option PathV) (tl : Option Nat) :
    Graph × Except Err PathV :=
  match right with
  | some r =>
    match subscribeOp g r.head (Port.apply 0) p.tail 0 with
    | .error e => (g, .error e)
    | .ok g' => (g', pathNew g' fuel p.head (some (tl.getD r.tail)))
  | none =>
    match tl with
    | some t => (g, pathNew g fuel p.head (some t))
    | none =>
      match Traversal.tail g fuel (Traversal.make p.tail []) none with
      | .error e => (g, .error e)
      | .ok t => (g, pathNew g fuel p.head (some t.current))

/-- `Closure.extend`: only the no-op call is allowed. -/
def closureExtend (g : Graph) (fuel : Nat) (p : PathV) (right : Option PathV) (tl : Option Nat) :
    Graph × Except Err PathV :=
  if right.isNone && (tl.isNone || tl == some p.tail) then
    (g, pathNew g fuel p.head (some p.tail))
  else (g, .error Err.closureExtension)

/-- Modelled from the spec: the real publisher of a node forwards a
subscription by installing it on the node's single apply output
(`port.py` is not in the sources). -/
def republishOp (g : Graph) (pubNode pubIdx : Nat) (s : Subscription) : Except Err Graph :=
  subscribeOp g s.node s.port pubNode pubIdx

/-- `Closure.Publishable.republish`: reject `Apply` targets with
`ClosurePublishing`, forward `Train`/`Label` subscriptions to the tail
node's real publisher. -/
def closureRepublish (g : Graph) (p : PathV) (s : Subscription) : Except Err Graph :=
  if s.port.isApply then .error Err.closurePublishing
  else republishOp g p.tail 0 s

/-- `Path.copy`: copy the traversal bounded by the tail and re-anchor a path
over the copies of head and tail. -/
def pathCopy (g : Graph) (fuel : Nat) (p : PathV) : Except Err (Graph × PathV) :=
  match Traversal.copy g p.tail fuel (Traversal.make p.head []) g [] with
  | .error e => .error e
  | .ok (g', copies) =>
    match copies.lookup p.head, copies.lookup p.tail with
    | some ch, some ct => (pathNew g' fuel ch (some ct)).map (fun q => (g', q))
    | _, _ => throw Err.keyError

/-- A visit event of `Path.accept`. -/
inductive Ev where
  | node (n : Nat)
  | path
deriving DecidableEq, Repr

/-- `Path.accept`: run `each` from head to tail and then visit the path
itself, last. -/
def pathAccept (g : Graph) (fuel : Nat) (p : PathV) : Except Err (List Ev) :=
  (Traversal.each g p.tail fuel (Traversal.make p.head []) []).map
    (fun seen => seen.map Ev.node ++ [Ev.path])

/-- The edges of the graph, flattened: publisher node, output index,
subscription. -/
structure Edge where
  pub : Nat
  idx : Nat
  sub : Subscription
deriving DecidableEq, Repr

/-- All edges of a graph, in store order. -/
def Graph.edges (g : Graph) : List Edge :=
  g.nodes.flatMap (fun p => p.2.output.enum.flatMap (fun q => q.2.map (fun s => Edge.mk p.1 q.1 s)))

/-- Well-formedness of a graph store: unique ids, output lists sized by
`szout`, edges consistent with the recorded input ports, no Apply with
Train/Label on one node, futures with apply inputs only. -/
def wf (g : Graph) : Bool :=
  (g.ids : List Nat).Nodup &&
  g.nodes.all (fun p => p.2.output.length == p.2.szout) &&
  g.edges.all (fun e =>
    (g.info e.sub.node).isSome &&
    ((g.info e.sub.node).elim false (fun i => e.sub.port ∈ i.input))) &&
  g.nodes.all (fun p => p.2.input.all (fun q =>
    g.edges.any (fun e => e.sub.node == p.1 && e.sub.port == q))) &&
  g.nodes.all (fun p => !(p.2.input.any Port.isApply && p.2.input.any Port.isTrainish)) &&
  g.nodes.all (fun p => p.2.worker || p.2.input.all Port.isApply)

/-- One `directs` step between traversals: `u` was yielded by some
`directs` call on `t` (any extras, any mask). -/
def StepR (g : Graph) (t u : Traversal) : Prop :=
  ∃ extras mask, u ∈ (Traversal.directs g t extras mask).yields

/-- Worker payload shorthand for the concrete example graphs. -/
def mkW (szin szout fg : Nat) (inp : List Port) (out : List (List Subscription)) : NodeInfo :=
  ⟨true, szin, szout, 0, fg, inp, out⟩

/-- Example: `1 → 2` on apply ports, `2 → 3` into a Train port (`3` is a
trained sink), so `Path(1)` is a Closure `(1, 2)`. -/
def G1 : Graph := ⟨[
  (1, mkW 0 1 1 [] [[⟨2, .apply 0⟩]]),
  (2, mkW 1 1 2 [.apply 0] [[⟨3, .train⟩]]),
  (3, mkW 1 1 3 [.train] [[]])]⟩

/-- The graph produced by copying the Closure `(1, 2)` of `G1`: forks `4`
(of `2`) and `5` (of `1`) wired `5 → 4`, fork groups preserved. -/
def G1c : Graph := ⟨[
  (1, mkW 0 1 1 [] [[⟨2, .apply 0⟩]]),
  (2, mkW 1 1 2 [.apply 0] [[⟨3, .train⟩]]),
  (3, mkW 1 1 3 [.train] [[]]),
  (4, mkW 1 1 2 [.apply 0] [[]]),
  (5, mkW 0 1 1 [] [[⟨4, .apply 0⟩]])]⟩

/-- Example: two isolated one-in/one-out workers. -/
def G2 : Graph := ⟨[
  (1, mkW 1 1 1 [] [[]]),
  (2, mkW 1 1 2 [] [[]])]⟩

/-- Example: the apply cycle `1 → 2 → 1` (installable, since `subscribe`
performs no cycle check). -/
def G3 : Graph := ⟨[
  (1, mkW 1 1 1 [.apply 0] [[⟨2, .apply 0⟩]]),
  (2, mkW 1 1 2 [.apply 0] [[⟨1, .apply 0⟩]])]⟩

/-- Example: trunk `1 → 2` with a trained sink `4` hanging off the head
`1`, not off the tail. -/
def G4 : Graph := ⟨[
  (1, mkW 0 1 1 [] [[⟨2, .apply 0⟩, ⟨4, .train⟩]]),
  (2, mkW 1 1 2 [.apply 0] [[]]),
  (4, mkW 1 1 4 [.train] [[]])]⟩

/-- Example: a lone channel `(1, 1)` and a path `2 → 3 → {1, 4}` whose
trunk feeds back into `1`; extending `(1,1)` with `(2,4)` installs `1 → 2`
and the re-traversal then hits the cycle `1 → 2 → 3 → 1`. -/
def G5 : Graph := ⟨[
  (1, mkW 1 1 1 [.apply 0] [[]]),
  (2, mkW 1 1 2 [] [[⟨3, .apply 0⟩]]),
  (3, mkW 1 2 3 [.apply 0] [[⟨1, .apply 0⟩], [⟨4, .apply 0⟩]]),
  (4, mkW 1 1 4 [.apply 0] [[]])]⟩

/-- Example for a successful extension: channel `(1, 1)` and path `(2, 3)`
with `2`'s apply input free. -/
def G6 : Graph := ⟨[
  (1, mkW 0 1 1 [] [[]]),
  (2, mkW 1 1 2 [] [[⟨3, .apply 0⟩]]),
  (3, mkW 1 1 3 [.apply 0] [[]])]⟩

/-- `G6` after subscribing `2`'s apply input to `1`'s apply output. -/
def G6x : Graph := ⟨[
  (1, mkW 0 1 1 [] [[⟨2, .apply 0⟩]]),
  (2, mkW 1 1 2 [.apply 0] [[⟨3, .apply 0⟩]]),
  (3, mkW 1 1 3 [.apply 0] [[]])]⟩

/-!  Actor abstraction (`forml/flow/task.py`, the richer draft).

The actor instance dictionary (`__dict__`) is modelled as an association
list with opaque (`Nat`) values; the pickle/joblib byte blob is modelled as
`Option` of the serialized dictionary, with `none` standing for the empty
byte string.  `get_params`/`set_params` follow the framework contract: they
read and write the hyper-parameter keys of the instance dictionary.
Whether the class overrides `train` (Python compares code objects) is a
boolean field of the class model. -/

/-- The class-level data of an actor: whether `train` is overridden and
which dictionary keys hold hyper-parameters. -/
structure ActorSig where
  overridesTrain : Bool
  paramKeys : List String
deriving DecidableEq, Repr

/-- An actor instance: its class data and its instance dictionary. -/
structure ActorSt where
  sig : ActorSig
  d : List (String × Nat)
deriving DecidableEq, Repr

/-- The serialized state: `none` is the empty byte string. -/
abbrev ActorBytes := Option (List (String × Nat))

/-- Dictionary read with a default. -/
def lookupD : List (String × Nat) → String → Nat
  | [], _ => 0
  | p :: rest, k => if p.1 = k then p.2 else lookupD rest k

/-- Dictionary write of a single key. -/
def setK (d : List (String × Nat)) (k : String) (v : Nat) : List (String × Nat) :=
  if d.any (fun p => decide (p.1 = k)) then d.map (fun p => if p.1 = k then (k, v) else p)
  else d ++ [(k, v)]

/-- `dict.update`: fold the blob entries into the dictionary. -/
def dictUpdate (d upd : List (String × Nat)) : List (String × Nat) :=
  upd.foldl (fun d p => setK d p.1 p.2) d

/-- `Actor.is_stateful`: the concrete class overrides `train`. -/
def is_stateful (a : ActorSt) : Bool := a.sig.overridesTrain

/-- `Actor.get_params`: the hyper-parameters currently held by the actor. -/
def get_params (a : ActorSt) : List (String × Nat) :=
  a.sig.paramKeys.map (fun k => (k, lookupD a.d k))

/-- `Actor.set_params`: write the given hyper-parameters into the actor. -/
def set_params (a : ActorSt) (ps : List (String × Nat)) : ActorSt :=
  { a with d := dictUpdate a.d ps }

/-- `Actor.get_state`: empty bytes for a stateless actor, the serialized
instance dictionary otherwise. -/
def get_state (a : ActorSt) : ActorBytes :=
  if is_stateful a then some a.d else none

/-- `Actor.set_state`: a no-op on empty bytes; otherwise assert
statefulness, save the hyper-parameters, update the dictionary from the
blob, and restore the hyper-parameters. -/
def set_state (a : ActorSt) (s : ActorBytes) : Except Err ActorSt :=
  match s with
  | none => pure a
  | some blob =>
    if !is_stateful a then throw Err.assertStateless
    else
      let params := get_params a
      pure (set_params { a with d := dictUpdate a.d blob } params)

/-- Invariant of the `Traversal.copy` state relative to the initial graph
`g₀`: the original nodes persist untouched, and every copy pair maps an
original (untrained at fork time) to a fresh node of the same
discriminant, arities, spec and fork group, whose inputs are all apply
ports and whose output subscriptions point only at copies. -/
def CopyInv (g₀ g : Graph) (copies : List (Nat × Nat)) : Prop :=
  (∀ n ∈ g₀.ids, n ∈ g.ids) ∧
  (g.ids).Nodup ∧
  (∀ n ∈ g₀.ids, g.info n = g₀.info n) ∧
  (∀ oc ∈ copies, oc.1 ∈ g₀.ids ∧ oc.2 ∉ g₀.ids ∧
    ∃ i₀ i, g₀.info oc.1 = some i₀ ∧ g.info oc.2 = some i ∧
      trainedI i₀ = false ∧
      i.worker = i₀.worker ∧ i.szin = i₀.szin ∧ i.szout = i₀.szout ∧
      i.spec = i₀.spec ∧ i.fgroup = i₀.fgroup ∧
      i.input.all Port.isApply = true ∧
      (∀ s ∈ i.output.flatten, s.node ∈ copies.map (·.2)))

/-- Output arity bookkeeping of the copies: every copy's output list has
exactly `szout` ports (forks start with `szout` empty port lists and
subscribing only appends within a port). -/
def CopyLen (g : Graph) (copies : List (Nat × Nat)) : Prop :=
  ∀ oc ∈ copies, ∃ i, g.info oc.2 = some i ∧ i.output.length = i.szout

/-- The copy block has fully materialized a route `P`: every route node has
a recorded copy, and every original subscription between route nodes is
reproduced between the copies at the same output index and port. -/
def RouteDone (g₀ : Graph) (P : List Nat) (g : Graph) (copies : List (Nat × Nat)) : Prop :=
  ∀ orig ∈ P, ∃ co, copies.lookup orig = some co ∧
    ∀ is ∈ routeSubs g₀ orig P, ∃ cs, copies.lookup is.2.node = some cs ∧
      Edge.mk co is.1 (Subscription.mk cs is.2.port) ∈ g.edges

/-! ## Theorems -/

/-- C7: for every Closure path, the publisher rejects any subscription
whose target port is an Apply port with `ClosurePublishing`, and forwards
every subscription targeting a Train or Label port to the tail node's real
publisher. -/
theorem claim_C7 (g : Graph) (p : PathV) (s : Subscription) (hp : p.closure = true) :
    (∀ i, s.port = Port.apply i → closureRepublish g p s = .error Err.closurePublishing) ∧
    ((s.port = Port.train ∨ s.port = Port.label) →
      closureRepublish g p s = republishOp g p.tail 0 s) := by
  refine ⟨fun i hi => ?_, fun hi => ?_⟩
  · simp [closureRepublish, hi, Port.isApply]
  · rcases hi with h | h <;> simp [closureRepublish, h, Port.isApply]

/-- Witness for C7 on the concrete Closure `(1, 2)` of `G1`. -/
theorem claim_C7_witness :
    closureRepublish G1 ⟨1, 2, true⟩ ⟨9, .apply 0⟩ = .error Err.closurePublishing ∧
    closureRepublish G1 ⟨1, 2, true⟩ ⟨9, .train⟩ = republishOp G1 2 0 ⟨9, .train⟩ :=
  ⟨(claim_C7 G1 ⟨1, 2, true⟩ ⟨9, .apply 0⟩ rfl).1 0 rfl,
   (claim_C7 G1 ⟨1, 2, true⟩ ⟨9, .train⟩ rfl).2 (Or.inl rfl)⟩

/-! ### Dictionary lemmas for the actor model -/

/-! ### Dictionary lemmas for the actor model -/

theorem lookupD_map_rep_hit (k : String) (v : Nat) :
    ∀ d : List (String × Nat), d.any (fun p => decide (p.1 = k)) = true →
      lookupD (d.map (fun p => if p.1 = k then (k, v) else p)) k = v
  | [], h => by simp at h
  | p :: rest, h => by
    by_cases hp : p.1 = k
    · simp [lookupD, hp]
    · have h' : rest.any (fun p => decide (p.1 = k)) = true := by
        simpa [List.any_cons, hp] using h
      simpa [lookupD, hp] using lookupD_map_rep_hit k v rest h'

theorem lookupD_map_rep_miss (k k' : String) (v : Nat) (hk : k' ≠ k) :
    ∀ d : List (String × Nat),
      lookupD (d.map (fun p => if p.1 = k then (k, v) else p)) k' = lookupD d k'
  | [] => rfl
  | p :: rest => by
    by_cases hp : p.1 = k
    · have h1 : ¬ (k = k') := fun h => hk h.symm
      have h2 : ¬ (p.1 = k') := by rw [hp]; exact h1
      simp [lookupD, hp, h1, h2, lookupD_map_rep_miss k k' v hk rest]
    · by_cases hq : p.1 = k'
      · simp [lookupD, hq, hk]
      · simp [lookupD, hp, hq, lookupD_map_rep_miss k k' v hk rest]

theorem lookupD_append_hit (k : String) (v : Nat) :
    ∀ d : List (String × Nat), d.any (fun p => decide (p.1 = k)) = false →
      lookupD (d ++ [(k, v)]) k = v
  | [], _ => by simp [lookupD]
  | p :: rest, h => by
    have hp : ¬ (p.1 = k) := by
      intro hp
      simp [List.any_cons, hp] at h
    have h' : rest.any (fun p => decide (p.1 = k)) = false := by
      simpa [List.any_cons, hp] using h
    simpa [lookupD, hp] using lookupD_append_hit k v rest h'

theorem lookupD_append_miss (k k' : String) (v : Nat) (hk : k' ≠ k) :
    ∀ d : List (String × Nat), lookupD (d ++ [(k, v)]) k' = lookupD d k'
  | [] => by
    have h1 : ¬ (k = k') := fun h => hk h.symm
    simp [lookupD, h1]
  | p :: rest => by
    by_cases hq : p.1 = k'
    · simp [lookupD, hq]
    · simp [lookupD, hq, lookupD_append_miss k k' v hk rest]

theorem lookupD_setK (d : List (String × Nat)) (k k' : String) (v : Nat) :
    lookupD (setK d k v) k' = if k' = k then v else lookupD d k' := by
  unfold setK
  by_cases hk : k' = k
  · subst hk
    by_cases hany : d.any (fun p => decide (p.1 = k')) = true
    · simp [hany, lookupD_map_rep_hit k' v d hany]
    · simp [hany, lookupD_append_hit k' v d (Bool.eq_false_iff.mpr hany)]
  · by_cases hany : d.any (fun p => decide (p.1 = k)) = true
    · simp [hany, hk, lookupD_map_rep_miss k k' v hk d]
    · simp [hany, hk, lookupD_append_miss k k' v hk d]

theorem lookupD_dictUpdate_notin (k : String) :
    ∀ (ps : List (String × Nat)) (d : List (String × Nat)), k ∉ ps.map (·.1) →
      lookupD (dictUpdate d ps) k = lookupD d k
  | [], d, _ => rfl
  | p :: rest, d, h => by
    have h1 : k ≠ p.1 := by
      intro hh
      exact h (by simp [hh])
    have h2 : k ∉ rest.map (·.1) := fun hh => h (by simp [hh])
    calc lookupD (dictUpdate (setK d p.1 p.2) rest) k
        = lookupD (setK d p.1 p.2) k := lookupD_dictUpdate_notin k rest _ h2
      _ = lookupD d k := by simp [lookupD_setK, h1]

theorem lookupD_dictUpdate_mem (k : String) (v : Nat) :
    ∀ (ps : List (String × Nat)) (d : List (String × Nat)),
      (ps.map (·.1)).Nodup → (k, v) ∈ ps → lookupD (dictUpdate d ps) k = v
  | [], _, _, hm => by simp at hm
  | p :: rest, d, hnd, hm => by
    rcases List.mem_cons.mp hm with h | h
    · subst h
      have hk : k ∉ rest.map (·.1) := by
        simpa using (List.nodup_cons.mp hnd).1
      calc lookupD (dictUpdate (setK d k v) rest) k
          = lookupD (setK d k v) k := lookupD_dictUpdate_notin k rest _ hk
        _ = v := by simp [lookupD_setK]
    · exact lookupD_dictUpdate_mem k v rest _ (List.nodup_cons.mp hnd).2 h

theorem lookupD_applyKeys (f : String → Nat) (k : String) :
    ∀ (keys : List String) (d : List (String × Nat)), k ∈ keys →
      lookupD (dictUpdate d (keys.map (fun k => (k, f k)))) k = f k
  | [], _, h => by simp at h
  | k₀ :: rest, d, h => by
    by_cases hr : k ∈ rest
    · exact lookupD_applyKeys f k rest _ hr
    · have hk : k = k₀ := by
        rcases List.mem_cons.mp h with h | h
        · exact h
        · exact absurd h hr
      subst hk
      have : k ∉ (rest.map (fun k => (k, f k))).map (·.1) := by simpa using hr
      calc lookupD (dictUpdate (setK d k (f k)) (rest.map (fun k => (k, f k)))) k
          = lookupD (setK d k (f k)) k := lookupD_dictUpdate_notin k _ _ this
        _ = f k := by simp [lookupD_setK]


theorem claim_C9 (a a' : ActorSt) (blob : List (String × Nat))
    (hnd : (blob.map (·.1)).Nodup) :
    (is_stateful a = true ↔ a.sig.overridesTrain = true) ∧
    (is_stateful a = false → get_state a = none) ∧
    (set_state a none = pure a) ∧
    (set_state a (some blob) = .ok a' →
      get_params a' = get_params a ∧
      ∀ k v, (k, v) ∈ blob → k ∉ a.sig.paramKeys → lookupD a'.d k = v) := by
  refine ⟨Iff.rfl, ?_, rfl, ?_⟩
  · intro h
    simp [get_state, is_stateful] at h ⊢
    simp [h]
  · intro h
    have hs : is_stateful a = true := by
      by_cases hs : is_stateful a = true
      · exact hs
      · simp only [set_state, Bool.not_eq_true] at h
        rw [Bool.not_eq_true] at hs
        simp [hs] at h
    have ha' : a' = set_params { a with d := dictUpdate a.d blob } (get_params a) := by
      have h2 := h
      simp only [set_state, hs, Bool.not_true, Bool.false_eq_true, if_false,
        pure, Except.pure] at h2
      exact ((Except.ok.injEq _ _).mp h2).symm
    have hsig : a'.sig = a.sig := by rw [ha']; rfl
    have hd : a'.d = dictUpdate (dictUpdate a.d blob)
        (a.sig.paramKeys.map (fun k => (k, lookupD a.d k))) := by
      rw [ha']; rfl
    constructor
    · unfold get_params
      rw [hsig]
      refine List.map_congr_left ?_
      intro k hk
      rw [hd, lookupD_applyKeys (fun k => lookupD a.d k) k a.sig.paramKeys _ hk]
    · intro k v hm hk
      rw [hd, lookupD_dictUpdate_notin k _ _ (by simpa using hk),
        lookupD_dictUpdate_mem k v blob _ hnd hm]

theorem claim_C9_witness :
    get_params (⟨⟨true, ["p"]⟩, [("p", 1), ("s", 7)]⟩ : ActorSt) =
      get_params (⟨⟨true, ["p"]⟩, [("p", 1), ("s", 2)]⟩ : ActorSt) ∧
    lookupD (⟨⟨true, ["p"]⟩, [("p", 1), ("s", 7)]⟩ : ActorSt).d "s" = 7 := by
  have h := (claim_C9 ⟨⟨true, ["p"]⟩, [("p", 1), ("s", 2)]⟩
      ⟨⟨true, ["p"]⟩, [("p", 1), ("s", 7)]⟩ [("s", 7)] (by decide)).2.2.2 (by decide)
  exact ⟨h.1, h.2 "s" 7 (by decide) (by decide)⟩



/-! ### Lemmas about the `directs` generator (C3) -/

theorem directsGo_yield_mem (preds : List Nat) (mask : Nat → Bool) :
    ∀ (cs seen : List Nat) (u : Traversal), u ∈ (directsGo preds mask seen cs).yields →
      u.current ∈ cs ∧ u.current ∉ preds ∧ u.current ∉ seen ∧ mask u.current = true ∧
      u = Traversal.make u.current preds
  | [], seen, u => by simp [directsGo]
  | c :: cs, seen, u => by
    by_cases hskip : c ∈ seen ∨ mask c = false
    · intro hu
      rw [directsGo, if_pos hskip] at hu
      rcases directsGo_yield_mem preds mask cs seen u hu with ⟨h1, h2, h3, h4, h5⟩
      exact ⟨List.mem_cons_of_mem _ h1, h2, h3, h4, h5⟩
    · by_cases hc : c ∈ preds
      · intro hu
        rw [directsGo, if_neg hskip, if_pos hc] at hu
        simp at hu
      · intro hu
        rw [directsGo, if_neg hskip, if_neg hc] at hu
        push_neg at hskip
        rcases List.mem_cons.mp hu with h | h
        · subst h
          exact ⟨List.mem_cons_self _ _, hc, hskip.1, by simpa using hskip.2, rfl⟩
        · rcases directsGo_yield_mem preds mask cs (c :: seen) u h with ⟨h1, h2, h3, h4, h5⟩
          exact ⟨List.mem_cons_of_mem _ h1, h2, fun hx => h3 (List.mem_cons_of_mem _ hx), h4, h5⟩

theorem directsGo_nodup (preds : List Nat) (mask : Nat → Bool) :
    ∀ (cs seen : List Nat), ((directsGo preds mask seen cs).yields.map (·.current)).Nodup
  | [], seen => by simp [directsGo]
  | c :: cs, seen => by
    by_cases hskip : c ∈ seen ∨ mask c = false
    · rw [directsGo, if_pos hskip]
      exact directsGo_nodup preds mask cs seen
    · by_cases hc : c ∈ preds
      · rw [directsGo, if_neg hskip, if_pos hc]
        simp
      · rw [directsGo, if_neg hskip, if_neg hc]
        refine List.Nodup.cons ?_ (directsGo_nodup preds mask cs (c :: seen))
        intro hmem
        rcases List.mem_map.mp hmem with ⟨u, hu, hcu⟩
        rcases directsGo_yield_mem preds mask cs (c :: seen) u hu with ⟨_, _, h3, _, _⟩
        exact h3 (by rw [hcu]; exact List.mem_cons_self _ _)

theorem directsGo_err_none (preds : List Nat) (mask : Nat → Bool) :
    ∀ (cs seen : List Nat), (directsGo preds mask seen cs).err = none →
      ∀ c ∈ cs, mask c = true → c ∉ preds ∨ c ∈ seen
  | [], seen, _ => by simp
  | c :: cs, seen, herr => by
    intro x hx hmx
    by_cases hskip : c ∈ seen ∨ mask c = false
    · rw [directsGo, if_pos hskip] at herr
      rcases List.mem_cons.mp hx with h | h
      · subst h
        rcases hskip with h | h
        · exact Or.inr h
        · rw [hmx] at h; simp at h
      · exact directsGo_err_none preds mask cs seen herr x h hmx
    · by_cases hc : c ∈ preds
      · rw [directsGo, if_neg hskip, if_pos hc] at herr
        simp at herr
      · rw [directsGo, if_neg hskip, if_neg hc] at herr
        rcases List.mem_cons.mp hx with h | h
        · subst h
          exact Or.inl hc
        · rcases directsGo_err_none preds mask cs (c :: seen) herr x h hmx with h2 | h2
          · exact Or.inl h2
          · rcases List.mem_cons.mp h2 with h3 | h3
            · subst h3; exact Or.inl hc
            · exact Or.inr h3

theorem directsGo_err_some (preds : List Nat) (mask : Nat → Bool) :
    ∀ (cs seen : List Nat) (e : Err), (directsGo preds mask seen cs).err = some e →
      e = Err.cyclic ∧ ∃ c ∈ cs, mask c = true ∧ c ∈ preds
  | [], seen, e => by simp [directsGo]
  | c :: cs, seen, e => by
    intro herr
    by_cases hskip : c ∈ seen ∨ mask c = false
    · rw [directsGo, if_pos hskip] at herr
      rcases directsGo_err_some preds mask cs seen e herr with ⟨he, x, hx, hmx, hpx⟩
      exact ⟨he, x, List.mem_cons_of_mem _ hx, hmx, hpx⟩
    · by_cases hc : c ∈ preds
      · rw [directsGo, if_neg hskip, if_pos hc] at herr
        push_neg at hskip
        refine ⟨by simpa using herr.symm, c, List.mem_cons_self _ _, by simpa using hskip.2, hc⟩
      · rw [directsGo, if_neg hskip, if_neg hc] at herr
        rcases directsGo_err_some preds mask cs (c :: seen) e herr with ⟨he, x, hx, hmx, hpx⟩
        exact ⟨he, x, List.mem_cons_of_mem _ hx, hmx, hpx⟩

theorem stepR_fresh {g : Graph} {t u : Traversal} (h : StepR g t u) :
    u.current ∉ t.preds ∧ t.preds ⊆ u.preds := by
  rcases h with ⟨extras, mask, hu⟩
  rcases directsGo_yield_mem t.preds mask _ [] u hu with ⟨_, h2, _, _, h5⟩
  constructor
  · exact h2
  · rw [h5]
    show t.preds ⊆ (Traversal.make u.current t.preds).preds
    unfold Traversal.make
    rw [if_neg h2]
    exact fun x hx => List.mem_cons_of_mem _ hx

theorem stepR_trans {g : Graph} : ∀ {t u : Traversal}, Relation.TransGen (StepR g) t u →
    u.current ∉ t.preds ∧ t.preds ⊆ u.preds := by
  intro t u h
  induction h with
  | single h => exact stepR_fresh h
  | tail _ hstep ih =>
    rcases stepR_fresh hstep with ⟨h1, h2⟩
    exact ⟨fun hx => h1 (ih.2 hx), fun x hx => h2 (ih.2 hx)⟩


theorem claim_C3 (g : Graph) (t : Traversal) (extras : List Nat) (mask : Nat → Bool) :
    (((Traversal.directs g t extras mask).yields.map (·.current)).Nodup) ∧
    ((Traversal.directs g t extras mask).err = none →
      ∀ c ∈ candidates g t.current extras, mask c = true → c ∉ t.preds) ∧
    (∀ e, (Traversal.directs g t extras mask).err = some e →
      e = Err.cyclic ∧ ∃ c ∈ candidates g t.current extras, mask c = true ∧ c ∈ t.preds) ∧
    (∀ u ∈ (Traversal.directs g t extras mask).yields,
      u.current ∉ t.preds ∧ u.current ∈ candidates g t.current extras ∧ mask u.current = true) ∧
    (∀ t' u : Traversal, t'.current ∈ t'.preds → Relation.TransGen (StepR g) t' u →
      u.current ∉ t'.preds ∧ u.current ≠ t'.current) := by
  refine ⟨directsGo_nodup _ _ _ _, ?_, ?_, ?_, ?_⟩
  · intro herr c hc hm
    rcases directsGo_err_none t.preds mask _ [] herr c hc hm with h | h
    · exact h
    · simp at h
  · intro e herr
    exact directsGo_err_some t.preds mask _ [] e herr
  · intro u hu
    rcases directsGo_yield_mem t.preds mask _ [] u hu with ⟨h1, h2, _, h4, _⟩
    exact ⟨h2, h1, h4⟩
  · intro t' u hin htg
    rcases stepR_trans htg with ⟨h1, _⟩
    exact ⟨h1, fun he => h1 (he ▸ hin)⟩

theorem claim_C3_counterexample :
    wf G3 = true ∧
    (⟨2, [2, 1]⟩ : Traversal) ∈ (Traversal.directs G3 (Traversal.make 1 []) [] (fun _ => true)).yields ∧
    (1 ∈ candidates G3 2 []) ∧ (1 ∈ (⟨2, [2, 1]⟩ : Traversal).preds) ∧
    (Traversal.directs G3 ⟨2, [2, 1]⟩ [] (fun _ => false)).err = none ∧
    (Traversal.directs G3 ⟨2, [2, 1]⟩ [] (fun _ => true)).err = some Err.cyclic := by
  refine ⟨by decide, by decide, by decide, by decide, by decide, by decide⟩

theorem claim_C3_witness :
    ((Traversal.directs G3 (Traversal.make 1 []) [] (fun _ => true)).yields.map (·.current)).Nodup ∧
    (Err.cyclic = Err.cyclic ∧
      ∃ c ∈ candidates G3 2 [], (fun _ => true) c = true ∧ c ∈ (⟨2, [2, 1]⟩ : Traversal).preds) :=
  ⟨(claim_C3 G3 (Traversal.make 1 []) [] (fun _ => true)).1,
   (claim_C3 G3 ⟨2, [2, 1]⟩ [] (fun _ => true)).2.2.1 Err.cyclic (by decide)⟩


/-! ### Root-level characterization of `Traversal.tail` (C4) -/

theorem tailFold_from_error (g : Graph) (rec : Traversal → Option Nat → Except Err Traversal)
    (t : Traversal) (exp : Option Nat) :
    ∀ (cs : List Nat) (done : Except Err Traversal),
      List.foldl (tailStep g rec t exp) (.error done) cs = .error done
  | [], _ => rfl
  | c :: cs, done => by
    rw [List.foldl_cons]
    have : tailStep g rec t exp (.error done) c = .error done := rfl
    rw [this]
    exact tailFold_from_error g rec t exp cs done

theorem tailFold_error (g : Graph) (rec : Traversal → Option Nat → Except Err Traversal)
    (t : Traversal) (exp : Option Nat) :
    ∀ (cs : List Nat) (seen : List Nat) (endings : List Traversal) (done : Except Err Traversal),
      List.foldl (tailStep g rec t exp) (.ok (seen, endings)) cs = .error done →
      (∃ e, done = Except.error e) ∨ (∃ tl, done = Except.ok tl ∧ expMatches exp tl.current = true)
  | [], seen, endings, done => by intro h; simp at h
  | c :: cs, seen, endings, done => by
    intro h
    rw [List.foldl_cons] at h
    by_cases hskip : c ∈ seen ∨ mapperMask g c = false
    · rw [show tailStep g rec t exp (.ok (seen, endings)) c = .ok (seen, endings) from by
        simp [tailStep, hskip]] at h
      exact tailFold_error g rec t exp cs seen endings done h
    · by_cases hc : c ∈ t.preds
      · rw [show tailStep g rec t exp (.ok (seen, endings)) c = .error (throw Err.cyclic) from by
          simp [tailStep, hskip, hc]] at h
        rw [tailFold_from_error] at h
        exact Or.inl ⟨Err.cyclic, (by simpa using h.symm)⟩
      · rcases hrec : rec (Traversal.make c t.preds) exp with e | tl
        · rw [show tailStep g rec t exp (.ok (seen, endings)) c = .error (throw e) from by
            simp [tailStep, hskip, hc, hrec]] at h
          rw [tailFold_from_error] at h
          exact Or.inl ⟨e, by simpa using h.symm⟩
        · by_cases hm : expMatches exp tl.current = true
          · rw [show tailStep g rec t exp (.ok (seen, endings)) c = .error (pure tl) from by
              simp [tailStep, hskip, hc, hrec, hm]] at h
            rw [tailFold_from_error] at h
            exact Or.inr ⟨tl, by simpa using h.symm, hm⟩
          · rw [show tailStep g rec t exp (.ok (seen, endings)) c
                = .ok (c :: seen, endingsInsert endings tl) from by
              simp [tailStep, hskip, hc, hrec, hm]] at h
            exact tailFold_error g rec t exp cs _ _ done h

theorem endingsInsert_ne_nil (es : List Traversal) (tl : Traversal) :
    endingsInsert es tl ≠ [] := by
  unfold endingsInsert
  by_cases h : es.any (fun u => u.same tl)
  · rw [if_pos h]
    intro he
    subst he
    simp at h
  · rw [if_neg h]
    simp

theorem tailFold_ok_nil (g : Graph) (rec : Traversal → Option Nat → Except Err Traversal)
    (t : Traversal) (exp : Option Nat) :
    ∀ (cs : List Nat) (seen : List Nat) (endings : List Traversal) (seen' : List Nat),
      List.foldl (tailStep g rec t exp) (.ok (seen, endings)) cs = .ok (seen', []) →
      endings = [] ∧ ∀ c ∈ cs, c ∈ seen ∨ mapperMask g c = false
  | [], seen, endings, seen' => by
    intro h
    simp at h
    exact ⟨h.2, by simp⟩
  | c :: cs, seen, endings, seen' => by
    intro h
    rw [List.foldl_cons] at h
    by_cases hskip : c ∈ seen ∨ mapperMask g c = false
    · rw [show tailStep g rec t exp (.ok (seen, endings)) c = .ok (seen, endings) from by
        simp [tailStep, hskip]] at h
      rcases tailFold_ok_nil g rec t exp cs seen endings seen' h with ⟨h1, h2⟩
      refine ⟨h1, fun x hx => ?_⟩
      rcases List.mem_cons.mp hx with hx | hx
      · subst hx; exact hskip
      · exact h2 x hx
    · by_cases hc : c ∈ t.preds
      · rw [show tailStep g rec t exp (.ok (seen, endings)) c = .error (throw Err.cyclic) from by
          simp [tailStep, hskip, hc]] at h
        rw [tailFold_from_error] at h
        simp at h
      · rcases hrec : rec (Traversal.make c t.preds) exp with e | tl
        · rw [show tailStep g rec t exp (.ok (seen, endings)) c = .error (throw e) from by
            simp [tailStep, hskip, hc, hrec]] at h
          rw [tailFold_from_error] at h
          simp at h
        · by_cases hm : expMatches exp tl.current = true
          · rw [show tailStep g rec t exp (.ok (seen, endings)) c = .error (pure tl) from by
              simp [tailStep, hskip, hc, hrec, hm]] at h
            rw [tailFold_from_error] at h
            simp at h
          · rw [show tailStep g rec t exp (.ok (seen, endings)) c
                = .ok (c :: seen, endingsInsert endings tl) from by
              simp [tailStep, hskip, hc, hrec, hm]] at h
            rcases tailFold_ok_nil g rec t exp cs _ _ seen' h with ⟨h1, _⟩
            exact absurd h1 (endingsInsert_ne_nil endings tl)


theorem make_root (h : Nat) : Traversal.make h [] = ⟨h, [h]⟩ := by
  simp [Traversal.make]

theorem tail_root_some (g : Graph) (fuel : Nat) (h e : Nat) (r : Traversal)
    (hok : Traversal.tail g fuel (Traversal.make h []) (some e) = .ok r) :
    r.current = e ∨ (r.current = h ∧ ∀ c ∈ candidates g h [e], mapperMask g c = false) := by
  rw [make_root] at hok
  cases fuel with
  | zero => simp [Traversal.tail] at hok
  | succ fuel =>
    rw [Traversal.tail] at hok
    by_cases hm : expMatches (some e) (⟨h, [h]⟩ : Traversal).current = true
    · rw [if_pos hm] at hok
      have hr : r = ⟨h, [h]⟩ := by
        simpa [pure, Except.pure] using hok.symm
      have heh : e = h := by simpa [expMatches] using hm
      left
      rw [hr]
      exact heh.symm
    · rw [if_neg hm] at hok
      rcases hf : List.foldl (tailStep g (Traversal.tail g fuel) ⟨h, [h]⟩ (some e)) (.ok ([], []))
          (candidates g (⟨h, [h]⟩ : Traversal).current (some e).toList) with done | ⟨seen2, endings2⟩
      · rw [hf] at hok
        rcases tailFold_error g _ _ _ _ [] [] done hf with ⟨e', he'⟩ | ⟨tl, htl, hexp⟩
        · rw [he'] at hok; simp at hok
        · rw [htl] at hok
          have : tl = r := by simpa using hok
          subst this
          left
          exact (by simpa [expMatches] using hexp : e = tl.current).symm
      · rw [hf] at hok
        have hok' : tailFinish (⟨h, [h]⟩ : Traversal) (some e) endings2 = .ok r := hok
        unfold tailFinish at hok'
        by_cases hnil : endings2.isEmpty = true
        · rw [if_pos hnil] at hok'
          have hr : r = ⟨h, [h]⟩ := by simpa [pure, Except.pure] using hok'.symm
          right
          refine ⟨by rw [hr], ?_⟩
          rw [List.isEmpty_iff] at hnil
          subst hnil
          have := tailFold_ok_nil g (Traversal.tail g fuel) ⟨h, [h]⟩ (some e)
            (candidates g h [e]) [] [] seen2 (by simpa using hf)
          intro c hc
          rcases this.2 c hc with hx | hx
          · simp at hx
          · exact hx
        · rw [if_neg hnil] at hok'
          rw [if_pos (by simp)] at hok'
          simp [throw, throwThe, MonadExceptOf.throw] at hok'

theorem tail_root_none (g : Graph) (fuel : Nat) (h : Nat) (r : Traversal)
    (seen' : List Nat) (endings' : List Traversal)
    (hok : Traversal.tail g (fuel + 1) (Traversal.make h []) none = .ok r)
    (hf : List.foldl (tailStep g (Traversal.tail g fuel) ⟨h, [h]⟩ none) (.ok ([], []))
      (candidates g h []) = .ok (seen', endings')) :
    endings'.length ≤ 1 ∧ (endings' = [] → r = ⟨h, [h]⟩) ∧ (∀ tl, endings' = [tl] → r = tl) := by
  rw [make_root] at hok
  rw [Traversal.tail] at hok
  rw [if_neg (by simp [expMatches])] at hok
  have hcand : candidates g (⟨h, [h]⟩ : Traversal).current (none : Option Nat).toList
      = candidates g h [] := rfl
  rw [hcand, hf] at hok
  have hok' : tailFinish (⟨h, [h]⟩ : Traversal) none endings' = .ok r := hok
  unfold tailFinish at hok'
  by_cases hnil : endings'.isEmpty = true
  · rw [List.isEmpty_iff] at hnil
    subst hnil
    simp only [List.isEmpty_nil, if_pos] at hok'
    exact ⟨by simp, fun _ => by simpa [pure, Except.pure] using hok'.symm,
      fun tl htl => by simp at htl⟩
  · rw [if_neg (by simpa using hnil)] at hok'
    by_cases hlen : endings'.length > 1
    · rw [if_pos (by simp [hlen])] at hok'
      simp [throw, throwThe, MonadExceptOf.throw] at hok'
    · rw [if_neg (by simpa using hlen)] at hok'
      refine ⟨by omega, ?_, ?_⟩
      · intro he; subst he; simp at hnil
      · intro tl htl
        subst htl
        simpa [List.headD, pure, Except.pure] using hok'.symm


theorem claim_C4 (g : Graph) (h e : Nat) :
    (∀ (fuel : Nat) (r : Traversal),
      Traversal.tail g fuel (Traversal.make h []) (some e) = .ok r →
      r.current = e ∨ (r.current = h ∧ ∀ c ∈ candidates g h [e], trainedN g c = true)) ∧
    (∀ (fuel : Nat) (r : Traversal) (seen' : List Nat) (endings' : List Traversal),
      Traversal.tail g (fuel + 1) (Traversal.make h []) none = .ok r →
      List.foldl (tailStep g (Traversal.tail g fuel) ⟨h, [h]⟩ none) (.ok ([], []))
        (candidates g h []) = .ok (seen', endings') →
      endings'.length ≤ 1 ∧ (endings' = [] → r = ⟨h, [h]⟩) ∧ (∀ tl, endings' = [tl] → r = tl)) := by
  constructor
  · intro fuel r hok
    rcases tail_root_some g fuel h e r hok with h1 | ⟨h1, h2⟩
    · exact Or.inl h1
    · refine Or.inr ⟨h1, fun c hc => ?_⟩
      have := h2 c hc
      simpa [mapperMask] using this
  · intro fuel r seen' endings' hok hf
    exact tail_root_none g fuel h r seen' endings' hok hf

theorem claim_C4_counterexample :
    candidates G2 1 [2] = [] ∧ (2 : Nat) ≠ 1 ∧
    Traversal.tail G2 9 (Traversal.make 1 []) (some 2) = .ok ⟨1, [1]⟩ :=
  ⟨by decide, by decide, by decide⟩

theorem claim_C4_witness :
    ((⟨1, [1]⟩ : Traversal).current = 2 ∨ ((⟨1, [1]⟩ : Traversal).current = 1 ∧
      ∀ c ∈ candidates G2 1 [2], trainedN G2 c = true)) ∧
    (([] : List Traversal).length ≤ 1 ∧
      (([] : List Traversal) = [] → (⟨1, [1]⟩ : Traversal) = ⟨1, [1]⟩) ∧
      (∀ tl, ([] : List Traversal) = [tl] → (⟨1, [1]⟩ : Traversal) = tl)) :=
  ⟨(claim_C4 G2 1 2).1 9 ⟨1, [1]⟩ (by decide),
   (claim_C4 G2 1 2).2 8 ⟨1, [1]⟩ [] [] (by decide) (by decide)⟩


/-! ### Well-formedness and the Channel/Closure discrimination (C1) -/

theorem anyCongr {α : Type} (l : List α) (p q : α → Bool) (h : ∀ a ∈ l, p a = q a) :
    l.any p = l.any q := by
  induction l with
  | nil => rfl
  | cons a rest ih =>
    simp only [List.any_cons, h a (List.mem_cons_self a rest),
      ih (fun x hx => h x (List.mem_cons_of_mem _ hx))]

theorem info_mem {g : Graph} {n : Nat} {i : NodeInfo} (h : g.info n = some i) :
    (n, i) ∈ g.nodes := by
  unfold Graph.info at h
  rcases hf : g.nodes.find? (fun p => p.1 == n) with _ | q
  · rw [hf] at h; simp at h
  · rw [hf] at h
    have hq := List.mem_of_find?_eq_some hf
    have hq1 : q.1 = n := by
      have := List.find?_some hf
      simpa using this
    have : q.2 = i := by simpa using h
    rw [← hq1, ← this]
    exact hq

theorem outSubs_edge {g : Graph} {n : Nat} {ni : NodeInfo} {s : Subscription}
    (hn : g.info n = some ni) (hs : s ∈ ni.output.flatten) :
    ∃ idx, Edge.mk n idx s ∈ g.edges := by
  rcases List.mem_flatten.mp hs with ⟨l, hl, hsl⟩
  rcases List.mem_iff_getElem.mp hl with ⟨idx, hidx, hget⟩
  refine ⟨idx, ?_⟩
  unfold Graph.edges
  rw [List.mem_flatMap]
  refine ⟨(n, ni), info_mem hn, ?_⟩
  rw [List.mem_flatMap]
  refine ⟨(idx, l), ?_, ?_⟩
  · rw [List.mem_enum_iff_getElem?]
    simp [hget.symm, hidx]
  · simp only [List.mem_map]
    exact ⟨s, hsl, rfl⟩

theorem wf_edge_input {g : Graph} (hwf : wf g = true) {e : Edge} (he : e ∈ g.edges) :
    ∃ i, g.info e.sub.node = some i ∧ e.sub.port ∈ i.input := by
  have h := hwf
  simp only [wf, Bool.and_eq_true, List.all_eq_true] at h
  have h3 := h.1.1.1.2 e he
  simp only [Bool.and_eq_true] at h3
  rcases h3 with ⟨h3a, h3b⟩
  rcases hi : g.info e.sub.node with _ | i
  · rw [hi] at h3a; simp at h3a
  · rw [hi] at h3b
    exact ⟨i, rfl, by simpa using h3b⟩

theorem wf_nomix {g : Graph} (hwf : wf g = true) {n : Nat} {i : NodeInfo}
    (hn : g.info n = some i) :
    ¬(i.input.any Port.isApply = true ∧ i.input.any Port.isTrainish = true) := by
  have h := hwf
  simp only [wf, Bool.and_eq_true, List.all_eq_true] at h
  have h5 := h.1.2 (n, i) (info_mem hn)
  intro ⟨ha, hb⟩
  rw [ha, hb] at h5
  simp at h5

theorem wf_future_apply {g : Graph} (hwf : wf g = true) {n : Nat} {i : NodeInfo}
    (hn : g.info n = some i) :
    i.worker = true ∨ i.input.all Port.isApply = true := by
  have h := hwf
  simp only [wf, Bool.and_eq_true, List.all_eq_true] at h
  have h6 := h.2 (n, i) (info_mem hn)
  simp only [Bool.or_eq_true] at h6
  rcases h6 with h6 | h6
  · exact Or.inl h6
  · exact Or.inr h6

theorem port_apply_not_trainish (p : Port) : p.isApply = true → p.isTrainish = false := by
  cases p <;> simp [Port.isApply, Port.isTrainish]

theorem port_apply_or_trainish (p : Port) : p.isApply = true ∨ p.isTrainish = true := by
  cases p <;> simp [Port.isApply, Port.isTrainish]

theorem trained_iff_port {g : Graph} (hwf : wf g = true) {n : Nat} {ni : NodeInfo}
    {s : Subscription} (hn : g.info n = some ni) (hs : s ∈ ni.output.flatten) :
    trainedN g s.node = s.port.isTrainish := by
  rcases outSubs_edge hn hs with ⟨idx, he⟩
  rcases wf_edge_input hwf he with ⟨i, hi, hport⟩
  have htr : trainedN g s.node = trainedI i := by simp [trainedN, hi]
  rw [htr]
  unfold trainedI
  rcases port_apply_or_trainish s.port with hp | hp
  · rw [port_apply_not_trainish s.port hp]
    have hanyA : i.input.any Port.isApply = true := List.any_eq_true.mpr ⟨s.port, hport, hp⟩
    have := wf_nomix hwf hi
    have hanyT : i.input.any Port.isTrainish = false := by
      by_cases hT : i.input.any Port.isTrainish = true
      · exact absurd ⟨hanyA, hT⟩ this
      · simpa using hT
    rw [hanyT]
    simp
  · rw [hp]
    have hanyT : i.input.any Port.isTrainish = true := List.any_eq_true.mpr ⟨s.port, hport, hp⟩
    have hw : i.worker = true := by
      rcases wf_future_apply hwf hi with hw | hall
      · exact hw
      · exfalso
        rw [List.all_eq_true] at hall
        have hA := hall s.port hport
        rw [port_apply_not_trainish s.port hA] at hp
        simp at hp
    rw [hw, hanyT]
    rfl

theorem pathNew_ok_shape {g : Graph} {fuel : Nat} {head : Nat} {tl : Option Nat} {p : PathV}
    (hok : pathNew g fuel head tl = .ok p) :
    ∃ (t : Traversal) (hi ti : NodeInfo),
      g.info head = some hi ∧ ¬(hi.szin > 1) ∧
      Traversal.tail g fuel (Traversal.make head []) tl = .ok t ∧
      g.info t.current = some ti ∧ ¬(ti.szout > 1) ∧
      p = ⟨head, t.current, (outSubs g t.current).any (fun s => trainedN g s.node)⟩ := by
  unfold pathNew at hok
  rcases hih : g.info head with _ | hi <;> simp only [hih] at hok
  · simp [throw, throwThe, MonadExceptOf.throw] at hok
  · by_cases hszin : hi.szin > 1
    · rw [if_pos hszin] at hok
      simp [throw, throwThe, MonadExceptOf.throw] at hok
    · rw [if_neg hszin] at hok
      rcases ht : Traversal.tail g fuel (Traversal.make head []) tl with e | t <;>
        simp only [ht] at hok
      · simp at hok
      · rcases hit : g.info t.current with _ | ti <;> simp only [hit] at hok
        · simp [throw, throwThe, MonadExceptOf.throw] at hok
        · by_cases hszout : ti.szout > 1
          · rw [if_pos hszout] at hok
            simp [throw, throwThe, MonadExceptOf.throw] at hok
          · rw [if_neg hszout] at hok
            exact ⟨t, hi, ti, rfl, hszin, rfl, hit, hszout,
              by simpa [pure, Except.pure] using hok.symm⟩

/-- C1: for every head node and optional tail accepted by `Path`
construction on a well-formed graph, the result is a Closure exactly when
at least one outgoing edge from the resolved tail lands in a Train or Label
port, and a Channel otherwise. -/
theorem claim_C1 (g : Graph) (fuel : Nat) (head : Nat) (tl : Option Nat) (p : PathV)
    (hwf : wf g = true) (hok : pathNew g fuel head tl = .ok p) :
    p.closure = true ↔ (outSubs g p.tail).any (fun s => s.port.isTrainish) = true := by
  rcases pathNew_ok_shape hok with ⟨t, hi, ti, _, _, _, hit, _, hp⟩
  have hflat : outSubs g t.current = ti.output.flatten := by simp [outSubs, hit]
  have hcong : (outSubs g t.current).any (fun s => trainedN g s.node)
      = (outSubs g t.current).any (fun s => s.port.isTrainish) := by
    refine anyCongr _ _ _ ?_
    intro s hs
    rw [hflat] at hs
    exact trained_iff_port hwf hit hs
  rw [hp]
  show (outSubs g t.current).any (fun s => trainedN g s.node) = true ↔ _
  rw [hcong]

theorem claim_C1_witness :
    (outSubs G1 2).any (fun s => Port.isTrainish s.port) = true :=
  (claim_C1 G1 9 1 none ⟨1, 2, true⟩ (by decide) (by decide)).mp rfl


/-! ### Error kinds and the up-front-failure discipline (C8) -/

theorem tailFold_error_err (g : Graph) (rec : Traversal → Option Nat → Except Err Traversal)
    (t : Traversal) (exp : Option Nat) (P : Err → Prop) (hcy : P Err.cyclic)
    (hrec : ∀ u e, rec u exp = .error e → P e) :
    ∀ (cs seen : List Nat) (endings : List Traversal) (e : Err),
      List.foldl (tailStep g rec t exp) (.ok (seen, endings)) cs = .error (.error e) → P e
  | [], seen, endings, e => by intro h; simp at h
  | c :: cs, seen, endings, e => by
    intro h
    rw [List.foldl_cons] at h
    by_cases hskip : c ∈ seen ∨ mapperMask g c = false
    · rw [show tailStep g rec t exp (.ok (seen, endings)) c = .ok (seen, endings) from by
        simp [tailStep, hskip]] at h
      exact tailFold_error_err g rec t exp P hcy hrec cs seen endings e h
    · by_cases hc : c ∈ t.preds
      · rw [show tailStep g rec t exp (.ok (seen, endings)) c = .error (throw Err.cyclic) from by
          simp [tailStep, hskip, hc]] at h
        rw [tailFold_from_error] at h
        have : Err.cyclic = e := by
          simpa [throw, throwThe, MonadExceptOf.throw] using h
        rw [← this]
        exact hcy
      · rcases hrec' : rec (Traversal.make c t.preds) exp with e' | tl
        · rw [show tailStep g rec t exp (.ok (seen, endings)) c = .error (throw e') from by
            simp [tailStep, hskip, hc, hrec']] at h
          rw [tailFold_from_error] at h
          have : e' = e := by
            simpa [throw, throwThe, MonadExceptOf.throw] using h
          rw [← this]
          exact hrec _ e' hrec'
        · by_cases hm : expMatches exp tl.current = true
          · rw [show tailStep g rec t exp (.ok (seen, endings)) c = .error (pure tl) from by
              simp [tailStep, hskip, hc, hrec', hm]] at h
            rw [tailFold_from_error] at h
            simp [pure, Except.pure] at h
          · rw [show tailStep g rec t exp (.ok (seen, endings)) c
                = .ok (c :: seen, endingsInsert endings tl) from by
              simp [tailStep, hskip, hc, hrec', hm]] at h
            exact tailFold_error_err g rec t exp P hcy hrec cs _ _ e h

theorem tail_err_kinds (g : Graph) :
    ∀ (fuel : Nat) (t : Traversal) (exp : Option Nat) (e : Err),
      Traversal.tail g fuel t exp = .error e →
      e = Err.outOfFuel ∨ e = Err.cyclic ∨ e = Err.ambiguous
  | 0, t, exp, e => by
    intro h
    simp [Traversal.tail, throw, throwThe, MonadExceptOf.throw] at h
    exact Or.inl h.symm
  | fuel + 1, t, exp, e => by
    intro h
    rw [Traversal.tail] at h
    by_cases hm : expMatches exp t.current = true
    · rw [if_pos hm] at h
      simp [pure, Except.pure] at h
    · rw [if_neg hm] at h
      rcases hf : List.foldl (tailStep g (Traversal.tail g fuel) t exp) (.ok ([], []))
          (candidates g t.current exp.toList) with done | pr
      · rw [hf] at h
        rcases done with e' | tl
        · have he' : e' = e := by simpa using h
          subst he'
          exact tailFold_error_err g (Traversal.tail g fuel) t exp
            (fun x => x = Err.outOfFuel ∨ x = Err.cyclic ∨ x = Err.ambiguous)
            (Or.inr (Or.inl rfl))
            (fun u x hx => tail_err_kinds g fuel u exp x hx)
            _ [] [] e' hf
        · simp at h
      · rw [hf] at h
        have h' : tailFinish t exp pr.2 = .error e := by
          rcases pr with ⟨a, b⟩
          exact h
        unfold tailFinish at h'
        by_cases hnil : pr.2.isEmpty = true
        · rw [if_pos hnil] at h'
          simp [pure, Except.pure] at h'
        · rw [if_neg hnil] at h'
          by_cases hcond : (t.preds.length == 1 && (exp.isSome || pr.2.length > 1)) = true
          · rw [if_pos hcond] at h'
            have : Err.ambiguous = e := by
              simpa [throw, throwThe, MonadExceptOf.throw] using h'
            exact Or.inr (Or.inr this.symm)
          · rw [if_neg hcond] at h'
            simp [pure, Except.pure] at h'

theorem pathNew_err_kinds {g : Graph} {fuel : Nat} {head : Nat} {tl : Option Nat} {e : Err}
    (h : pathNew g fuel head tl = .error e) :
    e = Err.keyError ∨ e = Err.badHead ∨ e = Err.badTail ∨
    e = Err.outOfFuel ∨ e = Err.cyclic ∨ e = Err.ambiguous := by
  unfold pathNew at h
  rcases hih : g.info head with _ | hi <;> simp only [hih] at h
  · have : Err.keyError = e := by simpa [throw, throwThe, MonadExceptOf.throw] using h
    exact Or.inl this.symm
  · by_cases hszin : hi.szin > 1
    · rw [if_pos hszin] at h
      have : Err.badHead = e := by simpa [throw, throwThe, MonadExceptOf.throw] using h
      exact Or.inr (Or.inl this.symm)
    · rw [if_neg hszin] at h
      rcases ht : Traversal.tail g fuel (Traversal.make head []) tl with e' | t <;>
        simp only [ht] at h
      · have : e' = e := by simpa using h
        subst this
        rcases tail_err_kinds g fuel (Traversal.make head []) tl e' ht with h1 | h1 | h1
        · exact Or.inr (Or.inr (Or.inr (Or.inl h1)))
        · exact Or.inr (Or.inr (Or.inr (Or.inr (Or.inl h1))))
        · exact Or.inr (Or.inr (Or.inr (Or.inr (Or.inr h1))))
      · rcases hit : g.info t.current with _ | ti <;> simp only [hit] at h
        · have : Err.keyError = e := by simpa [throw, throwThe, MonadExceptOf.throw] using h
          exact Or.inl this.symm
        · by_cases hszout : ti.szout > 1
          · rw [if_pos hszout] at h
            have : Err.badTail = e := by simpa [throw, throwThe, MonadExceptOf.throw] using h
            exact Or.inr (Or.inr (Or.inl this.symm))
          · rw [if_neg hszout] at h
            simp [pure, Except.pure] at h

/-- C8 (amended): when `Channel.extend` fails with one of the up-front
subscribe errors (SelfLoop, AlreadyBound, PortCollision, TrainedPublisher),
the graph is left unchanged; the re-traversal failures (BadTail,
AmbiguousTail, CyclicGraph) happen after the connecting edge is installed. -/
theorem claim_C8 (g : Graph) (fuel : Nat) (p r : PathV) (e : Err)
    (he : (channelExtend g fuel p (some r) none).2 = .error e)
    (hkind : e = Err.selfLoop ∨ e = Err.alreadyBound ∨ e = Err.portCollision ∨
      e = Err.trainedPublisher) :
    (channelExtend g fuel p (some r) none).1 = g := by
  unfold channelExtend at he ⊢
  rcases hs : subscribeOp g r.head (.apply 0) p.tail 0 with e' | g'
  · simp only [hs]
  · exfalso
    simp only [hs] at he
    rcases pathNew_err_kinds he with h | h | h | h | h | h <;>
      rcases hkind with hk | hk | hk | hk <;> subst h <;> simp at hk

theorem claim_C8_counterexample :
    pathNew G5 9 1 none = .ok ⟨1, 1, false⟩ ∧
    pathNew G5 9 2 (some 4) = .ok ⟨2, 4, false⟩ ∧
    (channelExtend G5 9 ⟨1, 1, false⟩ (some ⟨2, 4, false⟩) none).2 = .error Err.cyclic ∧
    (channelExtend G5 9 ⟨1, 1, false⟩ (some ⟨2, 4, false⟩) none).1 ≠ G5 ∧
    (channelExtend G5 9 ⟨1, 1, false⟩ (some ⟨2, 4, false⟩) none).1.edges.length
      = G5.edges.length + 1 :=
  ⟨by decide, by decide, by decide, by decide, by decide⟩

theorem claim_C8_witness :
    (channelExtend G6 9 ⟨1, 1, false⟩ (some ⟨3, 3, false⟩) none).1 = G6 :=
  claim_C8 G6 9 ⟨1, 1, false⟩ ⟨3, 3, false⟩ Err.alreadyBound (by decide)
    (Or.inr (Or.inl rfl))


/-! ### Graph store surgery lemmas (shared by C2, C5, C10) -/

theorem key_unique : ∀ {nodes : List (Nat × NodeInfo)}, (nodes.map (·.1)).Nodup →
    ∀ {n : Nat} {i j : NodeInfo}, (n, i) ∈ nodes → (n, j) ∈ nodes → i = j := by
  intro nodes hnd n i j hi hj
  induction nodes with
  | nil => simp at hi
  | cons p rest ih =>
    rcases List.nodup_cons.mp hnd with ⟨hp, hrest⟩
    rcases List.mem_cons.mp hi with hi1 | hi1 <;> rcases List.mem_cons.mp hj with hj1 | hj1
    · rw [← hi1] at hj1
      exact (congrArg Prod.snd hj1.symm : i = j)
    · exfalso
      apply hp
      rw [← hi1]
      exact List.mem_map.mpr ⟨(n, j), hj1, rfl⟩
    · exfalso
      apply hp
      rw [← hj1]
      exact List.mem_map.mpr ⟨(n, i), hi1, rfl⟩
    · exact ih hrest hi1 hj1

theorem find_replace_self : ∀ (nodes : List (Nat × NodeInfo)) (n : Nat) (i : NodeInfo),
    (∃ q ∈ nodes, q.1 = n) →
    (nodes.map (fun p => if p.1 == n then (n, i) else p)).find? (fun p => p.1 == n) = some (n, i)
  | [], n, i => by intro h; simp at h
  | p :: rest, n, i => by
    intro h
    by_cases hp : p.1 = n
    · simp [List.find?_cons, hp]
    · rw [List.map_cons, if_neg (by simpa using hp)]
      rw [List.find?_cons_of_neg _ (by simpa using hp)]
      rcases h with ⟨q, hq, hqn⟩
      rcases List.mem_cons.mp hq with h1 | h1
      · exact absurd (h1 ▸ hqn) hp
      · exact find_replace_self rest n i ⟨q, h1, hqn⟩

theorem find_replace_ne : ∀ (nodes : List (Nat × NodeInfo)) (n m : Nat) (i : NodeInfo),
    m ≠ n →
    (nodes.map (fun p => if p.1 == n then (n, i) else p)).find? (fun p => p.1 == m)
      = nodes.find? (fun p => p.1 == m)
  | [], _, _, _, _ => rfl
  | p :: rest, n, m, i, hne => by
    by_cases hp : p.1 = n
    · rw [List.map_cons, if_pos (by simpa using hp)]
      rw [List.find?_cons_of_neg _ (by simpa using fun h => hne h.symm),
        List.find?_cons_of_neg _ (by rw [hp]; simpa using fun h => hne h.symm)]
      exact find_replace_ne rest n m i hne
    · rw [List.map_cons, if_neg (by simpa using hp)]
      by_cases hm : p.1 = m
      · rw [List.find?_cons_of_pos _ (by simpa using hm), List.find?_cons_of_pos _ (by simpa using hm)]
      · rw [List.find?_cons_of_neg _ (by simpa using hm), List.find?_cons_of_neg _ (by simpa using hm)]
        exact find_replace_ne rest n m i hne

theorem info_setInfo_self {g : Graph} {n : Nat} {i j : NodeInfo} (h : g.info n = some j) :
    (g.setInfo n i).info n = some i := by
  have hmem : (n, j) ∈ g.nodes := info_mem h
  unfold Graph.info Graph.setInfo
  rw [find_replace_self g.nodes n i ⟨(n, j), hmem, rfl⟩]
  rfl

theorem info_setInfo_ne {g : Graph} {n m : Nat} {i : NodeInfo} (hne : m ≠ n) :
    (g.setInfo n i).info m = g.info m := by
  unfold Graph.info Graph.setInfo
  rw [find_replace_ne g.nodes n m i hne]

theorem ids_setInfo (g : Graph) (n : Nat) (i : NodeInfo) : (g.setInfo n i).ids = g.ids := by
  unfold Graph.ids Graph.setInfo
  rw [List.map_map]
  refine List.map_congr_left ?_
  intro p _
  by_cases hp : p.1 = n
  · simp [Function.comp, hp]
  · simp [Function.comp, hp]

theorem updateAt_append_enumFrom_perm {α β : Type} (x : α) (f : Nat → α → β) :
    ∀ (l : List (List α)) (n idx : Nat), idx < l.length →
      (((updateAt l idx (fun s => s ++ [x])).enumFrom n).flatMap (fun q => q.2.map (f q.1))).Perm
        (f (n + idx) x :: ((l.enumFrom n).flatMap (fun q => q.2.map (f q.1))))
  | [], n, idx => by intro h; simp at h
  | a :: rest, n, 0 => by
    intro _
    rw [show updateAt (a :: rest) 0 (fun s => s ++ [x]) = (a ++ [x]) :: rest from rfl]
    rw [List.enumFrom_cons, List.enumFrom_cons]
    simp only [List.flatMap_cons, List.map_append, Nat.add_zero]
    rw [List.append_assoc]
    exact List.perm_middle.trans (by simp)
  | a :: rest, n, idx + 1 => by
    intro hlen
    rw [show n + (idx + 1) = n + 1 + idx from by omega]
    rw [show updateAt (a :: rest) (idx + 1) (fun s => s ++ [x])
        = a :: updateAt rest idx (fun s => s ++ [x]) from rfl]
    rw [List.enumFrom_cons, List.enumFrom_cons]
    simp only [List.flatMap_cons]
    have ih := updateAt_append_enumFrom_perm x f rest (n + 1) idx (by simpa using hlen)
    exact List.Perm.trans (List.Perm.append_left _ ih) List.perm_middle


theorem edges_cons (p : Nat × NodeInfo) (rest : List (Nat × NodeInfo)) :
    (Graph.mk (p :: rest)).edges
      = (p.2.output.enum).flatMap (fun q => q.2.map (fun s' => Edge.mk p.1 q.1 s'))
        ++ (Graph.mk rest).edges := by
  simp [Graph.edges]

theorem edgesRep (pN : Nat) (pi pi' : NodeInfo) (e : Edge)
    (hrep : ((pi'.output.enum).flatMap (fun q => q.2.map (fun s' => Edge.mk pN q.1 s'))).Perm
      (e :: (pi.output.enum).flatMap (fun q => q.2.map (fun s' => Edge.mk pN q.1 s')))) :
    ∀ (nodes : List (Nat × NodeInfo)), (nodes.map (·.1)).Nodup → (pN, pi) ∈ nodes →
      ((Graph.mk (nodes.map (fun p => if p.1 == pN then (pN, pi') else p))).edges).Perm
        (e :: (Graph.mk nodes).edges)
  | [], _, hmem => by simp at hmem
  | p :: rest, hnd, hmem => by
    rcases List.nodup_cons.mp hnd with ⟨hp, hrest⟩
    by_cases hpk : p.1 = pN
    · have hpp : p = (pN, pi) := by
        rcases List.mem_cons.mp hmem with h1 | h1
        · exact h1.symm
        · exfalso
          apply hp
          show p.1 ∈ List.map (fun x => x.1) rest
          rw [hpk]
          exact List.mem_map.mpr ⟨(pN, pi), h1, rfl⟩
      subst hpp
      have hrest_nokey : ∀ q ∈ rest, q.1 ≠ pN := by
        intro q hq hqk
        apply hp
        show (pN, pi).1 ∈ List.map (fun x => x.1) rest
        rw [← hqk]
        exact List.mem_map.mpr ⟨q, hq, rfl⟩
      rw [List.map_cons, if_pos (by simp)]
      rw [show List.map (fun p => if p.1 == pN then (pN, pi') else p) rest = rest from
        (List.map_congr_left (fun q hq => by
          rw [if_neg (by simpa using hrest_nokey q hq)]
          rfl)).trans (List.map_id rest)]
      rw [edges_cons, edges_cons]
      exact List.Perm.append_right _ hrep
    · have hmem' : (pN, pi) ∈ rest := by
        rcases List.mem_cons.mp hmem with h1 | h1
        · exact absurd (congrArg Prod.fst h1.symm : p.1 = pN) hpk
        · exact h1
      rw [List.map_cons, if_neg (by simpa using hpk)]
      rw [edges_cons, edges_cons]
      refine List.Perm.trans (List.Perm.append_left _
        (edgesRep pN pi pi' e hrep rest hrest hmem')) List.perm_middle

theorem edgesRepEq (pN : Nat) (pi pi' : NodeInfo) (hout : pi'.output = pi.output) :
    ∀ (nodes : List (Nat × NodeInfo)), (nodes.map (·.1)).Nodup → (pN, pi) ∈ nodes →
      (Graph.mk (nodes.map (fun p => if p.1 == pN then (pN, pi') else p))).edges
        = (Graph.mk nodes).edges
  | [], _, hmem => by simp at hmem
  | p :: rest, hnd, hmem => by
    rcases List.nodup_cons.mp hnd with ⟨hp, hrest⟩
    by_cases hpk : p.1 = pN
    · have hpp : p = (pN, pi) := by
        rcases List.mem_cons.mp hmem with h1 | h1
        · exact h1.symm
        · exfalso
          apply hp
          show p.1 ∈ List.map (fun x => x.1) rest
          rw [hpk]
          exact List.mem_map.mpr ⟨(pN, pi), h1, rfl⟩
      subst hpp
      have hrest_nokey : ∀ q ∈ rest, q.1 ≠ pN := by
        intro q hq hqk
        apply hp
        show (pN, pi).1 ∈ List.map (fun x => x.1) rest
        rw [← hqk]
        exact List.mem_map.mpr ⟨q, hq, rfl⟩
      rw [List.map_cons, if_pos (by simp)]
      rw [show List.map (fun p => if p.1 == pN then (pN, pi') else p) rest = rest from
        (List.map_congr_left (fun q hq => by
          rw [if_neg (by simpa using hrest_nokey q hq)]
          rfl)).trans (List.map_id rest)]
      rw [edges_cons, edges_cons]
      simp [hout]
    · have hmem' : (pN, pi) ∈ rest := by
        rcases List.mem_cons.mp hmem with h1 | h1
        · exact absurd (congrArg Prod.fst h1.symm : p.1 = pN) hpk
        · exact h1
      rw [List.map_cons, if_neg (by simpa using hpk)]
      rw [edges_cons, edges_cons, edgesRepEq pN pi pi' hout rest hrest hmem']


/-! ### Subscribe effects and the extension contract (C2) -/

theorem edges_setInfo_output_perm {g : Graph} {pN : Nat} {pi : NodeInfo} {idx : Nat}
    {s : Subscription} (hnd : (g.ids).Nodup) (hpi : g.info pN = some pi)
    (hidx : idx < pi.output.length) :
    ((g.setInfo pN { pi with output := updateAt pi.output idx (fun l => l ++ [s]) }).edges).Perm
      (Edge.mk pN idx s :: g.edges) := by
  have hrep := updateAt_append_enumFrom_perm s (fun i s' => Edge.mk pN i s') pi.output 0 idx hidx
  exact edgesRep pN pi { pi with output := updateAt pi.output idx (fun l => l ++ [s]) }
    (Edge.mk pN idx s) (by simpa using hrep) g.nodes (by simpa [Graph.ids] using hnd)
    (info_mem hpi)

theorem edges_setInfo_input {g : Graph} {sN : Nat} {si : NodeInfo} {X : List Port}
    (hnd : (g.ids).Nodup) (hsi : g.info sN = some si) :
    (g.setInfo sN { si with input := X }).edges = g.edges :=
  edgesRepEq sN si { si with input := X } rfl g.nodes (by simpa [Graph.ids] using hnd)
    (info_mem hsi)

theorem recordEdge_graph {g : Graph} {sN : Nat} {sP : Port} {pN pIdx : Nat}
    {si pi : NodeInfo} (hsi : g.info sN = some si) (hpi : g.info pN = some pi)
    (hne : sN ≠ pN) :
    recordEdge g sN sP pN pIdx
      = (g.setInfo pN { pi with output := updateAt pi.output pIdx (fun l => l ++ [Subscription.mk sN sP]) }).setInfo sN { si with input := si.input ++ [sP] } := by
  unfold recordEdge
  simp only [hpi, info_setInfo_ne hne, hsi]

theorem recordEdge_edges_perm {g : Graph} {sN : Nat} {sP : Port} {pN pIdx : Nat}
    {si pi : NodeInfo} (hnd : (g.ids).Nodup) (hsi : g.info sN = some si)
    (hpi : g.info pN = some pi) (hne : sN ≠ pN) (hidx : pIdx < pi.output.length) :
    ((recordEdge g sN sP pN pIdx).edges).Perm
      (Edge.mk pN pIdx (Subscription.mk sN sP) :: g.edges) := by
  rw [recordEdge_graph hsi hpi hne]
  rw [edges_setInfo_input (g := g.setInfo pN _)
    (by rw [ids_setInfo]; exact hnd) ((info_setInfo_ne hne).trans hsi)]
  exact edges_setInfo_output_perm hnd hpi hidx


theorem subscribeOp_ok {g : Graph} {sN : Nat} {sP : Port} {pN pIdx : Nat} {g' : Graph}
    (h : subscribeOp g sN sP pN pIdx = .ok g') :
    ∃ si pi, g.info sN = some si ∧ g.info pN = some pi ∧
      pIdx < pi.szout ∧ sN ≠ pN ∧ sP ∉ si.input ∧
      ((sP.isApply && si.input.any Port.isTrainish) ||
        (sP.isTrainish && si.input.any Port.isApply)) = false ∧
      trainedI pi = false ∧
      g' = recordEdge g sN sP pN pIdx := by
  unfold subscribeOp at h
  rcases hsi : g.info sN with _ | si <;> simp only [hsi] at h
  · simp [throw, throwThe, MonadExceptOf.throw] at h
  rcases hpi : g.info pN with _ | pi <;> simp only [hpi] at h
  · simp [throw, throwThe, MonadExceptOf.throw] at h
  by_cases h1 : pIdx ≥ pi.szout
  · rw [if_pos h1] at h
    simp [throw, throwThe, MonadExceptOf.throw] at h
  rw [if_neg h1] at h
  by_cases h2 : applyIdxBad sP si.szin = true
  · rw [if_pos h2] at h
    simp [throw, throwThe, MonadExceptOf.throw] at h
  rw [if_neg h2] at h
  by_cases h3 : (sN == pN) = true
  · rw [if_pos h3] at h
    simp [throw, throwThe, MonadExceptOf.throw] at h
  rw [if_neg h3] at h
  by_cases h4 : sP ∈ si.input
  · rw [if_pos h4] at h
    simp [throw, throwThe, MonadExceptOf.throw] at h
  rw [if_neg h4] at h
  by_cases h5 : ((sP.isApply && si.input.any Port.isTrainish) ||
      (sP.isTrainish && si.input.any Port.isApply)) = true
  · rw [if_pos h5] at h
    simp [throw, throwThe, MonadExceptOf.throw] at h
  rw [if_neg h5] at h
  by_cases h6 : trainedI pi = true
  · rw [if_pos h6] at h
    simp [throw, throwThe, MonadExceptOf.throw] at h
  rw [if_neg h6] at h
  by_cases h7 : (sP.isTrainish &&
      g.nodes.any (fun p => p.2.fgroup == si.fgroup && p.1 != sN && trainedI p.2)) = true
  · rw [if_pos h7] at h
    simp [throw, throwThe, MonadExceptOf.throw] at h
  rw [if_neg h7] at h
  refine ⟨si, pi, rfl, rfl, by omega, by simpa using h3, h4, by simpa using h5,
    by simpa using h6, ?_⟩
  simpa [pure, Except.pure] using h.symm


theorem trainedN_recordEdge_apply {g : Graph} {sN i0 pN pIdx : Nat} {si pi : NodeInfo}
    (hsi : g.info sN = some si) (hpi : g.info pN = some pi) (hne : sN ≠ pN) :
    ∀ n, trainedN (recordEdge g sN (Port.apply i0) pN pIdx) n = trainedN g n := by
  intro n
  rw [recordEdge_graph hsi hpi hne]
  by_cases hn : n = sN
  · subst hn
    have h1 : (g.setInfo pN { pi with output := updateAt pi.output pIdx (fun l => l ++ [Subscription.mk n (Port.apply i0)]) }).info n = some si :=
      (info_setInfo_ne hne).trans hsi
    rw [show trainedN _ n = trainedI { si with input := si.input ++ [Port.apply i0] } from by
      simp [trainedN, info_setInfo_self h1]]
    simp [trainedN, hsi, trainedI, List.any_append, Port.isTrainish]
  · rw [show trainedN _ n = trainedN (g.setInfo pN { pi with output := updateAt pi.output pIdx (fun l => l ++ [Subscription.mk sN (Port.apply i0)]) }) n from by
      simp [trainedN, info_setInfo_ne hn]]
    by_cases hp : n = pN
    · subst hp
      rw [show trainedN _ n = trainedI { pi with output := updateAt pi.output pIdx (fun l => l ++ [Subscription.mk sN (Port.apply i0)]) } from by
        simp [trainedN, info_setInfo_self hpi]]
      simp [trainedN, hpi, trainedI]
    · rw [show trainedN _ n = trainedN g n from by
        simp [trainedN, info_setInfo_ne hp]]

theorem outSubs_recordEdge_ne {g : Graph} {sN : Nat} {sP : Port} {pN pIdx : Nat}
    {si pi : NodeInfo} (hsi : g.info sN = some si) (hpi : g.info pN = some pi)
    (hne : sN ≠ pN) {n : Nat} (hnp : n ≠ pN) :
    outSubs (recordEdge g sN sP pN pIdx) n = outSubs g n := by
  rw [recordEdge_graph hsi hpi hne]
  by_cases hn : n = sN
  · subst hn
    have h1 : (g.setInfo pN { pi with output := updateAt pi.output pIdx (fun l => l ++ [Subscription.mk n sP]) }).info n = some si :=
      (info_setInfo_ne hne).trans hsi
    rw [show outSubs _ n = si.output.flatten from by
      have h2 := info_setInfo_self (i := { si with input := si.input ++ [sP] }) h1
      simp [outSubs, h2]]
    simp [outSubs, hsi]
  · rw [show outSubs _ n = outSubs (g.setInfo pN { pi with output := updateAt pi.output pIdx (fun l => l ++ [Subscription.mk sN sP]) }) n from by
      simp [outSubs, info_setInfo_ne hn]]
    simp [outSubs, info_setInfo_ne hnp]

theorem mem_flatten_updateAt {α : Type} (x : α) :
    ∀ (l : List (List α)) (i : Nat), i < l.length →
      x ∈ (updateAt l i (fun v => v ++ [x])).flatten
  | a :: rest, 0, _ => by simp [updateAt]
  | a :: rest, i + 1, h => by
    rw [show updateAt (a :: rest) (i + 1) (fun v => v ++ [x])
        = a :: updateAt rest i (fun v => v ++ [x]) from rfl]
    rw [List.flatten_cons]
    exact List.mem_append_right _ (mem_flatten_updateAt x rest i (by simpa using h))

theorem outSubs_recordEdge_pub {g : Graph} {sN : Nat} {sP : Port} {pN pIdx : Nat}
    {si pi : NodeInfo} (hsi : g.info sN = some si) (hpi : g.info pN = some pi)
    (hne : sN ≠ pN) (hidx : pIdx < pi.output.length) :
    Subscription.mk sN sP ∈ outSubs (recordEdge g sN sP pN pIdx) pN := by
  rw [recordEdge_graph hsi hpi hne]
  have h1 : ((g.setInfo pN { pi with output := updateAt pi.output pIdx (fun l => l ++ [Subscription.mk sN sP]) }).setInfo sN { si with input := si.input ++ [sP] }).info pN = some { pi with output := updateAt pi.output pIdx (fun l => l ++ [Subscription.mk sN sP]) } :=
    (info_setInfo_ne (Ne.symm hne)).trans (info_setInfo_self hpi)
  rw [show outSubs _ pN = (updateAt pi.output pIdx (fun l => l ++ [Subscription.mk sN sP])).flatten from by simp [outSubs, h1]]
  exact mem_flatten_updateAt _ pi.output pIdx hidx

theorem candidates_sub {g : Graph} {h : Nat} {ex : List Nat} {c : Nat}
    (hc : c ∈ candidates g h ex) : ∃ s ∈ outSubs g h, s.node = c := by
  unfold candidates at hc
  rcases List.mem_append.mp hc with h1 | h1
  · rcases List.mem_map.mp h1 with ⟨s, hs, hsc⟩
    exact ⟨s, hs, hsc⟩
  · rcases List.mem_filter.mp h1 with ⟨_, h2⟩
    unfold subscribed at h2
    rcases List.any_eq_true.mp h2 with ⟨s, hs, hsc⟩
    exact ⟨s, hs, by simpa using hsc⟩

theorem sub_candidates {g : Graph} {h : Nat} (ex : List Nat) {s : Subscription}
    (hs : s ∈ outSubs g h) : s.node ∈ candidates g h ex := by
  unfold candidates
  exact List.mem_append_left _ (List.mem_map.mpr ⟨s, hs, rfl⟩)

theorem tailFold_all_masked (g : Graph) (rec : Traversal → Option Nat → Except Err Traversal)
    (t : Traversal) (exp : Option Nat) :
    ∀ (cs : List Nat) (st : List Nat × List Traversal),
      (∀ c ∈ cs, mapperMask g c = false) →
      List.foldl (tailStep g rec t exp) (.ok st) cs = .ok st
  | [], st, _ => rfl
  | c :: cs, st, hall => by
    rw [List.foldl_cons]
    rw [show tailStep g rec t exp (.ok st) c = .ok st from by
      rcases st with ⟨seen, endings⟩
      simp [tailStep, hall c (List.mem_cons_self _ _)]]
    exact tailFold_all_masked g rec t exp cs st (fun x hx => hall x (List.mem_cons_of_mem _ hx))

theorem tail_all_masked {g : Graph} {fuel : Nat} {hd e : Nat}
    (hall : ∀ c ∈ candidates g hd [e], mapperMask g c = false) :
    Traversal.tail g (fuel + 1) (Traversal.make hd []) (some e) = .ok (Traversal.make hd []) := by
  rw [Traversal.tail]
  by_cases hm : expMatches (some e) (Traversal.make hd []).current = true
  · rw [if_pos hm]
    rfl
  · rw [if_neg hm]
    rw [make_root]
    rw [show candidates g (⟨hd, [hd]⟩ : Traversal).current (some e).toList
        = candidates g hd [e] from rfl]
    rw [tailFold_all_masked g _ _ _ _ ([], []) hall]
    rfl


theorem wf_nodup {g : Graph} (hwf : wf g = true) : (g.ids).Nodup := by
  have h := hwf
  simp only [wf, Bool.and_eq_true] at h
  exact of_decide_eq_true h.1.1.1.1.1

theorem wf_outlen {g : Graph} (hwf : wf g = true) {n : Nat} {i : NodeInfo}
    (hn : g.info n = some i) : i.output.length = i.szout := by
  have h := hwf
  simp only [wf, Bool.and_eq_true, List.all_eq_true] at h
  have := h.1.1.1.1.2 (n, i) (info_mem hn)
  simpa using this

/-- C2: a successful `Channel.extend` with a right path subscribes the right
head's single apply input to the left tail's apply output, returns the path
`(p.head, r.tail)`, and the edge multiset of the graph grows by exactly that
one new edge. -/
theorem claim_C2 (g g' : Graph) (fuel fuelp : Nat) (p r q : PathV)
    (hwf : wf g = true)
    (hch : p.closure = false)
    (hvalid : pathNew g fuelp p.head (some p.tail) = .ok p)
    (hsub : subscribeOp g r.head (Port.apply 0) p.tail 0 = .ok g')
    (hq : pathNew g' fuel p.head (some r.tail) = .ok q) :
    channelExtend g fuel p (some r) none = (g', .ok q) ∧
    q.head = p.head ∧ q.tail = r.tail ∧
    (g'.edges).Perm (Edge.mk p.tail 0 (Subscription.mk r.head (Port.apply 0)) :: g.edges) ∧
    Edge.mk p.tail 0 (Subscription.mk r.head (Port.apply 0)) ∉ g.edges := by
  rcases subscribeOp_ok hsub with ⟨si, pi, hsi, hpi, hszout, hne, hnotin, hcol, _, hrec⟩
  have hnd : (g.ids).Nodup := wf_nodup hwf
  have hlen : pi.output.length = pi.szout := wf_outlen hwf hpi
  have hidx : 0 < pi.output.length := by omega
  have htrinS : si.input.any Port.isTrainish = false := by
    rcases Bool.or_eq_false_iff.mp hcol with ⟨h1, _⟩
    rcases Bool.and_eq_false_iff.mp h1 with h2 | h2
    · simp [Port.isApply] at h2
    · exact h2
  have htrS : trainedN g r.head = false := by
    simp [trainedN, hsi, trainedI, htrinS]
  have hpres : ∀ n, trainedN g' n = trainedN g n := by
    rw [hrec]
    exact trainedN_recordEdge_apply hsi hpi hne
  refine ⟨?_, ?_, ?_, ?_, ?_⟩
  · unfold channelExtend
    simp only [hsub, Option.getD]
    rw [hq]
  · rcases pathNew_ok_shape hq with ⟨t, _, _, _, _, _, _, _, hqeq⟩
    rw [hqeq]
  · rcases pathNew_ok_shape hq with ⟨t, _, _, _, _, htail, _, _, hqeq⟩
    have hqt : q.tail = t.current := by rw [hqeq]
    rcases tail_root_some g' fuel p.head r.tail t htail with hcur | ⟨hcur, hallm⟩
    · rw [hqt, hcur]
    · exfalso
      have hex : ∃ c ∈ candidates g' p.head [r.tail], mapperMask g' c = true := by
        by_cases hpt : p.head = p.tail
        · refine ⟨r.head, ?_, ?_⟩
          · have hmem : Subscription.mk r.head (Port.apply 0) ∈ outSubs g' p.tail := by
              rw [hrec]
              exact outSubs_recordEdge_pub hsi hpi hne hidx
            rw [hpt]
            exact sub_candidates [r.tail] hmem
          · simp [mapperMask, hpres, htrS]
        · rcases pathNew_ok_shape hvalid with ⟨t0, _, _, _, _, ht0, _, _, hpeq⟩
          have hpt0 : p.tail = t0.current := by rw [hpeq]
          have hnotall : ¬(∀ c ∈ candidates g p.head [p.tail], mapperMask g c = false) := by
            intro hall
            cases fuelp with
            | zero => simp [Traversal.tail] at ht0
            | succ f =>
              rw [tail_all_masked hall] at ht0
              have : t0 = Traversal.make p.head [] := by simpa using ht0.symm
              rw [this, make_root] at hpt0
              exact hpt hpt0.symm
          push_neg at hnotall
          rcases hnotall with ⟨c, hc, hcm⟩
          have hcm' : mapperMask g c = true := by
            simpa using hcm
          rcases candidates_sub hc with ⟨s, hs, hsc⟩
          have hout : outSubs g' p.head = outSubs g p.head := by
            rw [hrec]
            exact outSubs_recordEdge_ne hsi hpi hne hpt
          refine ⟨c, ?_, ?_⟩
          · rw [← hsc]
            refine sub_candidates [r.tail] ?_
            rw [hout]
            exact hs
          · rw [show mapperMask g' c = !trainedN g' c from rfl, hpres c]
            exact hcm'
      rcases hex with ⟨c, hc, hcm⟩
      rw [hallm c hc] at hcm
      simp at hcm
  · rw [hrec]
    exact recordEdge_edges_perm hnd hsi hpi hne hidx
  · intro hmem
    rcases wf_edge_input hwf hmem with ⟨i, hi, hport⟩
    rw [show (Edge.mk p.tail 0 (Subscription.mk r.head (Port.apply 0))).sub.node = r.head from rfl,
      hsi] at hi
    have heq : i = si := by simpa using hi.symm
    subst heq
    exact hnotin hport

theorem claim_C2_witness :
    channelExtend G6 9 ⟨1, 1, false⟩ (some ⟨2, 3, false⟩) none = (G6x, .ok ⟨1, 3, false⟩) ∧
    (⟨1, 3, false⟩ : PathV).head = (⟨1, 1, false⟩ : PathV).head ∧
    (⟨1, 3, false⟩ : PathV).tail = (⟨2, 3, false⟩ : PathV).tail ∧
    (G6x.edges).Perm (Edge.mk 1 0 (Subscription.mk 2 (Port.apply 0)) :: G6.edges) ∧
    Edge.mk 1 0 (Subscription.mk 2 (Port.apply 0)) ∉ G6.edges :=
  claim_C2 G6 G6x 9 9 ⟨1, 1, false⟩ ⟨2, 3, false⟩ ⟨1, 3, false⟩ (by decide) rfl
    (by decide) (by decide) (by decide)


/-! ### Visit discipline of `each` and `accept` (C6) -/

theorem exFold_from_error {α β : Type} (f : β → α → Except Err β) (e : Err) :
    ∀ cs : List α, List.foldl (exStep f) (.error e) cs = .error e
  | [] => rfl
  | c :: cs => by
    rw [List.foldl_cons]
    exact exFold_from_error f e cs

theorem eachFold_props (g : Graph) (tailN : Nat)
    (rec : Traversal → List Nat → Except Err (List Nat))
    (hrec : ∀ t' cur gs', rec t' cur = .ok gs' → t'.current ∉ cur →
      (∃ ext, gs' = cur ++ t'.current :: ext) ∧ (cur.Nodup → gs'.Nodup) ∧
      (∀ v ∈ gs', v ∈ cur ∨ v = t'.current ∨ ∃ u ∈ gs', ∃ s ∈ outSubs g u, s.node = v))
    (t : Traversal) :
    ∀ (cs : List Nat) (lseen cur : List Nat) (st' : List Nat × List Nat),
      (∀ c ∈ cs, c ∈ candidates g t.current [tailN]) →
      t.current ∈ cur →
      List.foldl (exStep (eachStep g tailN rec t)) (.ok (lseen, cur)) cs = .ok st' →
      (∃ ext, st'.2 = cur ++ ext) ∧ (cur.Nodup → st'.2.Nodup) ∧
      (∀ v ∈ st'.2, v ∈ cur ∨ ∃ u ∈ st'.2, ∃ s ∈ outSubs g u, s.node = v)
  | [], lseen, cur, st', _, _, hok => by
    have hst : st' = (lseen, cur) := by simpa using hok.symm
    subst hst
    exact ⟨⟨[], by simp⟩, fun h => h, fun v hv => Or.inl hv⟩
  | c :: cs, lseen, cur, st', hcs, hin, hok => by
    rw [List.foldl_cons] at hok
    by_cases hskip : (c ∈ lseen) ∨ (c ∈ cur) ∨ (t.current == tailN ∧ trainedN g c = false)
    · rw [show exStep (eachStep g tailN rec t) (.ok (lseen, cur)) c = .ok (lseen, cur) from by
        simp only [exStep, eachStep]
        rw [if_pos hskip]
        rfl] at hok
      exact eachFold_props g tailN rec hrec t cs lseen cur st'
        (fun x hx => hcs x (List.mem_cons_of_mem _ hx)) hin hok
    · by_cases hpred : c ∈ t.preds
      · rw [show exStep (eachStep g tailN rec t) (.ok (lseen, cur)) c
            = .error Err.cyclic from by
          simp only [exStep, eachStep]
          rw [if_neg hskip, if_pos hpred]
          rfl] at hok
        rw [exFold_from_error] at hok
        simp at hok
      · push_neg at hskip
        rcases hr : rec (Traversal.make c t.preds) cur with e | gs'
        · rw [show exStep (eachStep g tailN rec t) (.ok (lseen, cur)) c
              = .error e from by
            simp only [exStep, eachStep]
            rw [if_neg (by push_neg; exact hskip), if_neg hpred, hr]] at hok
          rw [exFold_from_error] at hok
          simp at hok
        · rw [show exStep (eachStep g tailN rec t) (.ok (lseen, cur)) c
              = .ok (c :: lseen, gs') from by
            simp only [exStep, eachStep]
            rw [if_neg (by push_neg; exact hskip), if_neg hpred, hr]] at hok
          have hcnot : (Traversal.make c t.preds).current ∉ cur := by
            simpa [Traversal.make] using hskip.2.1
          rcases hrec _ cur gs' hr hcnot with ⟨⟨ext1, hext1⟩, hnd1, hreach1⟩
          have hin' : t.current ∈ gs' := by
            rw [hext1]
            exact List.mem_append_left _ hin
          rcases eachFold_props g tailN rec hrec t cs (c :: lseen) gs' st'
            (fun x hx => hcs x (List.mem_cons_of_mem _ hx)) hin' hok with
            ⟨⟨ext2, hext2⟩, hnd2, hreach2⟩
          refine ⟨⟨(Traversal.make c t.preds).current :: ext1 ++ ext2, by
            rw [hext2, hext1]
            simp⟩, ?_, ?_⟩
          · intro hcnd
            exact hnd2 (hnd1 hcnd)
          · intro v hv
            rcases hreach2 v hv with h1 | h1
            · rw [hext1] at h1
              rcases List.mem_append.mp h1 with h2 | h2
              · exact Or.inl h2
              · rcases List.mem_cons.mp h2 with h3 | h3
                · refine Or.inr ⟨t.current, ?_, ?_⟩
                  · rw [hext2]
                    exact List.mem_append_left _ hin'
                  · rw [h3]
                    simpa [Traversal.make] using candidates_sub (hcs _ (List.mem_cons_self _ _))
                · rcases hreach1 v (by rw [hext1]; simp [h3]) with h4 | h4 | h4
                  · exact Or.inl h4
                  · refine Or.inr ⟨t.current, ?_, ?_⟩
                    · rw [hext2]
                      exact List.mem_append_left _ hin'
                    · rw [h4]
                      simpa [Traversal.make] using candidates_sub (hcs _ (List.mem_cons_self _ _))
                  · rcases h4 with ⟨u, hu, hedge⟩
                    refine Or.inr ⟨u, ?_, hedge⟩
                    rw [hext2]
                    exact List.mem_append_left _ hu
            · exact Or.inr h1


theorem each_props (g : Graph) (tailN : Nat) :
    ∀ (fuel : Nat) (t : Traversal) (seen0 gs : List Nat),
      Traversal.each g tailN fuel t seen0 = .ok gs →
      t.current ∉ seen0 →
      (∃ ext, gs = seen0 ++ t.current :: ext) ∧
      (seen0.Nodup → gs.Nodup) ∧
      (∀ v ∈ gs, v ∈ seen0 ∨ v = t.current ∨ ∃ u ∈ gs, ∃ s ∈ outSubs g u, s.node = v)
  | 0, t, seen0, gs => by
    intro h _
    simp [Traversal.each, throw, throwThe, MonadExceptOf.throw] at h
  | fuel + 1, t, seen0, gs => by
    intro hok hnotin
    rw [Traversal.each] at hok
    rcases hf : List.foldl (exStep (eachStep g tailN (Traversal.each g tailN fuel) t))
        (.ok ([], seen0 ++ [t.current])) (candidates g t.current [tailN]) with e | st'
    · rw [hf] at hok
      simp [Except.map] at hok
    · rw [hf] at hok
      have hgs : gs = st'.2 := by simpa [Except.map] using hok.symm
      rcases eachFold_props g tailN (Traversal.each g tailN fuel)
        (fun t' cur gs' h1 h2 => each_props g tailN fuel t' cur gs' h1 h2) t
        (candidates g t.current [tailN]) [] (seen0 ++ [t.current]) st'
        (fun c hc => hc) (by simp) hf with ⟨⟨ext, hext⟩, hnd, hreach⟩
      refine ⟨⟨ext, by rw [hgs, hext]; simp⟩, ?_, ?_⟩
      · intro h0
        rw [hgs]
        apply hnd
        simp [List.nodup_append, h0, hnotin]
      · intro v hv
        rcases hreach v (hgs ▸ hv) with h1 | h1
        · rcases List.mem_append.mp h1 with h2 | h2
          · exact Or.inl h2
          · exact Or.inr (Or.inl (by simpa using h2))
        · rcases h1 with ⟨u, hu, hedge⟩
          exact Or.inr (Or.inr ⟨u, hgs ▸ hu, hedge⟩)

theorem claim_C6_counterexample :
    wf G4 = true ∧
    pathNew G4 9 1 none = .ok ⟨1, 2, false⟩ ∧
    pathAccept G4 9 ⟨1, 2, false⟩ = .ok [Ev.node 1, Ev.node 2, Ev.node 4, Ev.path] ∧
    trainedN G4 4 = true ∧
    (outSubs G4 2).all (fun s => s.node != 4) = true ∧
    (4 : Nat) ≠ 1 ∧ (4 : Nat) ≠ 2 :=
  ⟨by decide, by decide, by decide, by decide, by decide, by decide, by decide⟩

end Forml
namespace Forml

theorem le_foldr_max (l : List Nat) (x : Nat) (h : x ∈ l) : x ≤ l.foldr max 0 := by
  induction l with
  | nil => simp at h
  | cons a rest ih =>
    rcases List.mem_cons.mp h with h1 | h1
    · subst h1
      simp [List.foldr_cons]
    · simp only [List.foldr_cons]
      exact le_max_of_le_right (ih h1)

theorem fresh_not_mem (g : Graph) : g.fresh ∉ g.ids := by
  intro h
  have := le_foldr_max g.ids g.fresh h
  unfold Graph.fresh at this
  omega

theorem lookup_mem {l : List (Nat × Nat)} {k v : Nat} (h : l.lookup k = some v) :
    (k, v) ∈ l := by
  induction l with
  | nil => simp [List.lookup] at h
  | cons p rest ih =>
    rw [List.lookup] at h
    by_cases hp : (k == p.1) = true
    · simp only [hp] at h
      have h1 : k = p.1 := by simpa using hp
      have h2 : p.2 = v := by simpa using h
      refine List.mem_cons.mpr (Or.inl ?_)
      rw [h1, ← h2]
    · simp only [Bool.not_eq_true] at hp
      simp only [hp] at h
      exact List.mem_cons_of_mem _ (ih h)

end Forml
namespace Forml

theorem forkOp_ok {g : Graph} {n : Nat} {g1 : Graph} {c : Nat}
    (h : forkOp g n = .ok (g1, c)) :
    ∃ i₀, g.info n = some i₀ ∧ trainedI i₀ = false ∧ c = g.fresh ∧
      g1 = ⟨g.nodes ++ [(c, forkInfo i₀)]⟩ := by
  unfold forkOp at h
  rcases hi : g.info n with _ | i₀ <;> simp only [hi] at h
  · exact absurd h (by simp [throw, throwThe, MonadExceptOf.throw])
  · by_cases ht : trainedI i₀ = true
    · rw [if_pos ht] at h
      exact absurd h (by simp [throw, throwThe, MonadExceptOf.throw])
    · rw [if_neg ht] at h
      have h2 : (⟨g.nodes ++ [(g.fresh, forkInfo i₀)]⟩ : Graph) = g1 ∧ g.fresh = c := by
        simpa [pure, Except.pure] using h
      refine ⟨i₀, rfl, by simpa using ht, h2.2.symm, ?_⟩
      rw [← h2.1, ← h2.2]

theorem info_append_old {g : Graph} {c : Nat} {i : NodeInfo} {n : Nat} (hne : n ≠ c) :
    (Graph.mk (g.nodes ++ [(c, i)])).info n = g.info n := by
  unfold Graph.info
  rw [show (Graph.mk (g.nodes ++ [(c, i)])).nodes = g.nodes ++ [(c, i)] from rfl]
  rw [List.find?_append]
  have hsingle : List.find? (fun p => p.1 == n) [(c, i)] = none := by
    have hcn : (c == n) = false := by
      simp only [beq_eq_false_iff_ne]
      exact fun h => hne h.symm
    simp [List.find?, hcn]
  rw [hsingle, Option.or_none]

theorem info_append_new {g : Graph} {c : Nat} {i : NodeInfo} (hc : c ∉ g.ids) :
    (Graph.mk (g.nodes ++ [(c, i)])).info c = some i := by
  unfold Graph.info
  rw [show (Graph.mk (g.nodes ++ [(c, i)])).nodes = g.nodes ++ [(c, i)] from rfl]
  rw [List.find?_append]
  have hnone : g.nodes.find? (fun p => p.1 == c) = none := by
    rw [List.find?_eq_none]
    intro x hx hxc
    exact hc (List.mem_map.mpr ⟨x, hx, by simpa using hxc⟩)
  rw [hnone, Option.none_or]
  simp [List.find?]

theorem ids_append (g : Graph) (c : Nat) (i : NodeInfo) :
    (Graph.mk (g.nodes ++ [(c, i)])).ids = g.ids ++ [c] := by
  unfold Graph.ids
  rw [show (Graph.mk (g.nodes ++ [(c, i)])).nodes = g.nodes ++ [(c, i)] from rfl]
  simp

theorem trainedI_false_of_allApply {i : NodeInfo} (h : i.input.all Port.isApply = true) :
    trainedI i = false := by
  unfold trainedI
  have hany : i.input.any Port.isTrainish = false := by
    by_cases ha : i.input.any Port.isTrainish = true
    · rcases List.any_eq_true.mp ha with ⟨p, hp, hpt⟩
      rw [List.all_eq_true] at h
      rw [port_apply_not_trainish p (h p hp)] at hpt
      simp at hpt
    · simpa using ha
  rw [hany]
  simp

theorem mem_ids_of_info {g : Graph} {n : Nat} {i : NodeInfo} (h : g.info n = some i) :
    n ∈ g.ids :=
  List.mem_map.mpr ⟨(n, i), info_mem h, rfl⟩

theorem getOrFork_inv {g₀ : Graph} {g : Graph} {copies : List (Nat × Nat)} {orig : Nat}
    {g1 : Graph} {copies1 : List (Nat × Nat)} {c : Nat}
    (h : getOrFork g copies orig = .ok (g1, copies1, c))
    (horig : orig ∈ g₀.ids)
    (hinv : CopyInv g₀ g copies) :
    CopyInv g₀ g1 copies1 ∧ (orig, c) ∈ copies1 ∧
    (∀ oc ∈ copies, oc ∈ copies1) ∧ c ∈ copies1.map (fun x => x.2) := by
  rcases hinv with ⟨hsub, hnd, hold, hcop⟩
  unfold getOrFork at h
  rcases hl : copies.lookup orig with _ | c0
  · rw [hl] at h
    rcases hf : forkOp g orig with e | gc
    · rw [hf] at h
      simp at h
    · rw [hf] at h
      rcases gc with ⟨g2, c2⟩
      have hh : g2 = g1 ∧ (orig, c2) :: copies = copies1 ∧ c2 = c := by
        simpa [pure, Except.pure] using h
      rcases hh with ⟨hg2, hcopies, hc2⟩
      rcases forkOp_ok hf with ⟨i₀, hi₀, htr, hcf, hgf⟩
      have hfresh : c2 ∉ g.ids := by rw [hcf]; exact fresh_not_mem g
      have hfresh0 : c2 ∉ g₀.ids := fun hx => hfresh (hsub c2 hx)
      have hinfo0 : g.info orig = g₀.info orig := hold orig horig
      rw [← hg2, ← hcopies, ← hc2]
      rw [hgf]
      refine ⟨⟨?_, ?_, ?_, ?_⟩, ?_, ?_, ?_⟩
      · intro n hn
        rw [ids_append]
        exact List.mem_append_left _ (hsub n hn)
      · rw [ids_append]
        rw [List.nodup_append]
        refine ⟨hnd, List.nodup_singleton c2, ?_⟩
        intro x hx hxc
        rcases List.mem_singleton.mp hxc with h1
        subst h1
        exact hfresh hx
      · intro n hn
        rw [info_append_old (fun he => hfresh0 (by rw [← he]; exact hn))]
        exact hold n hn
      · intro oc hoc
        rcases List.mem_cons.mp hoc with h1 | h1
        · subst h1
          refine ⟨horig, hfresh0, i₀, forkInfo i₀, hinfo0 ▸ hi₀,
            info_append_new hfresh, htr, rfl, rfl, rfl, rfl, rfl,
            by simp [forkInfo], ?_⟩
          intro s hs
          simp [forkInfo] at hs
        · rcases hcop oc h1 with ⟨ho1, ho2, i₀', i', hio, hi', r1, r2, r3, r4, r5, r6, r7, r8⟩
          have hocne : oc.2 ≠ c2 := by
            intro he
            apply hfresh
            rw [← he]
            exact mem_ids_of_info hi'
          refine ⟨ho1, ho2, i₀', i', hio, ?_, r1, r2, r3, r4, r5, r6, r7, ?_⟩
          · rw [info_append_old hocne]
            exact hi'
          · intro s hs
            simp only [List.map_cons]
            exact List.mem_cons_of_mem _ (r8 s hs)
      · exact List.mem_cons_self _ _
      · intro oc hoc
        exact List.mem_cons_of_mem _ hoc
      · simp
  · rw [hl] at h
    have hh : g = g1 ∧ copies = copies1 ∧ c0 = c := by
      simpa [pure, Except.pure] using h
    rcases hh with ⟨hg, hcp, hc0⟩
    rw [← hg, ← hcp, ← hc0]
    have hmem := lookup_mem hl
    exact ⟨⟨hsub, hnd, hold, hcop⟩, hmem, fun oc hoc => hoc,
      List.mem_map.mpr ⟨(orig, c0), hmem, rfl⟩⟩

end Forml
namespace Forml

theorem flatten_updateAt_sub {α : Type} (x y : α) :
    ∀ (l : List (List α)) (i : Nat),
      y ∈ (updateAt l i (fun v => v ++ [x])).flatten → y ∈ l.flatten ∨ y = x
  | [], _, h => by simp [updateAt] at h
  | a :: rest, 0, h => by
    rw [show updateAt (a :: rest) 0 (fun v => v ++ [x]) = (a ++ [x]) :: rest from rfl] at h
    rw [List.flatten_cons] at h
    rcases List.mem_append.mp h with h1 | h1
    · rcases List.mem_append.mp h1 with h2 | h2
      · exact Or.inl (by rw [List.flatten_cons]; exact List.mem_append_left _ h2)
      · exact Or.inr (List.mem_singleton.mp h2)
    · exact Or.inl (by rw [List.flatten_cons]; exact List.mem_append_right _ h1)
  | a :: rest, i + 1, h => by
    rw [show updateAt (a :: rest) (i + 1) (fun v => v ++ [x])
        = a :: updateAt rest i (fun v => v ++ [x]) from rfl] at h
    rw [List.flatten_cons] at h
    rcases List.mem_append.mp h with h1 | h1
    · exact Or.inl (by rw [List.flatten_cons]; exact List.mem_append_left _ h1)
    · rcases flatten_updateAt_sub x y rest i h1 with h2 | h2
      · exact Or.inl (by rw [List.flatten_cons]; exact List.mem_append_right _ h2)
      · exact Or.inr h2

theorem subscribeCopies_inv {g₀ g g' : Graph} {copies : List (Nat × Nat)}
    {subC pubC pIdx : Nat} {sP : Port}
    (hsub : subC ∈ copies.map (fun x => x.2))
    (hpub : pubC ∈ copies.map (fun x => x.2))
    (hsp : sP.isApply = true)
    (h : subscribeOp g subC sP pubC pIdx = .ok g')
    (hinv : CopyInv g₀ g copies) :
    CopyInv g₀ g' copies := by
  rcases hinv with ⟨hids, hnd, hold, hcop⟩
  rcases subscribeOp_ok h with ⟨si, pi, hsi, hpi, hidx, hne, hnin, hcol, htp, hre⟩
  have hsub0 : subC ∉ g₀.ids := by
    rcases List.mem_map.mp hsub with ⟨oc, hoc, hoc2⟩
    rw [← hoc2]
    exact (hcop oc hoc).2.1
  have hpub0 : pubC ∉ g₀.ids := by
    rcases List.mem_map.mp hpub with ⟨oc, hoc, hoc2⟩
    rw [← hoc2]
    exact (hcop oc hoc).2.1
  rw [hre, recordEdge_graph hsi hpi hne]
  have hinfoMidSub : (g.setInfo pubC { pi with output := updateAt pi.output pIdx (fun l => l ++ [Subscription.mk subC sP]) }).info subC = some si :=
    (info_setInfo_ne hne).trans hsi
  have hinfoSub : ((g.setInfo pubC { pi with output := updateAt pi.output pIdx (fun l => l ++ [Subscription.mk subC sP]) }).setInfo subC { si with input := si.input ++ [sP] }).info subC = some { si with input := si.input ++ [sP] } :=
    info_setInfo_self hinfoMidSub
  have hinfoPub : ((g.setInfo pubC { pi with output := updateAt pi.output pIdx (fun l => l ++ [Subscription.mk subC sP]) }).setInfo subC { si with input := si.input ++ [sP] }).info pubC = some { pi with output := updateAt pi.output pIdx (fun l => l ++ [Subscription.mk subC sP]) } :=
    (info_setInfo_ne (Ne.symm hne)).trans (info_setInfo_self hpi)
  have hinfoOther : ∀ n, n ≠ subC → n ≠ pubC →
      ((g.setInfo pubC { pi with output := updateAt pi.output pIdx (fun l => l ++ [Subscription.mk subC sP]) }).setInfo subC { si with input := si.input ++ [sP] }).info n = g.info n :=
    fun n h1 h2 => (info_setInfo_ne h1).trans (info_setInfo_ne h2)
  have hidsEq : ((g.setInfo pubC { pi with output := updateAt pi.output pIdx (fun l => l ++ [Subscription.mk subC sP]) }).setInfo subC { si with input := si.input ++ [sP] }).ids = g.ids := by
    rw [ids_setInfo, ids_setInfo]
  refine ⟨?_, ?_, ?_, ?_⟩
  · intro n hn
    rw [hidsEq]
    exact hids n hn
  · rw [hidsEq]
    exact hnd
  · intro n hn
    rw [hinfoOther n (fun he => hsub0 (he ▸ hn)) (fun he => hpub0 (he ▸ hn))]
    exact hold n hn
  · intro oc hoc
    rcases hcop oc hoc with ⟨ho1, ho2, i₀, i, hio, hi, htr, f1, f2, f3, f4, f5, hall, hout⟩
    by_cases hcs : oc.2 = subC
    · have hisi : i = si := by
        rw [hcs] at hi
        exact Option.some.inj (hi.symm.trans hsi)
      refine ⟨ho1, ho2, i₀, { si with input := si.input ++ [sP] }, hio, by rw [hcs]; exact hinfoSub,
        htr, ?_, ?_, ?_, ?_, ?_, ?_, ?_⟩
      · rw [show ({ si with input := si.input ++ [sP] } : NodeInfo).worker = si.worker from rfl, ← hisi]
        exact f1
      · rw [show ({ si with input := si.input ++ [sP] } : NodeInfo).szin = si.szin from rfl, ← hisi]
        exact f2
      · rw [show ({ si with input := si.input ++ [sP] } : NodeInfo).szout = si.szout from rfl, ← hisi]
        exact f3
      · rw [show ({ si with input := si.input ++ [sP] } : NodeInfo).spec = si.spec from rfl, ← hisi]
        exact f4
      · rw [show ({ si with input := si.input ++ [sP] } : NodeInfo).fgroup = si.fgroup from rfl, ← hisi]
        exact f5
      · rw [show ({ si with input := si.input ++ [sP] } : NodeInfo).input = si.input ++ [sP] from rfl]
        rw [List.all_append]
        rw [← hisi]
        simp [hall, hsp]
      · intro s hs
        rw [show ({ si with input := si.input ++ [sP] } : NodeInfo).output = si.output from rfl, ← hisi] at hs
        exact hout s hs
    · by_cases hcp : oc.2 = pubC
      · have hipi : i = pi := by
          rw [hcp] at hi
          exact Option.some.inj (hi.symm.trans hpi)
        refine ⟨ho1, ho2, i₀, { pi with output := updateAt pi.output pIdx (fun l => l ++ [Subscription.mk subC sP]) }, hio, by rw [hcp]; exact hinfoPub,
          htr, ?_, ?_, ?_, ?_, ?_, ?_, ?_⟩
        · rw [show ({ pi with output := updateAt pi.output pIdx (fun l => l ++ [Subscription.mk subC sP]) } : NodeInfo).worker = pi.worker from rfl, ← hipi]
          exact f1
        · rw [show ({ pi with output := updateAt pi.output pIdx (fun l => l ++ [Subscription.mk subC sP]) } : NodeInfo).szin = pi.szin from rfl, ← hipi]
          exact f2
        · rw [show ({ pi with output := updateAt pi.output pIdx (fun l => l ++ [Subscription.mk subC sP]) } : NodeInfo).szout = pi.szout from rfl, ← hipi]
          exact f3
        · rw [show ({ pi with output := updateAt pi.output pIdx (fun l => l ++ [Subscription.mk subC sP]) } : NodeInfo).spec = pi.spec from rfl, ← hipi]
          exact f4
        · rw [show ({ pi with output := updateAt pi.output pIdx (fun l => l ++ [Subscription.mk subC sP]) } : NodeInfo).fgroup = pi.fgroup from rfl, ← hipi]
          exact f5
        · rw [show ({ pi with output := updateAt pi.output pIdx (fun l => l ++ [Subscription.mk subC sP]) } : NodeInfo).input = pi.input from rfl, ← hipi]
          exact hall
        · intro s hs
          rw [show ({ pi with output := updateAt pi.output pIdx (fun l => l ++ [Subscription.mk subC sP]) } : NodeInfo).output = updateAt pi.output pIdx (fun l => l ++ [Subscription.mk subC sP]) from rfl] at hs
          rcases flatten_updateAt_sub (Subscription.mk subC sP) s pi.output pIdx hs with h1 | h1
          · rw [← hipi] at h1
            exact hout s h1
          · rw [h1]
            exact hsub
      · refine ⟨ho1, ho2, i₀, i, hio, ?_, htr, f1, f2, f3, f4, f5, hall, hout⟩
        rw [hinfoOther oc.2 hcs hcp]
        exact hi

end Forml
namespace Forml

theorem outSubs_mem {g : Graph} {n : Nat} {s : Subscription} (hs : s ∈ outSubs g n) :
    ∃ i, g.info n = some i ∧ s ∈ i.output.flatten := by
  unfold outSubs at hs
  rcases hi : g.info n with _ | i
  · rw [hi] at hs
    simp at hs
  · rw [hi] at hs
    exact ⟨i, rfl, hs⟩

theorem candidates_mem_ids {g : Graph} (hwf : wf g = true) {cur : Nat} {ex : List Nat} {c : Nat}
    (hc : c ∈ candidates g cur ex) : c ∈ g.ids := by
  rcases candidates_sub hc with ⟨s, hs, hsc⟩
  rcases outSubs_mem hs with ⟨i, hi, hfl⟩
  rcases outSubs_edge hi hfl with ⟨idx, he⟩
  rcases wf_edge_input hwf he with ⟨j, hj, _⟩
  rw [← hsc]
  exact mem_ids_of_info hj

theorem trainedN_congr {g g' : Graph} {n : Nat} (h : g.info n = g'.info n) :
    trainedN g n = trainedN g' n := by
  unfold trainedN
  rw [h]

theorem routeSubs_congr {g g' : Graph} {orig : Nat} (h : g.info orig = g'.info orig)
    (preds : List Nat) : routeSubs g orig preds = routeSubs g' orig preds := by
  unfold routeSubs
  rw [h]

theorem routeSubs_mem {g : Graph} {orig : Nat} {preds : List Nat} {idx : Nat} {s : Subscription}
    (h : (idx, s) ∈ routeSubs g orig preds) :
    ∃ i, g.info orig = some i ∧ s ∈ i.output.flatten ∧ s.node ∈ preds := by
  unfold routeSubs at h
  rcases hi : g.info orig with _ | i
  · rw [hi] at h
    simp at h
  · rw [hi] at h
    rcases List.mem_flatMap.mp h with ⟨p, hp, hmem⟩
    rcases List.mem_map.mp hmem with ⟨s', hs', heq⟩
    have hs'' := List.mem_filter.mp hs'
    have hseq : s' = s := congrArg Prod.snd heq
    have hp2 : p.2 ∈ i.output := by
      rcases p with ⟨pi, pl⟩
      have hget : i.output[pi]? = some pl := List.mem_enum_iff_getElem?.mp hp
      rcases List.getElem?_eq_some.mp hget with ⟨hlt, hgeq⟩
      rw [← hgeq]
      exact List.getElem_mem hlt
    refine ⟨i, rfl, ?_, ?_⟩
    · rw [← hseq]
      exact List.mem_flatten.mpr ⟨p.2, hp2, hs''.1⟩
    · rw [← hseq]
      simpa using hs''.2

theorem sub_port_apply {g : Graph} (hwf : wf g = true) {orig : Nat} {s : Subscription}
    {i j : NodeInfo} (hi : g.info orig = some i) (hfl : s ∈ i.output.flatten)
    (hj : g.info s.node = some j) (htr : trainedI j = false) :
    s.port.isApply = true := by
  rcases outSubs_edge hi hfl with ⟨idx', he⟩
  rcases wf_edge_input hwf he with ⟨j', hj', hpin⟩
  have hjj : j' = j := Option.some.inj (hj'.symm.trans hj)
  rw [hjj] at hpin
  rcases port_apply_or_trainish s.port with hap | htn
  · exact hap
  · exfalso
    have hany : j.input.any Port.isTrainish = true := List.any_eq_true.mpr ⟨s.port, hpin, htn⟩
    rcases wf_future_apply hwf hj with hw | hall
    · unfold trainedI at htr
      rw [hw, hany] at htr
      simp at htr
    · rw [List.all_eq_true] at hall
      have hap2 := hall s.port hpin
      rw [port_apply_not_trainish _ hap2] at htn
      simp at htn

theorem exFold_inv {α β : Type} (f : β → α → Except Err β) (P : β → Prop) (Q : α → Prop)
    (hf : ∀ b a, Q a → P b → ∀ b', f b a = .ok b' → P b') :
    ∀ (l : List α), (∀ a ∈ l, Q a) → ∀ (b0 b' : β), P b0 →
      l.foldl (exStep f) (.ok b0) = .ok b' → P b'
  | [], _, b0, b', hp, h => by
    have hb : b0 = b' := by simpa using h
    rw [← hb]
    exact hp
  | a :: l, hq, b0, b', hp, h => by
    rw [List.foldl_cons] at h
    rw [show exStep f (.ok b0) a = f b0 a from rfl] at h
    rcases hfa : f b0 a with e | b1
    · rw [hfa] at h
      rw [exFold_from_error] at h
      exact absurd h (by simp)
    · rw [hfa] at h
      exact exFold_inv f P Q hf l (fun x hx => hq x (List.mem_cons_of_mem _ hx)) b1 b'
        (hf b0 a (hq a (List.mem_cons_self _ _)) hp b1 hfa) h

end Forml
namespace Forml

theorem copyEdgeStep_inv {g₀ : Graph} (hwf : wf g₀ = true) {preds : List Nat}
    (hpr : ∀ n ∈ preds, n ∈ g₀.ids) {orig : Nat}
    {pub : Nat} {st st' : Graph × List (Nat × Nat)} {is : Nat × Subscription}
    (his : is ∈ routeSubs g₀ orig preds)
    (h : copyEdgeStep pub st is = .ok st')
    (hinv : CopyInv g₀ st.1 st.2 ∧ pub ∈ st.2.map (fun x => x.2)) :
    CopyInv g₀ st'.1 st'.2 ∧ pub ∈ st'.2.map (fun x => x.2) := by
  rcases is with ⟨idx, s⟩
  rcases routeSubs_mem his with ⟨i, hio, hfl, hsp⟩
  have hsn : s.node ∈ g₀.ids := hpr s.node hsp
  unfold copyEdgeStep at h
  rcases hgf : getOrFork st.1 st.2 s.node with e | gcs
  · rw [hgf] at h
    simp at h
  · rcases gcs with ⟨g2, copies2, subC⟩
    rw [hgf] at h
    rcases getOrFork_inv hgf hsn hinv.1 with ⟨hinv2, hmemsc, hmono, hscmem⟩
    have h2 : (match subscribeOp g2 subC s.port pub idx with
      | Except.error e => Except.error e
      | Except.ok g3 => Except.ok (g3, copies2)) = Except.ok st' := h
    rcases hso : subscribeOp g2 subC s.port pub idx with e | g3
    · rw [hso] at h2
      simp at h2
    · rw [hso] at h2
      have hst' : (g3, copies2) = st' := by simpa using h2
      have hpub2 : pub ∈ copies2.map (fun x => x.2) := by
        rcases List.mem_map.mp hinv.2 with ⟨oc, hoc, hoc2⟩
        exact List.mem_map.mpr ⟨oc, hmono oc hoc, hoc2⟩
      have hj : ∃ j₀, g₀.info s.node = some j₀ ∧ trainedI j₀ = false := by
        rcases hinv2 with ⟨_, _, _, hcop⟩
        rcases hcop (s.node, subC) hmemsc with ⟨_, _, j₀, _, hjo, _, htr, _⟩
        exact ⟨j₀, hjo, htr⟩
      rcases hj with ⟨j₀, hjo, htr⟩
      have hap : s.port.isApply = true := sub_port_apply hwf hio hfl hjo htr
      have hfinal : CopyInv g₀ g3 copies2 :=
        subscribeCopies_inv hscmem hpub2 hap hso hinv2
      rw [← hst']
      exact ⟨hfinal, hpub2⟩

theorem copyAtTailStep_inv {g₀ : Graph} (hwf : wf g₀ = true) {preds : List Nat}
    (hpr : ∀ n ∈ preds, n ∈ g₀.ids) {st st' : Graph × List (Nat × Nat)} {orig : Nat}
    (horig : orig ∈ preds)
    (h : copyAtTailStep preds st orig = .ok st')
    (hinv : CopyInv g₀ st.1 st.2) :
    CopyInv g₀ st'.1 st'.2 := by
  unfold copyAtTailStep at h
  rcases hgf : getOrFork st.1 st.2 orig with e | gcs
  · rw [hgf] at h
    simp at h
  · rcases gcs with ⟨g1, copies1, pub⟩
    rw [hgf] at h
    rcases getOrFork_inv hgf (hpr orig horig) hinv with ⟨hinv1, hmem, _, hpubmem⟩
    have hcongr : routeSubs g1 orig preds = routeSubs g₀ orig preds :=
      routeSubs_congr (hinv1.2.2.1 orig (hpr orig horig)) preds
    have h2 : List.foldl (exStep (copyEdgeStep pub)) (Except.ok (g1, copies1))
        (routeSubs g1 orig preds) = Except.ok st' := h
    rw [hcongr] at h2
    have hres := exFold_inv (copyEdgeStep pub)
      (fun b => CopyInv g₀ b.1 b.2 ∧ pub ∈ b.2.map (fun x => x.2))
      (fun is => is ∈ routeSubs g₀ orig preds)
      (fun b a hq hp b' hok => copyEdgeStep_inv hwf hpr hq hok hp)
      (routeSubs g₀ orig preds) (fun a ha => ha) (g1, copies1) st'
      ⟨hinv1, hpubmem⟩ h2
    exact hres.1

theorem copyAtTail_inv {g₀ : Graph} (hwf : wf g₀ = true) {preds : List Nat}
    (hpr : ∀ n ∈ preds, n ∈ g₀.ids) {g : Graph} {copies : List (Nat × Nat)}
    {g' : Graph} {copies' : List (Nat × Nat)}
    (h : copyAtTail g preds copies = .ok (g', copies'))
    (hinv : CopyInv g₀ g copies) :
    CopyInv g₀ g' copies' := by
  unfold copyAtTail at h
  exact exFold_inv (copyAtTailStep preds)
    (fun b => CopyInv g₀ b.1 b.2)
    (fun orig => orig ∈ preds)
    (fun b a hq hp b' hok => copyAtTailStep_inv hwf hpr hq hok hp)
    preds (fun a ha => ha) (g, copies) (g', copies') hinv h

end Forml
namespace Forml

theorem copy_inv (g₀ : Graph) (tailN : Nat) (hwf : wf g₀ = true) :
    ∀ (fuel : Nat) (t : Traversal) (g : Graph) (copies : List (Nat × Nat))
      (g' : Graph) (copies' : List (Nat × Nat)),
      (∀ n ∈ t.preds, n ∈ g₀.ids) →
      CopyInv g₀ g copies →
      Traversal.copy g₀ tailN fuel t g copies = .ok (g', copies') →
      CopyInv g₀ g' copies'
  | 0, t, g, copies, g', copies', hpr, hinv, h => by
    simp [Traversal.copy, throw, throwThe, MonadExceptOf.throw] at h
  | fuel + 1, t, g, copies, g', copies', hpr, hinv, h => by
    rw [Traversal.copy] at h
    by_cases htl : (t.current == tailN) = true
    · rw [if_pos htl] at h
      exact copyAtTail_inv hwf hpr h hinv
    · rw [if_neg htl] at h
      rcases hf : (candidates g₀ t.current [tailN]).foldl
          (exStep (copyWalkStep (Traversal.copy g₀ tailN fuel) t)) (.ok ([], g, copies))
          with e | st
      · rw [hf] at h
        simp [Except.map] at h
      · rw [hf] at h
        have hst : st.2 = (g', copies') := by simpa [Except.map] using h
        have hstep : ∀ (b : List Nat × Graph × List (Nat × Nat)) (c : Nat),
            c ∈ candidates g₀ t.current [tailN] → CopyInv g₀ b.2.1 b.2.2 →
            ∀ b', copyWalkStep (Traversal.copy g₀ tailN fuel) t b c = .ok b' →
            CopyInv g₀ b'.2.1 b'.2.2 := by
          intro b c hc hp b' hok
          unfold copyWalkStep at hok
          by_cases hskip : (c ∈ b.1) ∨ trainedN b.2.1 c = true
          · rw [if_pos hskip] at hok
            have hb : b = b' := by simpa [pure, Except.pure] using hok
            rw [← hb]
            exact hp
          · rw [if_neg hskip] at hok
            by_cases hcp : c ∈ t.preds
            · rw [if_pos hcp] at hok
              simp [throw, throwThe, MonadExceptOf.throw] at hok
            · rw [if_neg hcp] at hok
              rcases hrec : Traversal.copy g₀ tailN fuel (Traversal.make c t.preds) b.2.1 b.2.2
                  with e | gc
              · rw [hrec] at hok
                simp at hok
              · rcases gc with ⟨g2, copies2⟩
                rw [hrec] at hok
                have hb' : ((c :: b.1, g2, copies2) :
                    List Nat × Graph × List (Nat × Nat)) = b' := by simpa using hok
                have hcid : c ∈ g₀.ids := candidates_mem_ids hwf hc
                have hpr' : ∀ n ∈ (Traversal.make c t.preds).preds, n ∈ g₀.ids := by
                  intro n hn
                  unfold Traversal.make at hn
                  by_cases hmem : c ∈ t.preds
                  · rw [if_pos hmem] at hn
                    exact hpr n hn
                  · rw [if_neg hmem] at hn
                    rcases List.mem_cons.mp hn with h1 | h1
                    · rw [h1]
                      exact hcid
                    · exact hpr n h1
                have hinv2 := copy_inv g₀ tailN hwf fuel (Traversal.make c t.preds)
                  b.2.1 b.2.2 g2 copies2 hpr' hp hrec
                rw [← hb']
                exact hinv2
        have hres := exFold_inv (copyWalkStep (Traversal.copy g₀ tailN fuel) t)
          (fun b => CopyInv g₀ b.2.1 b.2.2)
          (fun c => c ∈ candidates g₀ t.current [tailN])
          hstep
          (candidates g₀ t.current [tailN]) (fun a ha => ha)
          ([], g, copies) st hinv hf
        have hres' : CopyInv g₀ st.2.1 st.2.2 := hres
        rw [hst] at hres'
        exact hres'

end Forml
namespace Forml

theorem tailFold_closed (g : Graph) (rec : Traversal → Option Nat → Except Err Traversal)
    (t : Traversal) (exp : Option Nat) (S : Nat → Prop)
    (hrec : ∀ c, S c → ∀ r, rec (Traversal.make c t.preds) exp = .ok r → S r.current) :
    ∀ (cs : List Nat), (∀ c ∈ cs, S c) →
      ∀ (seen : List Nat) (endings : List Traversal),
      (∀ u ∈ endings, S u.current) →
      (∀ r, List.foldl (tailStep g rec t exp) (.ok (seen, endings)) cs = .error (.ok r) →
        S r.current) ∧
      (∀ seen' endings', List.foldl (tailStep g rec t exp) (.ok (seen, endings)) cs
          = .ok (seen', endings') → ∀ u ∈ endings', S u.current)
  | [], _, seen, endings, hend => by
    constructor
    · intro r h
      simp at h
    · intro seen' endings' h u hu
      have hp : (seen, endings) = (seen', endings') := by simpa using h
      have he2 : endings = endings' := congrArg Prod.snd hp
      rw [← he2] at hu
      exact hend u hu
  | c :: cs, hcs, seen, endings, hend => by
    rw [List.foldl_cons]
    by_cases hskip : c ∈ seen ∨ mapperMask g c = false
    · rw [show tailStep g rec t exp (.ok (seen, endings)) c = .ok (seen, endings) from by
        simp [tailStep, hskip]]
      exact tailFold_closed g rec t exp S hrec cs
        (fun x hx => hcs x (List.mem_cons_of_mem _ hx)) seen endings hend
    · by_cases hc : c ∈ t.preds
      · rw [show tailStep g rec t exp (.ok (seen, endings)) c = .error (throw Err.cyclic) from by
          simp [tailStep, hskip, hc]]
        rw [tailFold_from_error]
        constructor
        · intro r h
          exact absurd h (by simp [throw, throwThe, MonadExceptOf.throw])
        · intro seen' endings' h
          exact absurd h (by simp)
      · rcases hr : rec (Traversal.make c t.preds) exp with e | tl
        · rw [show tailStep g rec t exp (.ok (seen, endings)) c = .error (throw e) from by
            simp [tailStep, hskip, hc, hr]]
          rw [tailFold_from_error]
          constructor
          · intro r h
            exact absurd h (by simp [throw, throwThe, MonadExceptOf.throw])
          · intro seen' endings' h
            exact absurd h (by simp)
        · have hStl : S tl.current := hrec c (hcs c (List.mem_cons_self _ _)) tl hr
          by_cases hm : expMatches exp tl.current = true
          · rw [show tailStep g rec t exp (.ok (seen, endings)) c = .error (pure tl) from by
              simp [tailStep, hskip, hc, hr, hm]]
            rw [tailFold_from_error]
            constructor
            · intro r h
              have h1 : (pure tl : Except Err Traversal) = .ok r := by simpa using h
              have h2 : tl = r := by simpa [pure, Except.pure] using h1
              rw [← h2]
              exact hStl
            · intro seen' endings' h
              exact absurd h (by simp)
          · rw [show tailStep g rec t exp (.ok (seen, endings)) c
                = .ok (c :: seen, endingsInsert endings tl) from by
              simp [tailStep, hskip, hc, hr, hm]]
            refine tailFold_closed g rec t exp S hrec cs
              (fun x hx => hcs x (List.mem_cons_of_mem _ hx)) _ _ ?_
            intro u hu
            unfold endingsInsert at hu
            by_cases ha : endings.any (fun v => v.same tl) = true
            · rw [if_pos ha] at hu
              exact hend u hu
            · rw [if_neg ha] at hu
              rcases List.mem_append.mp hu with h1 | h1
              · exact hend u h1
              · rw [List.mem_singleton.mp h1]
                exact hStl

theorem tail_closed (g : Graph) (exp : Option Nat) (S : Nat → Prop)
    (hcl : ∀ n, S n → ∀ c ∈ candidates g n exp.toList, S c) :
    ∀ (fuel : Nat) (t : Traversal), S t.current →
      ∀ r, Traversal.tail g fuel t exp = .ok r → S r.current
  | 0, t, hS, r, h => by
    simp [Traversal.tail, throw, throwThe, MonadExceptOf.throw] at h
  | fuel + 1, t, hS, r, h => by
    rw [Traversal.tail] at h
    by_cases hm : expMatches exp t.current = true
    · rw [if_pos hm] at h
      have h1 : t = r := by simpa [pure, Except.pure] using h
      rw [← h1]
      exact hS
    · rw [if_neg hm] at h
      have hfold := tailFold_closed g (Traversal.tail g fuel) t exp S
        (fun c hSc r' hr' => tail_closed g exp S hcl fuel (Traversal.make c t.preds) hSc r' hr')
        (candidates g t.current exp.toList)
        (fun c hc => hcl t.current hS c hc)
        [] [] (by intro u hu; simp at hu)
      rcases hff : (candidates g t.current exp.toList).foldl
          (tailStep g (Traversal.tail g fuel) t exp) (.ok ([], [])) with done | se
      · rw [hff] at h
        have h2 : done = .ok r := h
        exact hfold.1 r (by rw [hff, h2])
      · rw [hff] at h
        rcases se with ⟨seen, endings⟩
        have h' : tailFinish t exp endings = .ok r := h
        unfold tailFinish at h'
        by_cases hemp : endings.isEmpty = true
        · rw [if_pos hemp] at h'
          have h1 : t = r := by simpa [pure, Except.pure] using h'
          rw [← h1]
          exact hS
        · rw [if_neg hemp] at h'
          by_cases hroot : (t.preds.length == 1 && (exp.isSome || endings.length > 1)) = true
          · rw [if_pos hroot] at h'
            simp [throw, throwThe, MonadExceptOf.throw] at h'
          · rw [if_neg hroot] at h'
            have hhd : endings.headD t = r := by simpa [pure, Except.pure] using h'
            rcases hendings : endings with _ | ⟨u, us⟩
            · rw [hendings] at hemp
              simp at hemp
            · have hu : u = r := by
                rw [hendings] at hhd
                simpa using hhd
              have hmem := hfold.2 seen endings hff u (by rw [hendings]; exact List.mem_cons_self _ _)
              rw [← hu]
              exact hmem

end Forml
namespace Forml

/-- Anatomy of a successful `Path.copy`: the final graph satisfies the copy
invariant, head and tail copies are recorded, and the returned path is the
re-anchored path over the copies with a freshly resolved tail. -/
theorem pathCopy_anatomy {g : Graph} {fuel : Nat} {p : PathV} {g' : Graph} {q : PathV}
    (hwf : wf g = true) (hhead : p.head ∈ g.ids)
    (hc : pathCopy g fuel p = .ok (g', q)) :
    ∃ (copies : List (Nat × Nat)) (ch ct : Nat) (t : Traversal),
      CopyInv g g' copies ∧
      copies.lookup p.head = some ch ∧ copies.lookup p.tail = some ct ∧
      Traversal.tail g' fuel (Traversal.make ch []) (some ct) = .ok t ∧
      q.head = ch ∧ q.tail = t.current ∧
      q.closure = (outSubs g' t.current).any (fun s => trainedN g' s.node) ∧
      t.current ∈ copies.map (fun x => x.2) := by
  unfold pathCopy at hc
  rcases hcp : Traversal.copy g p.tail fuel (Traversal.make p.head []) g [] with e | gc
  · rw [hcp] at hc
    simp at hc
  · rcases gc with ⟨g1, copies⟩
    rw [hcp] at hc
    rcases hlh : copies.lookup p.head with _ | ch
    · simp only [hlh] at hc
      simp [throw, throwThe, MonadExceptOf.throw] at hc
    rcases hlt : copies.lookup p.tail with _ | ct
    · simp only [hlh, hlt] at hc
      simp [throw, throwThe, MonadExceptOf.throw] at hc
    simp only [hlh, hlt] at hc
    rcases hpn : pathNew g1 fuel ch (some ct) with e | q'
    · rw [hpn] at hc
      simp [Except.map] at hc
    rw [hpn] at hc
    have hgq : (g1, q') = (g', q) := by simpa [Except.map] using hc
    have hg1 : g1 = g' := congrArg Prod.fst hgq
    have hq' : q' = q := congrArg Prod.snd hgq
    have hinv0 : CopyInv g g [] := ⟨fun n h => h, wf_nodup hwf, fun n _ => rfl, by simp⟩
    have hpr : ∀ n ∈ (Traversal.make p.head []).preds, n ∈ g.ids := by
      intro n hn
      rw [make_root] at hn
      have hn2 : n = p.head := by simpa using hn
      rw [hn2]
      exact hhead
    have hinv := copy_inv g p.tail hwf fuel (Traversal.make p.head []) g [] g1 copies hpr hinv0 hcp
    have hchS : ch ∈ copies.map (fun x => x.2) :=
      List.mem_map.mpr ⟨(p.head, ch), lookup_mem hlh, rfl⟩
    have hcl : ∀ n, n ∈ copies.map (fun x => x.2) →
        ∀ c ∈ candidates g1 n (some ct).toList, c ∈ copies.map (fun x => x.2) := by
      intro n hSn c hcand
      rcases candidates_sub hcand with ⟨s, hs, hsc⟩
      rcases outSubs_mem hs with ⟨i, hi, hfl⟩
      rcases List.mem_map.mp hSn with ⟨oc, hoc, hoc2⟩
      rcases hinv.2.2.2 oc hoc with ⟨_, _, i₀, i', _, hi', _, _, _, _, _, _, _, hout⟩
      rw [hoc2] at hi'
      have hii : i' = i := Option.some.inj (hi'.symm.trans hi)
      rw [← hsc]
      exact hout s (by rw [hii]; exact hfl)
    rcases pathNew_ok_shape hpn with ⟨t, hi2, ti, hchi, _, htail, hti, _, hq'eq⟩
    have htc : t.current ∈ copies.map (fun x => x.2) :=
      tail_closed g1 (some ct) (fun n => n ∈ copies.map (fun x => x.2)) hcl fuel
        (Traversal.make ch []) hchS t htail
    refine ⟨copies, ch, ct, t, ?_, hlh, hlt, ?_, ?_, ?_, ?_, htc⟩
    · rw [← hg1]
      exact hinv
    · rw [← hg1]
      exact htail
    · rw [← hq', hq'eq]
    · rw [← hq', hq'eq]
    · rw [← hq', hq'eq, ← hg1]

end Forml
namespace Forml

/-- C10: for every Closure path (and indeed every path), `copy()` returns a
Channel: no edge into a trained sink is reproduced and every copied node
carries only Apply input ports, so the re-classification of the copied path
always yields `closure = false`. -/
theorem claim_C10 (g : Graph) (fuel : Nat) (p : PathV) (g' : Graph) (q : PathV)
    (hwf : wf g = true) (hhead : p.head ∈ g.ids) (hclo : p.closure = true)
    (hc : pathCopy g fuel p = .ok (g', q)) :
    q.closure = false := by
  rcases pathCopy_anatomy hwf hhead hc with
    ⟨copies, ch, ct, t, hinv, hlh, hlt, htail, hqh, hqt, hqc, htc⟩
  rcases List.mem_map.mp htc with ⟨oct, hoct, hoct2⟩
  rcases hinv.2.2.2 oct hoct with ⟨_, _, j₀, j, _, hj, _, _, _, _, _, _, _, hjout⟩
  rw [hoct2] at hj
  rw [hqc]
  by_cases hany : (outSubs g' t.current).any (fun s => trainedN g' s.node) = true
  · exfalso
    rcases List.any_eq_true.mp hany with ⟨s, hsmem, hstr⟩
    rcases outSubs_mem hsmem with ⟨j', hj', hfl'⟩
    have hjj' : j' = j := Option.some.inj (hj'.symm.trans hj)
    have hsnode : s.node ∈ copies.map (fun x => x.2) :=
      hjout s (by rw [← hjj']; exact hfl')
    rcases List.mem_map.mp hsnode with ⟨ocs, hocs, hocs2⟩
    rcases hinv.2.2.2 ocs hocs with ⟨_, _, k₀, k, _, hk, _, _, _, _, _, _, hkall, _⟩
    rw [hocs2] at hk
    have htr : trainedN g' s.node = false := by
      unfold trainedN
      rw [hk]
      exact trainedI_false_of_allApply hkall
    rw [htr] at hstr
    simp at hstr
  · simpa using hany

end Forml
namespace Forml

/-- C5 counterexample: copying the Closure `(1, 2)` of `G1` materializes the
forks `5` (of head `1`) and `4` (of tail `2`) in the SAME fork groups as
their originals (`1` and `2`), not in fresh fork groups. -/
theorem claim_C5_counterexample :
    pathCopy G1 9 ⟨1, 2, true⟩ = .ok (G1c, ⟨5, 4, false⟩) ∧
    (G1c.info 5).map (fun i => i.fgroup) = (G1.info 1).map (fun i => i.fgroup) ∧
    (G1c.info 4).map (fun i => i.fgroup) = (G1.info 2).map (fun i => i.fgroup) := by
  refine ⟨by decide, by decide, by decide⟩

theorem claim_C10_witness :
    wf G1 = true ∧ (⟨1, 2, true⟩ : PathV).head ∈ G1.ids ∧
    (⟨1, 2, true⟩ : PathV).closure = true ∧
    (⟨5, 4, false⟩ : PathV).closure = false :=
  ⟨by decide, by decide, by decide,
    claim_C10 G1 9 ⟨1, 2, true⟩ G1c ⟨5, 4, false⟩ (by decide) (by decide) (by decide) (by decide)⟩

end Forml
namespace Forml

theorem updateAt_len {α : Type} (f : α → α) :
    ∀ (l : List α) (n : Nat), (updateAt l n f).length = l.length
  | [], _ => rfl
  | a :: l, 0 => rfl
  | a :: l, n + 1 => by
    rw [show updateAt (a :: l) (n + 1) f = a :: updateAt l n f from rfl]
    simp [updateAt_len f l n]

theorem edges_append_mono (ns ms : List (Nat × NodeInfo)) {e : Edge}
    (he : e ∈ (Graph.mk ns).edges) : e ∈ (Graph.mk (ns ++ ms)).edges := by
  unfold Graph.edges at he ⊢
  rcases List.mem_flatMap.mp he with ⟨p, hp, hpe⟩
  exact List.mem_flatMap.mpr ⟨p, List.mem_append_left _ hp, hpe⟩

theorem lookup_cons_new {copies : List (Nat × Nat)} {orig c k v : Nat}
    (horig : copies.lookup orig = none) (h : copies.lookup k = some v) :
    ((orig, c) :: copies).lookup k = some v := by
  have hk : ¬ (k = orig) := by
    intro he
    rw [he] at h
    rw [horig] at h
    simp at h
  rw [List.lookup]
  have hbeq : (k == orig) = false := by
    simp only [beq_eq_false_iff_ne]
    exact hk
  simp only [hbeq]
  exact h

theorem getOrFork_stab {g : Graph} {copies : List (Nat × Nat)} {orig : Nat}
    {g1 : Graph} {copies1 : List (Nat × Nat)} {c : Nat}
    (h : getOrFork g copies orig = .ok (g1, copies1, c)) :
    ∀ k v, copies.lookup k = some v → copies1.lookup k = some v := by
  unfold getOrFork at h
  rcases hl : copies.lookup orig with _ | c0
  · rw [hl] at h
    rcases hf : forkOp g orig with e | gc
    · rw [hf] at h
      simp at h
    · rcases gc with ⟨g2, c2⟩
      rw [hf] at h
      have hh : g2 = g1 ∧ (orig, c2) :: copies = copies1 ∧ c2 = c := by
        simpa [pure, Except.pure] using h
      intro k v hkv
      rw [← hh.2.1]
      exact lookup_cons_new hl hkv
  · rw [hl] at h
    have hh : g = g1 ∧ copies = copies1 ∧ c0 = c := by
      simpa [pure, Except.pure] using h
    intro k v hkv
    rw [← hh.2.1]
    exact hkv

theorem getOrFork_lookup_self {g : Graph} {copies : List (Nat × Nat)} {orig : Nat}
    {g1 : Graph} {copies1 : List (Nat × Nat)} {c : Nat}
    (h : getOrFork g copies orig = .ok (g1, copies1, c)) :
    copies1.lookup orig = some c := by
  unfold getOrFork at h
  rcases hl : copies.lookup orig with _ | c0
  · rw [hl] at h
    rcases hf : forkOp g orig with e | gc
    · rw [hf] at h
      simp at h
    · rcases gc with ⟨g2, c2⟩
      rw [hf] at h
      have hh : g2 = g1 ∧ (orig, c2) :: copies = copies1 ∧ c2 = c := by
        simpa [pure, Except.pure] using h
      rw [← hh.2.1, List.lookup]
      simp only [beq_self_eq_true]
      rw [hh.2.2]
  · rw [hl] at h
    have hh : g = g1 ∧ copies = copies1 ∧ c0 = c := by
      simpa [pure, Except.pure] using h
    rw [← hh.2.1, hl, hh.2.2]

theorem getOrFork_mono_edges {g : Graph} {copies : List (Nat × Nat)} {orig : Nat}
    {g1 : Graph} {copies1 : List (Nat × Nat)} {c : Nat}
    (h : getOrFork g copies orig = .ok (g1, copies1, c)) :
    ∀ e ∈ g.edges, e ∈ g1.edges := by
  unfold getOrFork at h
  rcases hl : copies.lookup orig with _ | c0
  · rw [hl] at h
    rcases hf : forkOp g orig with e | gc
    · rw [hf] at h
      simp at h
    · rcases gc with ⟨g2, c2⟩
      rw [hf] at h
      have hh : g2 = g1 ∧ (orig, c2) :: copies = copies1 ∧ c2 = c := by
        simpa [pure, Except.pure] using h
      rcases forkOp_ok hf with ⟨i₀, _, _, _, hgf⟩
      intro e he
      rw [← hh.1, hgf]
      exact edges_append_mono g.nodes [(c2, forkInfo i₀)] he
  · rw [hl] at h
    have hh : g = g1 ∧ copies = copies1 ∧ c0 = c := by
      simpa [pure, Except.pure] using h
    intro e he
    rw [← hh.1]
    exact he

theorem getOrFork_len {g : Graph} {copies : List (Nat × Nat)} {orig : Nat}
    {g1 : Graph} {copies1 : List (Nat × Nat)} {c : Nat}
    (h : getOrFork g copies orig = .ok (g1, copies1, c))
    (hlen : CopyLen g copies) : CopyLen g1 copies1 := by
  unfold getOrFork at h
  rcases hl : copies.lookup orig with _ | c0
  · rw [hl] at h
    rcases hf : forkOp g orig with e | gc
    · rw [hf] at h
      simp at h
    · rcases gc with ⟨g2, c2⟩
      rw [hf] at h
      have hh : g2 = g1 ∧ (orig, c2) :: copies = copies1 ∧ c2 = c := by
        simpa [pure, Except.pure] using h
      rcases forkOp_ok hf with ⟨i₀, hi₀, _, hcf, hgf⟩
      have hfresh : c2 ∉ g.ids := by
        rw [hcf]
        exact fresh_not_mem g
      intro oc hoc
      rw [← hh.2.1] at hoc
      rw [← hh.1, hgf]
      rcases List.mem_cons.mp hoc with h1 | h1
      · rw [h1]
        refine ⟨forkInfo i₀, info_append_new hfresh, ?_⟩
        simp [forkInfo]
      · rcases hlen oc h1 with ⟨i, hi, hil⟩
        refine ⟨i, ?_, hil⟩
        rw [info_append_old ?hne]
        · exact hi
        · intro he
          apply hfresh
          rw [← he]
          exact mem_ids_of_info hi
  · rw [hl] at h
    have hh : g = g1 ∧ copies = copies1 ∧ c0 = c := by
      simpa [pure, Except.pure] using h
    rw [← hh.1, ← hh.2.1]
    exact hlen

end Forml
namespace Forml

theorem subscribeCopies_len {g g' : Graph} {copies : List (Nat × Nat)}
    {subC pubC pIdx : Nat} {sP : Port}
    (h : subscribeOp g subC sP pubC pIdx = .ok g')
    (hlen : CopyLen g copies) : CopyLen g' copies := by
  rcases subscribeOp_ok h with ⟨si, pi, hsi, hpi, _, hne, _, _, _, hre⟩
  rw [hre, recordEdge_graph hsi hpi hne]
  intro oc hoc
  rcases hlen oc hoc with ⟨i, hi, hil⟩
  by_cases hcs : oc.2 = subC
  · have hisi : i = si := by
      rw [hcs] at hi
      exact Option.some.inj (hi.symm.trans hsi)
    refine ⟨{ si with input := si.input ++ [sP] }, ?_, ?_⟩
    · rw [hcs]
      exact info_setInfo_self ((info_setInfo_ne hne).trans hsi)
    · rw [show ({ si with input := si.input ++ [sP] } : NodeInfo).output = si.output from rfl,
        show ({ si with input := si.input ++ [sP] } : NodeInfo).szout = si.szout from rfl,
        ← hisi]
      exact hil
  · by_cases hcp : oc.2 = pubC
    · have hipi : i = pi := by
        rw [hcp] at hi
        exact Option.some.inj (hi.symm.trans hpi)
      refine ⟨{ pi with output := updateAt pi.output pIdx (fun l => l ++ [Subscription.mk subC sP]) }, ?_, ?_⟩
      · rw [hcp]
        exact (info_setInfo_ne (Ne.symm hne)).trans (info_setInfo_self hpi)
      · rw [show ({ pi with output := updateAt pi.output pIdx (fun l => l ++ [Subscription.mk subC sP]) } : NodeInfo).output = updateAt pi.output pIdx (fun l => l ++ [Subscription.mk subC sP]) from rfl,
          show ({ pi with output := updateAt pi.output pIdx (fun l => l ++ [Subscription.mk subC sP]) } : NodeInfo).szout = pi.szout from rfl]
        rw [updateAt_len]
        rw [← hipi]
        exact hil
    · refine ⟨i, ?_, hil⟩
      exact ((info_setInfo_ne hcs).trans (info_setInfo_ne hcp)).trans hi

theorem subscribeCopies_edges {g g' : Graph} {copies : List (Nat × Nat)}
    {subC pubC pIdx : Nat} {sP : Port}
    (hnd : (g.ids).Nodup)
    (hpub : pubC ∈ copies.map (fun x => x.2))
    (hlen : CopyLen g copies)
    (h : subscribeOp g subC sP pubC pIdx = .ok g') :
    (g'.edges).Perm (Edge.mk pubC pIdx (Subscription.mk subC sP) :: g.edges) := by
  rcases subscribeOp_ok h with ⟨si, pi, hsi, hpi, hszout, hne, _, _, _, hre⟩
  rcases List.mem_map.mp hpub with ⟨oc, hoc, hoc2⟩
  rcases hlen oc hoc with ⟨i, hi, hil⟩
  rw [hoc2] at hi
  have hipi : i = pi := Option.some.inj (hi.symm.trans hpi)
  have hidx : pIdx < pi.output.length := by
    rw [← hipi] at hpi ⊢
    rw [hil]
    rw [hipi]
    exact hszout
  rw [hre]
  exact recordEdge_edges_perm hnd hsi hpi hne hidx

theorem exFold_estab {α β : Type} (f : β → α → Except Err β) (P : β → Prop)
    (E : α → β → Prop) (M : β → β → Prop) (Q : α → Prop)
    (hP : ∀ b a, Q a → P b → ∀ b', f b a = .ok b' → P b')
    (hM : ∀ b a, Q a → P b → ∀ b', f b a = .ok b' → M b b')
    (hMrefl : ∀ b, M b b)
    (hMtrans : ∀ b₁ b₂ b₃, M b₁ b₂ → M b₂ b₃ → M b₁ b₃)
    (hE : ∀ b a, Q a → P b → ∀ b', f b a = .ok b' → E a b')
    (hEM : ∀ a b b', E a b → M b b' → E a b') :
    ∀ (l : List α), (∀ a ∈ l, Q a) → ∀ (b0 b' : β), P b0 →
      l.foldl (exStep f) (.ok b0) = .ok b' →
      P b' ∧ M b0 b' ∧ (∀ a ∈ l, E a b')
  | [], _, b0, b', hp, h => by
    have hb : b0 = b' := by simpa using h
    rw [← hb]
    exact ⟨hp, hMrefl b0, by simp⟩
  | a :: l, hq, b0, b', hp, h => by
    rw [List.foldl_cons] at h
    rw [show exStep f (.ok b0) a = f b0 a from rfl] at h
    rcases hfa : f b0 a with e | b1
    · rw [hfa] at h
      rw [exFold_from_error] at h
      exact absurd h (by simp)
    · rw [hfa] at h
      have hqa := hq a (List.mem_cons_self _ _)
      have hp1 : P b1 := hP b0 a hqa hp b1 hfa
      rcases exFold_estab f P E M Q hP hM hMrefl hMtrans hE hEM l
        (fun x hx => hq x (List.mem_cons_of_mem _ hx)) b1 b' hp1 h with ⟨hp', hm, he⟩
      refine ⟨hp', hMtrans b0 b1 b' (hM b0 a hqa hp b1 hfa) hm, ?_⟩
      intro x hx
      rcases List.mem_cons.mp hx with h1 | h1
      · rw [h1]
        exact hEM a b1 b' (hE b0 a hqa hp b1 hfa) hm
      · exact he x h1

end Forml
namespace Forml

theorem copyEdgeStep_full {g₀ : Graph} (hwf : wf g₀ = true) {preds : List Nat}
    (hpr : ∀ n ∈ preds, n ∈ g₀.ids) {orig : Nat}
    {pub : Nat} {st st' : Graph × List (Nat × Nat)} {is : Nat × Subscription}
    (his : is ∈ routeSubs g₀ orig preds)
    (h : copyEdgeStep pub st is = .ok st')
    (hinv : CopyInv g₀ st.1 st.2 ∧ CopyLen st.1 st.2 ∧ pub ∈ st.2.map (fun x => x.2)) :
    (CopyInv g₀ st'.1 st'.2 ∧ CopyLen st'.1 st'.2 ∧ pub ∈ st'.2.map (fun x => x.2)) ∧
    ((∀ k v, st.2.lookup k = some v → st'.2.lookup k = some v) ∧
      (∀ e ∈ st.1.edges, e ∈ st'.1.edges)) ∧
    (∃ cs, st'.2.lookup is.2.node = some cs ∧
      Edge.mk pub is.1 (Subscription.mk cs is.2.port) ∈ st'.1.edges) := by
  rcases is with ⟨idx, s⟩
  rcases routeSubs_mem his with ⟨i, hio, hfl, hsp⟩
  have hsn : s.node ∈ g₀.ids := hpr s.node hsp
  unfold copyEdgeStep at h
  rcases hgf : getOrFork st.1 st.2 s.node with e | gcs
  · rw [hgf] at h
    simp at h
  · rcases gcs with ⟨g2, copies2, subC⟩
    rw [hgf] at h
    rcases getOrFork_inv hgf hsn hinv.1 with ⟨hinv2, hmemsc, hmono, hscmem⟩
    have hlen2 : CopyLen g2 copies2 := getOrFork_len hgf hinv.2.1
    have h2 : (match subscribeOp g2 subC s.port pub idx with
      | Except.error e => Except.error e
      | Except.ok g3 => Except.ok (g3, copies2)) = Except.ok st' := h
    rcases hso : subscribeOp g2 subC s.port pub idx with e | g3
    · rw [hso] at h2
      simp at h2
    · rw [hso] at h2
      have hst' : (g3, copies2) = st' := by simpa using h2
      have hpub2 : pub ∈ copies2.map (fun x => x.2) := by
        rcases List.mem_map.mp hinv.2.2 with ⟨oc, hoc, hoc2⟩
        exact List.mem_map.mpr ⟨oc, hmono oc hoc, hoc2⟩
      have hj : ∃ j₀, g₀.info s.node = some j₀ ∧ trainedI j₀ = false := by
        rcases hinv2 with ⟨_, _, _, hcop⟩
        rcases hcop (s.node, subC) hmemsc with ⟨_, _, j₀, _, hjo, _, htr, _⟩
        exact ⟨j₀, hjo, htr⟩
      rcases hj with ⟨j₀, hjo, htr⟩
      have hap : s.port.isApply = true := sub_port_apply hwf hio hfl hjo htr
      have hinv3 : CopyInv g₀ g3 copies2 := subscribeCopies_inv hscmem hpub2 hap hso hinv2
      have hlen3 : CopyLen g3 copies2 := subscribeCopies_len hso hlen2
      have heperm := subscribeCopies_edges hinv2.2.1 hpub2 hlen2 hso
      rw [← hst']
      refine ⟨⟨hinv3, hlen3, hpub2⟩, ⟨?_, ?_⟩, ?_⟩
      · intro k v hkv
        exact getOrFork_stab hgf k v hkv
      · intro e he
        exact heperm.mem_iff.mpr (List.mem_cons_of_mem _ (getOrFork_mono_edges hgf e he))
      · refine ⟨subC, getOrFork_lookup_self hgf, ?_⟩
        exact heperm.mem_iff.mpr (List.mem_cons_self _ _)

theorem copyAtTailStep_full {g₀ : Graph} (hwf : wf g₀ = true) {preds : List Nat}
    (hpr : ∀ n ∈ preds, n ∈ g₀.ids) {st st' : Graph × List (Nat × Nat)} {orig : Nat}
    (horig : orig ∈ preds)
    (h : copyAtTailStep preds st orig = .ok st')
    (hinv : CopyInv g₀ st.1 st.2 ∧ CopyLen st.1 st.2) :
    (CopyInv g₀ st'.1 st'.2 ∧ CopyLen st'.1 st'.2) ∧
    ((∀ k v, st.2.lookup k = some v → st'.2.lookup k = some v) ∧
      (∀ e ∈ st.1.edges, e ∈ st'.1.edges)) ∧
    (∃ co, st'.2.lookup orig = some co ∧
      ∀ is ∈ routeSubs g₀ orig preds, ∃ cs, st'.2.lookup is.2.node = some cs ∧
        Edge.mk co is.1 (Subscription.mk cs is.2.port) ∈ st'.1.edges) := by
  unfold copyAtTailStep at h
  rcases hgf : getOrFork st.1 st.2 orig with e | gcs
  · rw [hgf] at h
    simp at h
  · rcases gcs with ⟨g1, copies1, pub⟩
    rw [hgf] at h
    rcases getOrFork_inv hgf (hpr orig horig) hinv.1 with ⟨hinv1, hmem, hmono, hpubmem⟩
    have hlen1 : CopyLen g1 copies1 := getOrFork_len hgf hinv.2
    have hcongr : routeSubs g1 orig preds = routeSubs g₀ orig preds :=
      routeSubs_congr (hinv1.2.2.1 orig (hpr orig horig)) preds
    have h2 : List.foldl (exStep (copyEdgeStep pub)) (Except.ok (g1, copies1))
        (routeSubs g1 orig preds) = Except.ok st' := h
    rw [hcongr] at h2
    rcases exFold_estab (copyEdgeStep pub)
      (fun b => CopyInv g₀ b.1 b.2 ∧ CopyLen b.1 b.2 ∧ pub ∈ b.2.map (fun x => x.2))
      (fun is b => ∃ cs, b.2.lookup is.2.node = some cs ∧
        Edge.mk pub is.1 (Subscription.mk cs is.2.port) ∈ b.1.edges)
      (fun b b' => (∀ k v, b.2.lookup k = some v → b'.2.lookup k = some v) ∧
        (∀ e ∈ b.1.edges, e ∈ b'.1.edges))
      (fun is => is ∈ routeSubs g₀ orig preds)
      (fun b a hq hp b' hok => (copyEdgeStep_full hwf hpr hq hok hp).1)
      (fun b a hq hp b' hok => (copyEdgeStep_full hwf hpr hq hok hp).2.1)
      (fun b => ⟨fun k v hv => hv, fun e he => he⟩)
      (fun b₁ b₂ b₃ m1 m2 => ⟨fun k v hv => m2.1 k v (m1.1 k v hv), fun e he => m2.2 e (m1.2 e he)⟩)
      (fun b a hq hp b' hok => (copyEdgeStep_full hwf hpr hq hok hp).2.2)
      (fun a b b' he hm => by
        rcases he with ⟨cs, h1, h3⟩
        exact ⟨cs, hm.1 _ _ h1, hm.2 _ h3⟩)
      (routeSubs g₀ orig preds) (fun a ha => ha)
      (g1, copies1) st' ⟨hinv1, hlen1, hpubmem⟩ h2 with ⟨hpfin, hmfin, hefin⟩
    refine ⟨⟨hpfin.1, hpfin.2.1⟩, ⟨?_, ?_⟩, ?_⟩
    · intro k v hkv
      exact hmfin.1 k v (getOrFork_stab hgf k v hkv)
    · intro e he
      exact hmfin.2 e (getOrFork_mono_edges hgf e he)
    · exact ⟨pub, hmfin.1 orig pub (getOrFork_lookup_self hgf), hefin⟩

theorem copyAtTail_full {g₀ : Graph} (hwf : wf g₀ = true) {preds : List Nat}
    (hpr : ∀ n ∈ preds, n ∈ g₀.ids) {g : Graph} {copies : List (Nat × Nat)}
    {g' : Graph} {copies' : List (Nat × Nat)}
    (h : copyAtTail g preds copies = .ok (g', copies'))
    (hinv : CopyInv g₀ g copies ∧ CopyLen g copies) :
    (CopyInv g₀ g' copies' ∧ CopyLen g' copies') ∧
    ((∀ k v, copies.lookup k = some v → copies'.lookup k = some v) ∧
      (∀ e ∈ g.edges, e ∈ g'.edges)) ∧
    RouteDone g₀ preds g' copies' := by
  unfold copyAtTail at h
  rcases exFold_estab (copyAtTailStep preds)
    (fun b => CopyInv g₀ b.1 b.2 ∧ CopyLen b.1 b.2)
    (fun orig b => ∃ co, b.2.lookup orig = some co ∧
      ∀ is ∈ routeSubs g₀ orig preds, ∃ cs, b.2.lookup is.2.node = some cs ∧
        Edge.mk co is.1 (Subscription.mk cs is.2.port) ∈ b.1.edges)
    (fun b b' => (∀ k v, b.2.lookup k = some v → b'.2.lookup k = some v) ∧
      (∀ e ∈ b.1.edges, e ∈ b'.1.edges))
    (fun orig => orig ∈ preds)
    (fun b a hq hp b' hok => (copyAtTailStep_full hwf hpr hq hok hp).1)
    (fun b a hq hp b' hok => (copyAtTailStep_full hwf hpr hq hok hp).2.1)
    (fun b => ⟨fun k v hv => hv, fun e he => he⟩)
    (fun b₁ b₂ b₃ m1 m2 => ⟨fun k v hv => m2.1 k v (m1.1 k v hv), fun e he => m2.2 e (m1.2 e he)⟩)
    (fun b a hq hp b' hok => (copyAtTailStep_full hwf hpr hq hok hp).2.2)
    (fun a b b' he hm => by
      rcases he with ⟨co, h1, h3⟩
      refine ⟨co, hm.1 _ _ h1, ?_⟩
      intro is hmem
      rcases h3 is hmem with ⟨cs, h4, h5⟩
      exact ⟨cs, hm.1 _ _ h4, hm.2 _ h5⟩)
    preds (fun a ha => ha) (g, copies) (g', copies') hinv h with ⟨hpfin, hmfin, hefin⟩
  exact ⟨hpfin, hmfin, hefin⟩

end Forml
namespace Forml

theorem routeDone_mono {g₀ : Graph} {P : List Nat} {gA gB : Graph}
    {cA cB : List (Nat × Nat)}
    (hrd : RouteDone g₀ P gA cA)
    (hstab : ∀ k v, cA.lookup k = some v → cB.lookup k = some v)
    (hmono : ∀ e ∈ gA.edges, e ∈ gB.edges) :
    RouteDone g₀ P gB cB := by
  intro orig horig
  rcases hrd orig horig with ⟨co, h1, h2⟩
  refine ⟨co, hstab _ _ h1, ?_⟩
  intro is hmem
  rcases h2 is hmem with ⟨cs, h3, h4⟩
  exact ⟨cs, hstab _ _ h3, hmono _ h4⟩

theorem make_preds_sub (c : Nat) (ps : List Nat) :
    ∀ n ∈ ps, n ∈ (Traversal.make c ps).preds := by
  intro n hn
  unfold Traversal.make
  by_cases hc : c ∈ ps
  · rw [if_pos hc]
    exact hn
  · rw [if_neg hc]
    exact List.mem_cons_of_mem _ hn

theorem make_current_mem (c : Nat) (ps : List Nat) :
    (Traversal.make c ps).current ∈ (Traversal.make c ps).preds := by
  unfold Traversal.make
  by_cases hc : c ∈ ps
  · rw [if_pos hc]
    exact hc
  · rw [if_neg hc]
    exact List.mem_cons_self _ _

theorem copy_route (g₀ : Graph) (tailN : Nat) (hwf : wf g₀ = true) :
    ∀ (fuel : Nat) (t : Traversal) (g : Graph) (copies : List (Nat × Nat))
      (g' : Graph) (copies' : List (Nat × Nat)),
      (∀ n ∈ t.preds, n ∈ g₀.ids) →
      t.current ∈ t.preds →
      CopyInv g₀ g copies → CopyLen g copies →
      Traversal.copy g₀ tailN fuel t g copies = .ok (g', copies') →
      (CopyInv g₀ g' copies' ∧ CopyLen g' copies') ∧
      (∀ k v, copies.lookup k = some v → copies'.lookup k = some v) ∧
      (∀ e ∈ g.edges, e ∈ g'.edges) ∧
      (copies' = copies ∨ ∃ P, (∀ n ∈ t.preds, n ∈ P) ∧ tailN ∈ P ∧
        (∀ n ∈ P, n ∈ g₀.ids) ∧ RouteDone g₀ P g' copies')
  | 0, t, g, copies, g', copies', hpr, hcur, hinv, hlen, h => by
    simp [Traversal.copy, throw, throwThe, MonadExceptOf.throw] at h
  | fuel + 1, t, g, copies, g', copies', hpr, hcur, hinv, hlen, h => by
    rw [Traversal.copy] at h
    by_cases htl : (t.current == tailN) = true
    · rw [if_pos htl] at h
      have htn : tailN ∈ t.preds := by
        have : t.current = tailN := by simpa using htl
        rw [← this]
        exact hcur
      rcases copyAtTail_full hwf hpr h ⟨hinv, hlen⟩ with ⟨hpfin, hmfin, hrd⟩
      exact ⟨hpfin, hmfin.1, hmfin.2,
        Or.inr ⟨t.preds, fun n hn => hn, htn, hpr, hrd⟩⟩
    · rw [if_neg htl] at h
      rcases hf : (candidates g₀ t.current [tailN]).foldl
          (exStep (copyWalkStep (Traversal.copy g₀ tailN fuel) t)) (.ok ([], g, copies))
          with e | st
      · rw [hf] at h
        simp [Except.map] at h
      · rw [hf] at h
        have hst : st.2 = (g', copies') := by simpa [Except.map] using h
        have hstep : ∀ (b : List Nat × Graph × List (Nat × Nat)) (c : Nat),
            c ∈ candidates g₀ t.current [tailN] →
            ((CopyInv g₀ b.2.1 b.2.2 ∧ CopyLen b.2.1 b.2.2) ∧
              (∀ k v, copies.lookup k = some v → b.2.2.lookup k = some v) ∧
              (∀ e ∈ g.edges, e ∈ b.2.1.edges) ∧
              (b.2.2 = copies ∨ ∃ P, (∀ n ∈ t.preds, n ∈ P) ∧ tailN ∈ P ∧
                (∀ n ∈ P, n ∈ g₀.ids) ∧ RouteDone g₀ P b.2.1 b.2.2)) →
            ∀ b', copyWalkStep (Traversal.copy g₀ tailN fuel) t b c = .ok b' →
            ((CopyInv g₀ b'.2.1 b'.2.2 ∧ CopyLen b'.2.1 b'.2.2) ∧
              (∀ k v, copies.lookup k = some v → b'.2.2.lookup k = some v) ∧
              (∀ e ∈ g.edges, e ∈ b'.2.1.edges) ∧
              (b'.2.2 = copies ∨ ∃ P, (∀ n ∈ t.preds, n ∈ P) ∧ tailN ∈ P ∧
                (∀ n ∈ P, n ∈ g₀.ids) ∧ RouteDone g₀ P b'.2.1 b'.2.2)) := by
          intro b c hc hp b' hok
          unfold copyWalkStep at hok
          by_cases hskip : (c ∈ b.1) ∨ trainedN b.2.1 c = true
          · rw [if_pos hskip] at hok
            have hb : b = b' := by simpa [pure, Except.pure] using hok
            rw [← hb]
            exact hp
          · rw [if_neg hskip] at hok
            by_cases hcp : c ∈ t.preds
            · rw [if_pos hcp] at hok
              simp [throw, throwThe, MonadExceptOf.throw] at hok
            · rw [if_neg hcp] at hok
              rcases hrec : Traversal.copy g₀ tailN fuel (Traversal.make c t.preds) b.2.1 b.2.2
                  with e | gc
              · rw [hrec] at hok
                simp at hok
              · rcases gc with ⟨g2, copies2⟩
                rw [hrec] at hok
                have hb' : ((c :: b.1, g2, copies2) :
                    List Nat × Graph × List (Nat × Nat)) = b' := by simpa using hok
                have hcid : c ∈ g₀.ids := candidates_mem_ids hwf hc
                have hpr' : ∀ n ∈ (Traversal.make c t.preds).preds, n ∈ g₀.ids := by
                  intro n hn
                  unfold Traversal.make at hn
                  by_cases hmem : c ∈ t.preds
                  · rw [if_pos hmem] at hn
                    exact hpr n hn
                  · rw [if_neg hmem] at hn
                    rcases List.mem_cons.mp hn with h1 | h1
                    · rw [h1]
                      exact hcid
                    · exact hpr n h1
                rcases copy_route g₀ tailN hwf fuel (Traversal.make c t.preds)
                  b.2.1 b.2.2 g2 copies2 hpr' (make_current_mem c t.preds)
                  hp.1.1 hp.1.2 hrec with ⟨hpfin, hstab, hmono, hdisj⟩
                rw [← hb']
                refine ⟨hpfin, ?_, ?_, ?_⟩
                · intro k v hkv
                  exact hstab k v (hp.2.1 k v hkv)
                · intro e he
                  exact hmono e (hp.2.2.1 e he)
                · rcases hdisj with hd | ⟨P, hP1, hP2, hP3, hP4⟩
                  · rcases hp.2.2.2 with hd2 | ⟨P, hP1, hP2, hP3, hP4⟩
                    · exact Or.inl (hd.trans hd2)
                    · exact Or.inr ⟨P, hP1, hP2, hP3, routeDone_mono hP4
                        (fun k v hv => hd ▸ hstab k v hv) hmono⟩
                  · refine Or.inr ⟨P, ?_, hP2, hP3, hP4⟩
                    intro n hn
                    exact hP1 n (make_preds_sub c t.preds n hn)
        have hres := exFold_inv (copyWalkStep (Traversal.copy g₀ tailN fuel) t)
          (fun b => (CopyInv g₀ b.2.1 b.2.2 ∧ CopyLen b.2.1 b.2.2) ∧
            (∀ k v, copies.lookup k = some v → b.2.2.lookup k = some v) ∧
            (∀ e ∈ g.edges, e ∈ b.2.1.edges) ∧
            (b.2.2 = copies ∨ ∃ P, (∀ n ∈ t.preds, n ∈ P) ∧ tailN ∈ P ∧
              (∀ n ∈ P, n ∈ g₀.ids) ∧ RouteDone g₀ P b.2.1 b.2.2))
          (fun c => c ∈ candidates g₀ t.current [tailN])
          hstep
          (candidates g₀ t.current [tailN]) (fun a ha => ha)
          ([], g, copies) st
          ⟨⟨hinv, hlen⟩, fun k v hv => hv, fun e he => he, Or.inl rfl⟩ hf
        have hres' : (CopyInv g₀ st.2.1 st.2.2 ∧ CopyLen st.2.1 st.2.2) ∧
            (∀ k v, copies.lookup k = some v → st.2.2.lookup k = some v) ∧
            (∀ e ∈ g.edges, e ∈ st.2.1.edges) ∧
            (st.2.2 = copies ∨ ∃ P, (∀ n ∈ t.preds, n ∈ P) ∧ tailN ∈ P ∧
              (∀ n ∈ P, n ∈ g₀.ids) ∧ RouteDone g₀ P st.2.1 st.2.2) := hres
        rw [hst] at hres'
        exact hres'

end Forml
namespace Forml

theorem pathCopy_route {g : Graph} {fuel : Nat} {p : PathV} {g' : Graph} {q : PathV}
    (hwf : wf g = true) (hhead : p.head ∈ g.ids)
    (hc : pathCopy g fuel p = .ok (g', q)) :
    ∃ (copies : List (Nat × Nat)) (P : List Nat),
      CopyInv g g' copies ∧
      copies.lookup p.head = some q.head ∧
      p.head ∈ P ∧ p.tail ∈ P ∧ (∀ n ∈ P, n ∈ g.ids) ∧
      RouteDone g P g' copies := by
  unfold pathCopy at hc
  rcases hcp : Traversal.copy g p.tail fuel (Traversal.make p.head []) g [] with e | gc
  · rw [hcp] at hc
    simp at hc
  · rcases gc with ⟨g1, copies⟩
    rw [hcp] at hc
    rcases hlh : copies.lookup p.head with _ | ch
    · simp only [hlh] at hc
      simp [throw, throwThe, MonadExceptOf.throw] at hc
    rcases hlt : copies.lookup p.tail with _ | ct
    · simp only [hlh, hlt] at hc
      simp [throw, throwThe, MonadExceptOf.throw] at hc
    simp only [hlh, hlt] at hc
    rcases hpn : pathNew g1 fuel ch (some ct) with e | q'
    · rw [hpn] at hc
      simp [Except.map] at hc
    rw [hpn] at hc
    have hgq : (g1, q') = (g', q) := by simpa [Except.map] using hc
    have hg1 : g1 = g' := congrArg Prod.fst hgq
    have hq' : q' = q := congrArg Prod.snd hgq
    have hinv0 : CopyInv g g [] := ⟨fun n h => h, wf_nodup hwf, fun n _ => rfl, by simp⟩
    have hlen0 : CopyLen g [] := fun oc hoc => absurd hoc (List.not_mem_nil _)
    have hpr : ∀ n ∈ (Traversal.make p.head []).preds, n ∈ g.ids := by
      intro n hn
      rw [make_root] at hn
      have hn2 : n = p.head := by simpa using hn
      rw [hn2]
      exact hhead
    rcases copy_route g p.tail hwf fuel (Traversal.make p.head []) g [] g1 copies hpr
      (make_current_mem p.head []) hinv0 hlen0 hcp with ⟨⟨hinvF, _⟩, _, _, hdisj⟩
    rcases hdisj with hd | ⟨P, hP1, hP2, hP3, hRD⟩
    · rw [hd] at hlh
      simp at hlh
    · have hqh : q.head = ch := by
        rcases pathNew_ok_shape hpn with ⟨t, _, _, _, _, _, _, _, hq'eq⟩
        rw [← hq', hq'eq]
      refine ⟨copies, P, ?_, ?_, ?_, hP2, hP3, ?_⟩
      · rw [← hg1]
        exact hinvF
      · rw [hqh]
        exact hlh
      · refine hP1 p.head ?_
        rw [make_root]
        exact List.mem_singleton.mpr rfl
      · rw [← hg1]
        exact hRD

end Forml
namespace Forml

/-- C5 (corrected): `copy()` returns a path whose head and resolved tail
are fresh nodes, each a `fork()` of an on-path original — identical worker
discriminant, arities, spec and, contrary to the original claim, joined to
the SAME fork group.  Every node of the walked head-to-tail route is
materialized by `fork()`, and the copy reproduces the route's Apply-edge
topology: every original subscription between route nodes reappears between
their copies at the same output index and port, every copy carries only
Apply input ports, and every edge leaving a copy targets a copy (so no edge
into a trained sink is reproduced); all original nodes are untouched.
`fork()` itself allocates a fresh node with the source's spec, arities and
fork group, empty ports, and fails with `ForkTrained` on a trained
source. -/
theorem claim_C5 (g : Graph) (fuel : Nat) (p : PathV) (g' : Graph) (q : PathV)
    (hwf : wf g = true) (hhead : p.head ∈ g.ids)
    (hc : pathCopy g fuel p = .ok (g', q)) :
    (q.head ∉ g.ids ∧ q.tail ∉ g.ids) ∧
    (∃ i₀ i, g.info p.head = some i₀ ∧ g'.info q.head = some i ∧
      i.worker = i₀.worker ∧ i.szin = i₀.szin ∧ i.szout = i₀.szout ∧
      i.spec = i₀.spec ∧ i.fgroup = i₀.fgroup ∧ i.input.all Port.isApply = true) ∧
    (∃ o, (o = p.tail ∨ o = p.head) ∧
      ∃ i₀ i, g.info o = some i₀ ∧ g'.info q.tail = some i ∧
        i.worker = i₀.worker ∧ i.szin = i₀.szin ∧ i.szout = i₀.szout ∧
        i.spec = i₀.spec ∧ i.fgroup = i₀.fgroup ∧ i.input.all Port.isApply = true) ∧
    (∀ n ∈ g.ids, g'.info n = g.info n) ∧
    (∃ (copies : List (Nat × Nat)) (P : List Nat),
      p.head ∈ P ∧ p.tail ∈ P ∧
      copies.lookup p.head = some q.head ∧
      (∀ orig ∈ P, ∃ co i₀ i, copies.lookup orig = some co ∧ co ∉ g.ids ∧
        g.info orig = some i₀ ∧ g'.info co = some i ∧ trainedI i₀ = false ∧
        i.worker = i₀.worker ∧ i.szin = i₀.szin ∧ i.szout = i₀.szout ∧
        i.spec = i₀.spec ∧ i.fgroup = i₀.fgroup ∧ i.input.all Port.isApply = true) ∧
      (∀ orig ∈ P, ∀ co, copies.lookup orig = some co →
        ∀ is ∈ routeSubs g orig P, ∃ cs, copies.lookup is.2.node = some cs ∧
          Edge.mk co is.1 (Subscription.mk cs is.2.port) ∈ g'.edges) ∧
      (∀ oc ∈ copies, ∃ i, g'.info oc.2 = some i ∧ i.input.all Port.isApply = true ∧
        ∀ s ∈ i.output.flatten, s.node ∈ copies.map (fun x => x.2))) ∧
    (∀ (g2 : Graph) (n : Nat) (g3 : Graph) (c : Nat), forkOp g2 n = .ok (g3, c) →
      c ∉ g2.ids ∧ ∃ i₀, g2.info n = some i₀ ∧ trainedI i₀ = false ∧
        g3.info c = some (forkInfo i₀) ∧ (forkInfo i₀).fgroup = i₀.fgroup ∧
        (forkInfo i₀).spec = i₀.spec ∧ (forkInfo i₀).szin = i₀.szin ∧
        (forkInfo i₀).szout = i₀.szout ∧ (forkInfo i₀).worker = i₀.worker ∧
        (forkInfo i₀).input = [] ∧ trainedI (forkInfo i₀) = false) ∧
    (∀ (g2 : Graph) (n : Nat), trainedN g2 n = true →
      forkOp g2 n = .error Err.forkTrained) := by
  rcases pathCopy_anatomy hwf hhead hc with
    ⟨copies, ch, ct, t, hinv, hlh, hlt, htail, hqh, hqt, hqc, htc⟩
  rcases pathCopy_route hwf hhead hc with
    ⟨copies2, P, hinvR, hlookH, hPh, hPt, hPsub, hRD⟩
  have hheadmem : (p.head, ch) ∈ copies := lookup_mem hlh
  have htailmem : (p.tail, ct) ∈ copies := lookup_mem hlt
  rcases hinv.2.2.2 (p.head, ch) hheadmem with
    ⟨_, hch0, hi₀, hi, hio, hci, htr, f1, f2, f3, f4, f5, hall, _⟩
  refine ⟨⟨?_, ?_⟩, ?_, ?_, hinv.2.2.1, ?_, ?_, ?_⟩
  · rw [hqh]
    exact hch0
  · rcases List.mem_map.mp htc with ⟨oct, hoct, hoct2⟩
    rw [hqt, ← hoct2]
    exact (hinv.2.2.2 oct hoct).2.1
  · exact ⟨hi₀, hi, hio, by rw [hqh]; exact hci, f1, f2, f3, f4, f5, hall⟩
  · rcases tail_root_some g' fuel ch ct t htail with hcase | hcase
    · rcases hinv.2.2.2 (p.tail, ct) htailmem with
        ⟨_, _, j₀, j, hjo, hcj, _, e1, e2, e3, e4, e5, hallj, _⟩
      exact ⟨p.tail, Or.inl rfl, j₀, j, hjo, by rw [hqt, hcase]; exact hcj,
        e1, e2, e3, e4, e5, hallj⟩
    · exact ⟨p.head, Or.inr rfl, hi₀, hi, hio, by rw [hqt, hcase.1]; exact hci,
        f1, f2, f3, f4, f5, hall⟩
  · refine ⟨copies2, P, hPh, hPt, hlookH, ?_, ?_, ?_⟩
    · intro orig horig
      rcases hRD orig horig with ⟨co, hlk, _⟩
      have hmem := lookup_mem hlk
      rcases hinvR.2.2.2 (orig, co) hmem with
        ⟨_, ho2, i₀, i, hio2, hci2, htr2, g1f, g2f, g3f, g4f, g5f, hall2, _⟩
      exact ⟨co, i₀, i, hlk, ho2, hio2, hci2, htr2, g1f, g2f, g3f, g4f, g5f, hall2⟩
    · intro orig horig co hco is hmem
      rcases hRD orig horig with ⟨co2, hlk2, hE⟩
      have hcoeq : co = co2 := Option.some.inj (hco.symm.trans hlk2)
      rcases hE is hmem with ⟨cs, h1, h2⟩
      refine ⟨cs, h1, ?_⟩
      rw [hcoeq]
      exact h2
    · intro oc hoc
      rcases hinvR.2.2.2 oc hoc with
        ⟨_, _, i₀, i, _, hci2, _, _, _, _, _, _, hall2, hout2⟩
      exact ⟨i, hci2, hall2, hout2⟩
  · intro g2 n g3 c hf
    rcases forkOp_ok hf with ⟨i₀, hi₀n, htrn, hcf, hgf⟩
    have hfresh : c ∉ g2.ids := by
      rw [hcf]
      exact fresh_not_mem g2
    refine ⟨hfresh, i₀, hi₀n, htrn, ?_, rfl, rfl, rfl, rfl, rfl, rfl, ?_⟩
    · rw [hgf]
      exact info_append_new hfresh
    · simp [trainedI, forkInfo]
  · intro g2 n htn
    unfold trainedN at htn
    rcases hi2 : g2.info n with _ | i2
    · simp only [hi2] at htn
      simp at htn
    · simp only [hi2] at htn
      unfold forkOp
      simp only [hi2]
      rw [if_pos htn]
      simp [throw, throwThe, MonadExceptOf.throw]

end Forml
namespace Forml

theorem claim_C5_witness :
    wf G1 = true ∧ (⟨1, 2, true⟩ : PathV).head ∈ G1.ids ∧
    ((((⟨5, 4, false⟩ : PathV).head ∉ G1.ids ∧ (⟨5, 4, false⟩ : PathV).tail ∉ G1.ids) ∧
     (∃ i₀ i, G1.info (⟨1, 2, true⟩ : PathV).head = some i₀ ∧
        G1c.info (⟨5, 4, false⟩ : PathV).head = some i ∧
        i.worker = i₀.worker ∧ i.szin = i₀.szin ∧ i.szout = i₀.szout ∧
        i.spec = i₀.spec ∧ i.fgroup = i₀.fgroup ∧ i.input.all Port.isApply = true) ∧
     (∃ o, (o = (⟨1, 2, true⟩ : PathV).tail ∨ o = (⟨1, 2, true⟩ : PathV).head) ∧
        ∃ i₀ i, G1.info o = some i₀ ∧ G1c.info (⟨5, 4, false⟩ : PathV).tail = some i ∧
          i.worker = i₀.worker ∧ i.szin = i₀.szin ∧ i.szout = i₀.szout ∧
          i.spec = i₀.spec ∧ i.fgroup = i₀.fgroup ∧ i.input.all Port.isApply = true) ∧
     (∀ n ∈ G1.ids, G1c.info n = G1.info n) ∧
     (∃ (copies : List (Nat × Nat)) (P : List Nat),
        (⟨1, 2, true⟩ : PathV).head ∈ P ∧ (⟨1, 2, true⟩ : PathV).tail ∈ P ∧
        copies.lookup (⟨1, 2, true⟩ : PathV).head = some (⟨5, 4, false⟩ : PathV).head ∧
        (∀ orig ∈ P, ∃ co i₀ i, copies.lookup orig = some co ∧ co ∉ G1.ids ∧
          G1.info orig = some i₀ ∧ G1c.info co = some i ∧ trainedI i₀ = false ∧
          i.worker = i₀.worker ∧ i.szin = i₀.szin ∧ i.szout = i₀.szout ∧
          i.spec = i₀.spec ∧ i.fgroup = i₀.fgroup ∧ i.input.all Port.isApply = true) ∧
        (∀ orig ∈ P, ∀ co, copies.lookup orig = some co →
          ∀ is ∈ routeSubs G1 orig P, ∃ cs, copies.lookup is.2.node = some cs ∧
            Edge.mk co is.1 (Subscription.mk cs is.2.port) ∈ G1c.edges) ∧
        (∀ oc ∈ copies, ∃ i, G1c.info oc.2 = some i ∧ i.input.all Port.isApply = true ∧
          ∀ s ∈ i.output.flatten, s.node ∈ copies.map (fun x => x.2))) ∧
     (∀ (g2 : Graph) (n : Nat) (g3 : Graph) (c : Nat), forkOp g2 n = .ok (g3, c) →
        c ∉ g2.ids ∧ ∃ i₀, g2.info n = some i₀ ∧ trainedI i₀ = false ∧
          g3.info c = some (forkInfo i₀) ∧ (forkInfo i₀).fgroup = i₀.fgroup ∧
          (forkInfo i₀).spec = i₀.spec ∧ (forkInfo i₀).szin = i₀.szin ∧
          (forkInfo i₀).szout = i₀.szout ∧ (forkInfo i₀).worker = i₀.worker ∧
          (forkInfo i₀).input = [] ∧ trainedI (forkInfo i₀) = false) ∧
     (∀ (g2 : Graph) (n : Nat), trainedN g2 n = true →
        forkOp g2 n = .error Err.forkTrained))) :=
  ⟨by decide, by decide,
    claim_C5 G1 9 ⟨1, 2, true⟩ G1c ⟨5, 4, false⟩ (by decide) (by decide) (by decide)⟩

end Forml
namespace Forml

theorem eachFold_complete (g : Graph) (tailN : Nat)
    (rec : Traversal → List Nat → Except Err (List Nat))
    (hrec : ∀ t' cur gs', rec t' cur = .ok gs' → t'.current ∉ cur →
      (∃ ext, gs' = cur ++ t'.current :: ext) ∧
      (∀ u ∈ gs', u ∉ cur →
        ∀ c ∈ candidates g u [tailN],
          ((u == tailN) = false ∨ trainedN g c = true) → c ∈ gs'))
    (t : Traversal) :
    ∀ (cs lseen cur : List Nat) (st' : List Nat × List Nat),
      (∀ x ∈ lseen, x ∈ cur) →
      List.foldl (exStep (eachStep g tailN rec t)) (.ok (lseen, cur)) cs = .ok st' →
      (∃ ext, st'.2 = cur ++ ext) ∧
      (∀ c ∈ cs, ((t.current == tailN) = false ∨ trainedN g c = true) → c ∈ st'.2) ∧
      (∀ u ∈ st'.2, u ∉ cur →
        ∀ c ∈ candidates g u [tailN],
          ((u == tailN) = false ∨ trainedN g c = true) → c ∈ st'.2)
  | [], lseen, cur, st', _, hok => by
    have hst : st' = (lseen, cur) := by simpa using hok.symm
    subst hst
    refine ⟨⟨[], by simp⟩, by simp, ?_⟩
    intro u hu hnot
    exact absurd hu hnot
  | c :: cs, lseen, cur, st', hsub, hok => by
    rw [List.foldl_cons] at hok
    by_cases hskip : (c ∈ lseen) ∨ (c ∈ cur) ∨ (t.current == tailN ∧ trainedN g c = false)
    · rw [show exStep (eachStep g tailN rec t) (.ok (lseen, cur)) c = .ok (lseen, cur) from by
        simp only [exStep, eachStep]
        rw [if_pos hskip]
        rfl] at hok
      rcases eachFold_complete g tailN rec hrec t cs lseen cur st' hsub hok with
        ⟨⟨ext, hext⟩, h2, h3⟩
      refine ⟨⟨ext, hext⟩, ?_, h3⟩
      intro x hx hm
      rcases List.mem_cons.mp hx with h1 | h1
      · have hcur : c ∈ cur := by
          rcases hskip with hs | hs | hs
          · exact hsub c hs
          · exact hs
          · exfalso
            rw [h1] at hm
            rcases hm with hm | hm
            · rw [hm] at hs
              simp at hs
            · rw [hm] at hs
              simp at hs
        rw [h1, hext]
        exact List.mem_append_left _ hcur
      · exact h2 x h1 hm
    · by_cases hpred : c ∈ t.preds
      · rw [show exStep (eachStep g tailN rec t) (.ok (lseen, cur)) c
            = .error Err.cyclic from by
          simp only [exStep, eachStep]
          rw [if_neg hskip, if_pos hpred]
          rfl] at hok
        rw [exFold_from_error] at hok
        simp at hok
      · push_neg at hskip
        rcases hr : rec (Traversal.make c t.preds) cur with e | gs'
        · rw [show exStep (eachStep g tailN rec t) (.ok (lseen, cur)) c
              = .error e from by
            simp only [exStep, eachStep]
            rw [if_neg (by push_neg; exact hskip), if_neg hpred, hr]] at hok
          rw [exFold_from_error] at hok
          simp at hok
        · rw [show exStep (eachStep g tailN rec t) (.ok (lseen, cur)) c
              = .ok (c :: lseen, gs') from by
            simp only [exStep, eachStep]
            rw [if_neg (by push_neg; exact hskip), if_neg hpred, hr]] at hok
          have hcnot : (Traversal.make c t.preds).current ∉ cur := by
            simpa [Traversal.make] using hskip.2.1
          rcases hrec _ cur gs' hr hcnot with ⟨⟨ext1, hext1⟩, hcomp1⟩
          have hccur : c ∈ gs' := by
            rw [hext1]
            refine List.mem_append_right _ ?_
            exact List.mem_cons_self _ _
          have hsub' : ∀ x ∈ c :: lseen, x ∈ gs' := by
            intro x hx
            rcases List.mem_cons.mp hx with h1 | h1
            · rw [h1]
              exact hccur
            · rw [hext1]
              exact List.mem_append_left _ (hsub x h1)
          rcases eachFold_complete g tailN rec hrec t cs (c :: lseen) gs' st' hsub' hok with
            ⟨⟨ext2, hext2⟩, h2, h3⟩
          have hsub2 : ∀ x ∈ gs', x ∈ st'.2 := by
            intro x hx
            rw [hext2]
            exact List.mem_append_left _ hx
          refine ⟨⟨(Traversal.make c t.preds).current :: ext1 ++ ext2, by
            rw [hext2, hext1]
            simp⟩, ?_, ?_⟩
          · intro x hx hm
            rcases List.mem_cons.mp hx with h1 | h1
            · rw [h1]
              exact hsub2 c hccur
            · exact h2 x h1 hm
          · intro u hu hucur c' hc' hm'
            by_cases hgs : u ∈ gs'
            · exact hsub2 c' (hcomp1 u hgs hucur c' hc' hm')
            · exact h3 u hu hgs c' hc' hm'

theorem each_complete (g : Graph) (tailN : Nat) :
    ∀ (fuel : Nat) (t : Traversal) (seen0 gs : List Nat),
      Traversal.each g tailN fuel t seen0 = .ok gs →
      t.current ∉ seen0 →
      (∃ ext, gs = seen0 ++ t.current :: ext) ∧
      (∀ u ∈ gs, u ∉ seen0 →
        ∀ c ∈ candidates g u [tailN],
          ((u == tailN) = false ∨ trainedN g c = true) → c ∈ gs)
  | 0, t, seen0, gs => by
    intro h _
    simp [Traversal.each, throw, throwThe, MonadExceptOf.throw] at h
  | fuel + 1, t, seen0, gs => by
    intro hok hnotin
    rw [Traversal.each] at hok
    rcases hf : List.foldl (exStep (eachStep g tailN (Traversal.each g tailN fuel) t))
        (.ok ([], seen0 ++ [t.current])) (candidates g t.current [tailN]) with e | st'
    · rw [hf] at hok
      simp [Except.map] at hok
    · rw [hf] at hok
      have hgs : gs = st'.2 := by simpa [Except.map] using hok.symm
      rcases eachFold_complete g tailN (Traversal.each g tailN fuel)
        (fun t' cur gs' h1 h2 => each_complete g tailN fuel t' cur gs' h1 h2) t
        (candidates g t.current [tailN]) [] (seen0 ++ [t.current]) st'
        (by simp) hf with ⟨⟨ext, hext⟩, h2, h3⟩
      refine ⟨⟨ext, by rw [hgs, hext]; simp⟩, ?_⟩
      intro u hu hu0 c hc hm
      by_cases hut : u = t.current
      · rw [hgs]
        refine h2 c ?_ ?_
        · rw [← hut]
          exact hc
        · rw [← hut]
          exact hm
      · rw [hgs]
        refine h3 u (hgs ▸ hu) ?_ c hc hm
        intro hmem
        rcases List.mem_append.mp hmem with h4 | h4
        · exact hu0 h4
        · exact hut (by simpa using h4)

end Forml
namespace Forml

/-- C6 (amended): a successful `Path.accept` emits the node visits followed
by exactly one final path visit; the visit list is duplicate-free, starts at
the head, every other visited node is a direct subscriber of some visited
node, and — completeness — every subscriber of a visited node other than
the tail is itself visited, while at the tail every trained subscriber is
visited; the produced visit sequence is the unique (deterministic) outcome
of the traversal. -/
theorem claim_C6 (g : Graph) (fuel : Nat) (p : PathV) (evs : List Ev)
    (hok : pathAccept g fuel p = .ok evs) :
    ∃ vs : List Nat, evs = vs.map Ev.node ++ [Ev.path] ∧ vs.Nodup ∧
      vs.head? = some p.head ∧
      (∀ v ∈ vs, v = p.head ∨ ∃ u ∈ vs, ∃ s ∈ outSubs g u, s.node = v) ∧
      (∀ u ∈ vs, ∀ s ∈ outSubs g u,
        (u = p.tail → trainedN g s.node = true) → s.node ∈ vs) ∧
      (∀ evs', pathAccept g fuel p = .ok evs' → evs' = evs) := by
  unfold pathAccept at hok
  rcases he : Traversal.each g p.tail fuel (Traversal.make p.head []) [] with e | vs
  · rw [he] at hok
    simp [Except.map] at hok
  · rw [he] at hok
    have hevs : evs = vs.map Ev.node ++ [Ev.path] := by simpa [Except.map] using hok.symm
    rcases each_props g p.tail fuel (Traversal.make p.head []) [] vs he
      (List.not_mem_nil _) with ⟨⟨ext, hext⟩, hnd, hreach⟩
    rcases each_complete g p.tail fuel (Traversal.make p.head []) [] vs he
      (List.not_mem_nil _) with ⟨_, hcomp⟩
    refine ⟨vs, hevs, hnd (by simp), ?_, ?_, ?_, ?_⟩
    · rw [hext, make_root]
      rfl
    · intro v hv
      rcases hreach v hv with h | h | h
      · simp at h
      · exact Or.inl (by rw [h, make_root])
      · exact Or.inr h
    · intro u hu s hs hcond
      have hc : s.node ∈ candidates g u [p.tail] := sub_candidates [p.tail] hs
      have hmask : ((u == p.tail) = false ∨ trainedN g s.node = true) := by
        by_cases hue : u = p.tail
        · exact Or.inr (hcond hue)
        · refine Or.inl ?_
          simp only [beq_eq_false_iff_ne]
          exact hue
      exact hcomp u hu (List.not_mem_nil u) s.node hc hmask
    · intro evs' hok'
      unfold pathAccept at hok'
      rw [he] at hok'
      have h1 : evs' = vs.map Ev.node ++ [Ev.path] := by simpa [Except.map] using hok'.symm
      rw [h1, ← hevs]

theorem claim_C6_witness : ∃ vs : List Nat,
    [Ev.node 1, Ev.node 2, Ev.node 4, Ev.path] = vs.map Ev.node ++ [Ev.path] ∧ vs.Nodup ∧
    vs.head? = some (⟨1, 2, false⟩ : PathV).head ∧
    (∀ v ∈ vs, v = (⟨1, 2, false⟩ : PathV).head ∨
      ∃ u ∈ vs, ∃ s ∈ outSubs G4 u, s.node = v) ∧
    (∀ u ∈ vs, ∀ s ∈ outSubs G4 u,
      (u = (⟨1, 2, false⟩ : PathV).tail → trainedN G4 s.node = true) → s.node ∈ vs) ∧
    (∀ evs', pathAccept G4 9 ⟨1, 2, false⟩ = .ok evs' →
      evs' = [Ev.node 1, Ev.node 2, Ev.node 4, Ev.path]) :=
  claim_C6 G4 9 ⟨1, 2, false⟩ _ (by decide)

end Forml
